import Mathlib

/-!
Verification of the schema-reconstruction pipeline of the
`cleaning_Database_Normalization` repository (module `schema.py`).

The Python functions are shallowly embedded as Lean definitions over
`String` / `List Char` (text processing), an inductive `PyVal` type
(dynamically-typed JSON-like values), and explicit outcome streams
(the external generation-service call).  Python exceptions are modelled
with `Except` / `Option`; `try/except` blocks map error values to the
Python handler's result.
-/

set_option maxHeartbeats 1000000

/-! ## Character and string utilities (Python `str` semantics) -/

/-- Python whitespace characters (ASCII), as stripped by `str.strip()`
and matched by the regex class `\s`. -/
def isPyWS (c : Char) : Bool :=
  c = ' ' || c = '\t' || c = '\n' || c = '\r' || c = '\x0b' || c = '\x0c'

/-- Characters matched by the regex class `\w` (ASCII). -/
def isWordChar (c : Char) : Bool :=
  c.isAlpha || c.isDigit || c = '_'

/-- Drop leading Python whitespace (the left half of `str.strip()`). -/
def dropLeadWS (cs : List Char) : List Char := cs.dropWhile isPyWS

/-- Drop trailing Python whitespace (the right half of `str.strip()`). -/
def dropTrailWS (cs : List Char) : List Char :=
  (cs.reverse.dropWhile isPyWS).reverse

/-- Python `str.strip()` on the character list of a string. -/
def pyStrip (cs : List Char) : List Char := dropTrailWS (dropLeadWS cs)

/-- Python `str.strip()` returning a `String`. -/
def pyStripStr (s : String) : String := String.mk (pyStrip s.data)

/-- Python `str.rstrip(",\n")`: drop all trailing commas and newlines. -/
def rstripCommaNl (s : String) : String :=
  String.mk ((s.data.reverse.dropWhile (fun c => c = ',' || c = '\n')).reverse)

/-- Python `str.upper()` on ASCII text, character by character. -/
def pyUpper (s : String) : String := String.mk (s.data.map Char.toUpper)

/-- Does `cs` start with the literal pattern `pat`? -/
def startsWithL (pat cs : List Char) : Bool :=
  cs.take pat.length = pat

/-- Does `cs` start with the pattern `pat`, comparing case-insensitively
(Python `re.IGNORECASE` on ASCII letters)? -/
def startsWithCI (pat cs : List Char) : Bool :=
  (cs.take pat.length).map Char.toLower = pat.map Char.toLower

/-! ## `suggest_schema_improvements`, DDL synthesis (schema.py lines 216-255)

One catalog row, as returned by `get_schema` and consumed by the
synthesis loop.  Every field the loop reads through `row.get(...)` is an
`Option`, `none` standing for an absent key / SQL `NULL`. -/

structure CatalogRow where
  table_name : Option String
  column_name : Option String
  data_type : Option String
  max_length : Option Int
  is_nullable : Option Bool
  is_primary_key : Option Bool
  is_foreign_key : Option Bool
  ReferenceTable : Option String
  referenced_table : Option String
  ReferenceColumn : Option String
  referenced_column : Option String
deriving DecidableEq, Repr

/-- A `CatalogRow` with every field absent. -/
def CatalogRow.blank : CatalogRow :=
  ⟨none, none, none, none, none, none, none, none, none, none, none⟩

/-- The length qualifier emitted for one column, from
`max_length = abs(row.get("max_length", 0))` and
`if data_type.upper() in ["VARCHAR", "NVARCHAR"]:
   schema_text += f"(\x7bmax_length if max_length > 0 else 255\x7d)"`
(schema.py lines 233-237). -/
def emitLength (data_type : String) (max_length : Option Int) : String :=
  let m : Int := |max_length.getD 0|
  if pyUpper data_type = "VARCHAR" || pyUpper data_type = "NVARCHAR" then
    "(" ++ (if m > 0 then toString m else "255") ++ ")"
  else
    ""

/-- Python `row.get("ReferenceTable", "") or row.get("referenced_table", "")`:
the first string that is truthy (non-empty), else `""`. -/
def pyStrOr (a b : Option String) : String :=
  let x := a.getD ""
  if x ≠ "" then x else b.getD ""

/-- The text fragment appended for one catalog row (one column), from
schema.py lines 231-251: column name (default `UnknownColumn`), data type
(default `VARCHAR`), optional length, nullability (default nullable),
optional `PRIMARY KEY` and `FOREIGN KEY REFERENCES t(c)` markers, and the
trailing `,\n` separator. -/
def columnFragment (row : CatalogRow) : String :=
  let colName := row.column_name.getD "UnknownColumn"
  let dataType := row.data_type.getD "VARCHAR"
  let fkPart :=
    if row.is_foreign_key.getD false then
      let rt := pyStrOr row.ReferenceTable row.referenced_table
      let rc := pyStrOr row.ReferenceColumn row.referenced_column
      if rt ≠ "" ∧ rc ≠ "" then
        " FOREIGN KEY REFERENCES " ++ rt ++ "(" ++ rc ++ ")"
      else ""
    else ""
  "  [" ++ colName ++ "] " ++ dataType ++ emitLength dataType row.max_length
    ++ (if row.is_nullable.getD true then " NULL" else " NOT NULL")
    ++ (if row.is_primary_key.getD false then " PRIMARY KEY" else "")
    ++ fkPart ++ ",\n"

/-- One step of the synthesis loop (schema.py lines 218-251).  The state is
the accumulated text and the current table name; a row without a
`table_name` is skipped; a row with a new table name first closes the
previous table (`rstrip(",\n") + "\n);\n\n"`) and opens a new
`CREATE TABLE [name] (` block. -/
def synthStep (st : String × Option String) (row : CatalogRow) :
    String × Option String :=
  match row.table_name with
  | none => st
  | some tn =>
    let text := st.1
    let current := st.2
    let text1 :=
      if some tn ≠ current then
        (if current.isSome then rstripCommaNl text ++ "\n);\n\n" else text)
          ++ "CREATE TABLE [" ++ tn ++ "] (\n"
      else text
    (text1 ++ columnFragment row, some tn)

/-- The DDL text synthesized from the catalog rows
(schema.py lines 216-255, before `fix_sql_schema`):
fold the synthesis loop over the rows, then close the last table. -/
def buildSchemaText (rows : List CatalogRow) : String :=
  let st := rows.foldl synthStep ("", none)
  if st.2.isSome then rstripCommaNl st.1 ++ "\n);" else st.1

/-! ## `call_llm_single` (schema.py lines 52-74)

The single attempt of the external generation call (`call_llm`) is
modelled as an abstract outcome: a returned value (possibly `None`), an
HTTP error with a status code, or any other exception. -/

inductive LlmAttempt where
  | success (v : Option String)
  | httpError (status : Nat)
  | failure
deriving DecidableEq, Repr

/-- The retry loop of `call_llm_single`, with the remaining number of
allowed attempts as first argument (`max_retries - retries`) and the
current `retries` counter as second.  Returns the result string together
with the list of back-off sleeps performed (`base_delay * 2 ** retries`
before each retry).  A rate-limit (HTTP 429) outcome is retried; a `None`
result, any other HTTP error and any other exception yield `""`
immediately; exhausting the attempts yields `""`. -/
def callLlmGo (call : Nat → LlmAttempt) (base_delay : Nat) :
    Nat → Nat → String × List Nat
  | 0, _ => ("", [])
  | left + 1, retries =>
    match call retries with
    | .success none => ("", [])
    | .success (some r) => (pyStripStr r, [])
    | .httpError status =>
      if status = 429 then
        let rest := callLlmGo call base_delay left (retries + 1)
        (rest.1, base_delay * 2 ^ retries :: rest.2)
      else ("", [])
    | .failure => ("", [])

/-- `call_llm_single(prompt, max_retries=5, base_delay=2)` as a function of
the outcome stream of the underlying `call_llm` attempts. -/
def call_llm_single (call : Nat → LlmAttempt) (max_retries base_delay : Nat) :
    String × List Nat :=
  callLlmGo call base_delay max_retries 0

/-! ## `clean_json_string` (schema.py lines 29-51) -/

/-- `re.sub(r"^```json\s*", "", cleaned, flags=re.IGNORECASE)`: if the text
starts with a triple fence tagged `json` (case-insensitively), drop the
seven fence characters and the whitespace following them.  The pattern is
anchored, so at most the leading occurrence is removed. -/
def stripOpenFence (cs : List Char) : List Char :=
  if (cs.take 7).map Char.toLower = "```json".data then
    dropLeadWS (cs.drop 7)
  else cs

/-- `re.sub(r"\s*```$", "", cleaned)`: if the text ends with a triple
fence, drop it together with the whitespace immediately before it.  (The
input has already been stripped, so `$` is the true end of the text.) -/
def stripCloseFence (cs : List Char) : List Char :=
  if cs.reverse.take 3 = ['`', '`', '`'] then
    ((cs.reverse.drop 3).dropWhile isPyWS).reverse
  else cs

/-- The brace-matching scan of `clean_json_string`: starting with counter
`count`, walk the characters, incrementing on `{` and decrementing on `}`;
when a `}` brings the counter to zero, return the number of characters
consumed (the length of the balanced span).  `none` when the counter never
returns to zero. -/
def closeIdx : List Char → Int → Option Nat
  | [], _ => none
  | c :: rest, count =>
    if c = '\x7b' then (closeIdx rest (count + 1)).map (· + 1)
    else if c = '\x7d' then
      if count - 1 = 0 then some 1
      else (closeIdx rest (count - 1)).map (· + 1)
    else (closeIdx rest count).map (· + 1)

/-- `clean_json_string` (schema.py lines 29-51): strip surrounding
whitespace, remove a leading ```` ```json ```` fence and a trailing
```` ``` ```` fence, find the first `{`, and return the substring up to
the brace where the depth count first returns to zero.  The two
`ValueError` messages of the source are the `Except.error` payloads. -/
def fencesStripped (raw_str : String) : List Char :=
  stripCloseFence (stripOpenFence (pyStrip raw_str.data))

def clean_json_string (raw_str : String) : Except String String :=
  if ((fencesStripped raw_str).dropWhile (fun c => ¬ c = '\x7b')).isEmpty then
    .error "No JSON object found in the string"
  else
    match closeIdx ((fencesStripped raw_str).dropWhile (fun c => ¬ c = '\x7b')) 0 with
    | some n =>
      .ok (String.mk (((fencesStripped raw_str).dropWhile (fun c => ¬ c = '\x7b')).take n))
    | none => .error "No complete JSON object found in the string"

/-- The depth contribution of one character: `+1` for `{`, `-1` for `}`,
`0` otherwise. -/
def braceDelta (c : Char) : Int :=
  if c = '\x7b' then 1 else if c = '\x7d' then -1 else 0

/-- The net brace depth of a text: the sum of the per-character
contributions. -/
def braceDepth (cs : List Char) : Int := (cs.map braceDelta).sum

/-- The claim's first failure condition: the input contains no `{` at
all. -/
def NoBraceText (s : String) : Prop := ¬ '\x7b' ∈ s.data

/-- The claim's second failure condition: the input contains a `{`, but
the brace depth counted from the first `{` never returns to zero on any
prefix (truncated or unbalanced output). -/
def NeverClosesText (s : String) : Prop :=
  '\x7b' ∈ s.data ∧
  ∀ n, n < (s.data.dropWhile (fun c => ¬ c = '\x7b')).length →
    ¬ braceDepth ((s.data.dropWhile (fun c => ¬ c = '\x7b')).take (n + 1)) = 0

/-- A balanced JSON object text: it starts with `{`, its total brace
depth is zero, and no proper non-empty prefix has depth zero (the first
`{` closes exactly at the last character). -/
def BalancedJson (j : String) : Prop :=
  j.data.head? = some '\x7b' ∧ braceDepth j.data = 0 ∧
  ∀ n, n < j.data.length → 0 < n → ¬ braceDepth (j.data.take n) = 0

/-! ## Dynamically-typed values (`PyVal`)

`parse_erd_json` and `normalize_erd_node` operate on the dynamically-typed
result of `json.loads`.  `PyVal` models the Python values that can occur
there; dictionaries are association lists in insertion order. -/

inductive PyVal where
  | pyNone
  | pyBool (b : Bool)
  | pyInt (n : Int)
  | pyStr (s : String)
  | pyList (xs : List PyVal)
  | pyDict (kvs : List (String × PyVal))
deriving Repr

/-- Python truthiness (`bool(v)`) for the modelled values. -/
def pyTruthy : PyVal → Bool
  | .pyNone => false
  | .pyBool b => b
  | .pyInt n => n ≠ 0
  | .pyStr s => s ≠ ""
  | .pyList xs => ¬ xs.isEmpty
  | .pyDict kvs => ¬ kvs.isEmpty

/-- Python `a or b`: `a` if truthy, else `b`. -/
def pyOrV (a b : PyVal) : PyVal := if pyTruthy a then a else b

/-- `d.get(k)` / `d.get(k, None)` on a dictionary: the first binding of
`k`, or `None`. -/
def dictGet (kvs : List (String × PyVal)) (k : String) : PyVal :=
  (kvs.lookup k).getD .pyNone

/-- `d[k] = v`: replace the binding of `k` in place, or append it. -/
def upsertKv (kvs : List (String × PyVal)) (k : String) (v : PyVal) :
    List (String × PyVal) :=
  match kvs with
  | [] => [(k, v)]
  | (k', v') :: rest =>
    if k' = k then (k', v) :: rest else (k', v') :: upsertKv rest k v

/-- `d.setdefault(k, v)`: insert `(k, v)` only when `k` is absent. -/
def setDefault (kvs : List (String × PyVal)) (k : String) (v : PyVal) :
    List (String × PyVal) :=
  if (kvs.lookup k).isSome then kvs else kvs ++ [(k, v)]

/-- Python iteration (`for x in v` / `list.extend(v)`): lists yield their
elements, strings their characters (as one-character strings),
dictionaries their keys; other values raise `TypeError`. -/
def pyIterate : PyVal → Except Unit (List PyVal)
  | .pyList xs => .ok xs
  | .pyStr s => .ok (s.data.map (fun c => .pyStr (String.mk [c])))
  | .pyDict kvs => .ok (kvs.map (fun kv => .pyStr kv.1))
  | _ => .error ()

/-- `parsed.get(k)` as an expression that raises `AttributeError` when
`parsed` is not a dictionary. -/
def pyAttrGet (v : PyVal) (k : String) : Except Unit PyVal :=
  match v with
  | .pyDict kvs => .ok (dictGet kvs k)
  | _ => .error ()

/-! ## `parse_erd_json` (schema.py lines 153-204)

`json.loads` is an external library call; it is modelled by an abstract
decoder `decode : String → Option PyVal` (`none` = `JSONDecodeError`).
All theorems below hold for every decoder. -/

/-- Substring test (Python `"edges" in s` for strings). -/
def hasSub (pat : List Char) : List Char → Bool
  | [] => pat.isEmpty
  | c :: rest => startsWithL pat (c :: rest) || hasSub pat rest

/-- `str.replace(pat, rep)`: replace all non-overlapping occurrences left
to right.  The first argument is recursion fuel (one unit per examined
position); `replaceAll` supplies the length of the text, which is always
enough. -/
def replaceAllGo (pat rep : List Char) : Nat → List Char → List Char
  | _, [] => []
  | 0, cs => cs
  | fuel + 1, c :: rest =>
    if ¬ pat.isEmpty ∧ startsWithL pat (c :: rest) then
      rep ++ replaceAllGo pat rep fuel ((c :: rest).drop pat.length)
    else c :: replaceAllGo pat rep fuel rest

/-- `str.replace(pat, rep)` with sufficient fuel. -/
def replaceAll (pat rep cs : List Char) : List Char :=
  replaceAllGo pat rep cs.length cs

/-- `re.search(r'\{.*\}', response, re.DOTALL)`: the span from the first
`{` to the last `}` after it (greedy `.*`), or `none` when no such span
exists. -/
def reSearchBraces (cs : List Char) : Option (List Char) :=
  match cs.dropWhile (fun c => ¬ c = '\x7b') with
  | [] => none
  | b :: t =>
    let t2 := (t.reverse.dropWhile (fun c => ¬ c = '\x7d')).reverse
    if t2.isEmpty then none else some (b :: t2)

/-- Step 4 of `parse_erd_json`, the per-node part: `if "edges" in node:
extracted_edges.extend(node["edges"]); node.pop("edges")`.  For a
dictionary this is a key test, extraction and removal; for a string,
`in` is a substring test and the subsequent indexing raises; for a list,
`in` is membership and the subsequent indexing raises; for every other
value `in` itself raises `TypeError`. -/
def hoistNode (node : PyVal) : Except Unit (PyVal × List PyVal) :=
  match node with
  | .pyDict kvs =>
    if (kvs.lookup "edges").isSome then do
      let items ← pyIterate (dictGet kvs "edges")
      Except.ok (PyVal.pyDict (kvs.filter (fun kv => ¬ kv.1 = "edges")), items)
    else Except.ok (node, [])
  | .pyStr s =>
    if hasSub "edges".data s.data then Except.error () else Except.ok (node, [])
  | .pyList xs =>
    if xs.any (fun x => match x with | .pyStr s => s = "edges" | _ => false) then
      Except.error ()
    else Except.ok (node, [])
  | _ => Except.error ()

/-- Step 4 of `parse_erd_json` (schema.py lines 173-186): when
`parsed.get("nodes")` is a list, hoist inline `edges` fields out of the
nodes into the top-level `edges` list (creating it when absent);
otherwise leave the object unchanged.  `parsed.get` on a non-dictionary
raises `AttributeError`. -/
def fixEdgeNesting (parsed : PyVal) : Except Unit PyVal := do
  let nodesV ← pyAttrGet parsed "nodes"
  match nodesV with
  | .pyList nodes => do
    let pairs ← nodes.mapM hoistNode
    let parsed1 := (match parsed with
      | .pyDict kvs => PyVal.pyDict (upsertKv kvs "nodes" (.pyList (pairs.map Prod.fst)))
      | _ => parsed)
    let extracted := (pairs.map Prod.snd).flatten
    match parsed1 with
    | .pyDict kvs1 =>
      if (kvs1.lookup "edges").isSome then
        match dictGet kvs1 "edges" with
        | .pyList es =>
          Except.ok (PyVal.pyDict (upsertKv kvs1 "edges" (.pyList (es ++ extracted))))
        | _ => Except.error ()
      else Except.ok (PyVal.pyDict (kvs1 ++ [("edges", PyVal.pyList extracted)]))
    | _ => Except.error ()
  | _ => Except.ok parsed

/-- Final cleanup of one column (schema.py lines 196-198):
`col.setdefault` of the three flag fields; raises on a non-dictionary. -/
def cleanupCol (col : PyVal) : Except Unit PyVal :=
  match col with
  | .pyDict kvs =>
    Except.ok (PyVal.pyDict
      (setDefault (setDefault (setDefault kvs "nullable" (.pyBool false))
        "isPrimaryKey" (.pyBool false)) "isForeignKey" (.pyBool false)))
  | _ => Except.error ()

/-- Final cleanup of one node (schema.py lines 193-198):
`node.setdefault("type", "table")` and the column loop over
`node.get("columns", [])`.  Iterating a non-empty string or dictionary
produces string elements whose `setdefault` raises; other non-list
values fail to iterate. -/
def cleanupNode (node : PyVal) : Except Unit PyVal :=
  match node with
  | .pyDict kvs => do
    let kvs1 := setDefault kvs "type" (.pyStr "table")
    match kvs1.lookup "columns" with
    | none => Except.ok (PyVal.pyDict kvs1)
    | some (.pyList cols) => do
      let cols' ← cols.mapM cleanupCol
      Except.ok (PyVal.pyDict (upsertKv kvs1 "columns" (.pyList cols')))
    | some (.pyStr s) =>
      if s.isEmpty then Except.ok (PyVal.pyDict kvs1) else Except.error ()
    | some (.pyDict kvs2) =>
      if kvs2.isEmpty then Except.ok (PyVal.pyDict kvs1) else Except.error ()
    | some _ => Except.error ()
  | _ => Except.error ()

/-- The final-cleanup loop `for node in parsed["nodes"]` (schema.py lines
193-198), rebuilding the mutated node list. -/
def cleanupNodes (parsed : PyVal) : Except Unit PyVal :=
  match parsed with
  | .pyDict kvs =>
    match kvs.lookup "nodes" with
    | some (.pyList nodes) => do
      let nodes' ← nodes.mapM cleanupNode
      Except.ok (PyVal.pyDict (upsertKv kvs "nodes" (.pyList nodes')))
    | some (.pyStr s) =>
      if s.isEmpty then Except.ok parsed else Except.error ()
    | some (.pyDict kvs2) =>
      if kvs2.isEmpty then Except.ok parsed else Except.error ()
    | some _ => Except.error ()
    | none => Except.error ()
  | _ => Except.error ()

/-- The body of `parse_erd_json`'s `try` block (schema.py lines 158-200):
extract the `{...}` span, normalize escaped quotes, strip, decode, hoist
nested edges, validate that `nodes` and `edges` are present, and run the
final cleanup.  Every `Except.error` is an exception reaching the
`except` handler. -/
def parseErdCore (decode : String → Option PyVal) (response : String) :
    Except Unit PyVal := do
  let m ← (match reSearchBraces response.data with
    | some m => Except.ok m
    | none => Except.error ())
  let js := pyStrip (replaceAll ['\x5c', '\x22'] ['\x22']
    (replaceAll ['\x5c', '\x27'] ['\x27'] m))
  let parsed₀ ← (match decode (String.mk js) with
    | some p => Except.ok p
    | none => Except.error ())
  let parsed₁ ← fixEdgeNesting parsed₀
  match parsed₁ with
  | .pyDict kvs1 =>
    if (kvs1.lookup "nodes").isSome ∧ (kvs1.lookup "edges").isSome then
      cleanupNodes parsed₁
    else Except.error ()
  | _ => Except.error ()

/-- `parse_erd_json` (schema.py lines 153-204): the `try` body with every
exception mapped to `None` by the blanket `except` handler. -/
def parse_erd_json (decode : String → Option PyVal) (response : String) :
    Option PyVal :=
  (parseErdCore decode response).toOption

/-! ## `normalize_erd_node` (schema.py lines 11-27) -/

/-- The fresh column dictionary built by `normalize_erd_node` for one
input column; raises (`AttributeError` on `.get`) when the column is not
a dictionary. -/
def normCol (col : PyVal) : Except Unit PyVal :=
  match col with
  | .pyDict ckv =>
    Except.ok (PyVal.pyDict
      [("name", dictGet ckv "name"),
       ("type", dictGet ckv "type"),
       ("isPrimaryKey",
         .pyBool (pyTruthy (pyOrV (dictGet ckv "isPrimaryKey") (dictGet ckv "primaryKey")))),
       ("isForeignKey",
         .pyBool (pyTruthy (pyOrV (dictGet ckv "isForeignKey") (dictGet ckv "foreignKey")))),
       ("nullable", (ckv.lookup "nullable").getD (.pyBool false))])
  | _ => Except.error ()

/-- The effective column list `node.get("columns") or node.get("data") or []`
of `normalize_erd_node`, before iteration. -/
def effColsVal (kvs : List (String × PyVal)) : PyVal :=
  pyOrV (dictGet kvs "columns") (pyOrV (dictGet kvs "data") (.pyList []))

/-- `normalize_erd_node` (schema.py lines 11-27): force `type = "table"`,
rebuild the column list from `columns` (or `data`), and delete the `data`
key.  Assigning into a non-dictionary node, or reading `.get` of a
non-dictionary column, raises. -/
def normalize_erd_node (node : PyVal) : Except Unit PyVal :=
  match node with
  | .pyDict kvs => do
    let kvs0 := upsertKv kvs "type" (.pyStr "table")
    let colItems ← (match effColsVal kvs0 with
      | .pyList xs => Except.ok xs
      | .pyStr s => if s.isEmpty then Except.ok [] else Except.error ()
      | .pyDict k2 => if k2.isEmpty then Except.ok [] else Except.error ()
      | _ => Except.error ())
    let normCols ← colItems.mapM normCol
    let kvs1 := upsertKv kvs0 "columns" (.pyList normCols)
    let kvs2 :=
      if (kvs1.lookup "data").isSome then kvs1.filter (fun kv => ¬ kv.1 = "data")
      else kvs1
    Except.ok (PyVal.pyDict kvs2)
  | _ => Except.error ()

/-! ## The per-chunk loop of `suggest_schema_improvements`
(schema.py lines 351-371) -/

/-- `[normalize_erd_node(n) for n in parsed.get("nodes", [])]`:
iterate the `nodes` value and normalize each node. -/
def chunkNodes (parsed : PyVal) : Except Unit (List PyVal) :=
  match parsed with
  | .pyDict kvs => do
    let items ← pyIterate ((kvs.lookup "nodes").getD (.pyList []))
    items.mapM normalize_erd_node
  | _ => Except.error ()

/-- `all_edges.extend(parsed.get("edges", []))`: the edge items of one
chunk, after the nodes were already appended. -/
def chunkEdges (parsed : PyVal) : Except Unit (List PyVal) :=
  match parsed with
  | .pyDict kvs => pyIterate ((kvs.lookup "edges").getD (.pyList []))
  | _ => Except.error ()

/-- The node/edge contribution of one chunk's raw generation output
(schema.py lines 351-371): an empty response is skipped; a failure of
`clean_json_string`, `parse_erd_json` (returning `None`, so that
`parsed.get` raises) or node normalization is caught by the
`except`/`continue` and contributes nothing; a failure while extending
the edges still keeps the already-extended nodes. -/
def chunkContribution (decode : String → Option PyVal) (raw : String) :
    List PyVal × List PyVal :=
  if raw = "" then ([], [])
  else
    match clean_json_string raw with
    | .error _ => ([], [])
    | .ok cleaned =>
      match parse_erd_json decode cleaned with
      | none => ([], [])
      | some parsed =>
        match chunkNodes parsed with
        | .error _ => ([], [])
        | .ok ns =>
          match chunkEdges parsed with
          | .error _ => (ns, [])
          | .ok es => (ns, es)

/-- The chunk loop: accumulate `all_nodes` / `all_edges` across the raw
outputs of all chunks. -/
def accumulateChunks (decode : String → Option PyVal) (raws : List String) :
    List PyVal × List PyVal :=
  raws.foldl
    (fun acc raw =>
      let c := chunkContribution decode raw
      (acc.1 ++ c.1, acc.2 ++ c.2))
    ([], [])

/-- The `name` value of a column dictionary (`None` when absent). -/
def colName (c : PyVal) : PyVal :=
  match c with
  | .pyDict kvs => dictGet kvs "name"
  | _ => .pyNone

/-- The effective column items of a node, as `normalize_erd_node` sees
them: the value of `columns or data or []` when it is a list, else no
items. -/
def effCols (node : PyVal) : List PyVal :=
  match node with
  | .pyDict kvs =>
    match effColsVal kvs with
    | .pyList xs => xs
    | _ => []
  | _ => []

/-- The column-name sequence stored under a node's `columns` key. -/
def nodeColNames (v : PyVal) : List PyVal :=
  match v with
  | .pyDict kvs =>
    match kvs.lookup "columns" with
    | some (.pyList cs) => cs.map colName
    | _ => []
  | _ => []

/-- A column dictionary named `x`, for the duplicate-name scenario. -/
def colDupX : PyVal := .pyDict [("name", .pyStr "x")]

/-- A decoded chunk object whose single node lists the column `x`
twice. -/
def parsedDup : PyVal :=
  .pyDict [("nodes", .pyList [.pyDict [("columns", .pyList [colDupX, colDupX])]]),
           ("edges", .pyList [])]

/-- A decoder that always yields `parsedDup` (the generation service
returned a node with a duplicated column). -/
def decodeDup : String → Option PyVal := fun _ => some parsedDup

/-- A decoder that always fails, for exercising the recovery path. -/
def decodeNever : String → Option PyVal := fun _ => none

/-! ## Final merge / dedup (schema.py lines 373-386) -/

/-- Association-list lookup of the first binding (Python's lookup order
is irrelevant here; dictionaries in this development have unique keys). -/
def assocFind {α : Type} : List (String × α) → String → Option α
  | [], _ => none
  | (k', v) :: rest, k => if k' = k then some v else assocFind rest k

/-- The value of the last binding of `k`, if any. -/
def assocLast {α : Type} : List (String × α) → String → Option α
  | [], _ => none
  | (k', v) :: rest, k =>
    match assocLast rest k with
    | some w => some w
    | none => if k' = k then some v else none

/-- One assignment `d[k] = v` of a Python dictionary displayed as an
association list: an existing binding is updated in place, a new key is
appended. -/
def upsertNode {α : Type} (m : List (String × α)) (k : String) (v : α) :
    List (String × α) :=
  match m with
  | [] => [(k, v)]
  | (k', v') :: rest =>
    if k' = k then (k', v) :: rest else (k', v') :: upsertNode rest k v

/-- `unique_nodes = {n["id"]: n for n in all_nodes}` followed by
`list(unique_nodes.values())` (schema.py line 374): fold dictionary
assignment over the nodes, each node paired with its `id`. -/
def dedupNodes {α : Type} (ns : List (String × α)) : List (String × α) :=
  ns.foldl (fun m p => upsertNode m p.1 p.2) []

/-- One merged edge: the fields `suggest_schema_improvements` reads
(`e.get("source")`, `e.get("target")`, `e.get("label")`) plus the handle
payload, each `none` when the generator omitted the key. -/
structure ErdEdge where
  source : Option String
  target : Option String
  label : Option String
  sourceHandle : Option String
  targetHandle : Option String
deriving DecidableEq, Repr

/-- The dedup key `(e.get("source"), e.get("target"), e.get("label"))`
(schema.py line 378). -/
def edgeKey (e : ErdEdge) : Option String × Option String × Option String :=
  (e.source, e.target, e.label)

/-- The edge dedup loop (schema.py lines 375-381): a seen-set of keys and
an output list; an edge with a fresh key is appended, a duplicate key is
dropped. -/
def dedupEdgesGo :
    List ErdEdge → List (Option String × Option String × Option String) →
    List ErdEdge → List ErdEdge
  | [], _, out => out
  | e :: rest, seen, out =>
    if edgeKey e ∈ seen then dedupEdgesGo rest seen out
    else dedupEdgesGo rest (edgeKey e :: seen) (out ++ [e])

/-- `unique_edges` of schema.py lines 375-381. -/
def dedupEdges (es : List ErdEdge) : List ErdEdge := dedupEdgesGo es [] []

/-- Specification-side description of the node merge (spec §4.5): keys in
first-insertion order, each carrying the content of its last occurrence. -/
def specNodeMerge {α : Type} : List (String × α) → List (String × α)
  | [] => []
  | (k, v) :: rest =>
    (k, (assocLast rest k).getD v) ::
      specNodeMerge (rest.filter (fun p => ¬ p.1 = k))
termination_by l => l.length
decreasing_by
  exact Nat.lt_succ_of_le (List.length_filter_le _ _)

/-- Specification-side description of the edge merge (spec §4.5): the
first occurrence of each key is kept in order, later duplicates dropped. -/
def specEdgeDedup : List ErdEdge → List ErdEdge
  | [] => []
  | e :: rest =>
    e :: specEdgeDedup (rest.filter (fun x => ¬ edgeKey x = edgeKey e))
termination_by l => l.length
decreasing_by
  exact Nat.lt_succ_of_le (List.length_filter_le _ _)

/-! ## `resolve_chunk_tables` (schema.py lines 111-119) -/

/-- The successor list `graph.get(table, [])`: the foreign-key targets
recorded for a table, empty for an unknown table. -/
def succs (g : List (String × List String)) (t : String) : List String :=
  (assocFind g t).getD []

/-- Every table name occurring in the graph, as key or as target. -/
def graphUniv (g : List (String × List String)) : List String :=
  g.map Prod.fst ++ (g.map Prod.snd).flatten

/-- The depth-first traversal of `resolve_chunk_tables`, written with an
explicit work stack in place of the source's recursion through the shared
mutable `visited` set: pop a table; an already-visited table is skipped;
otherwise it is added to `visited` and its successors are pushed.  The
extra `univ` argument only bounds the recursion; the third branch (a
popped table outside `univ`) pushes no successors, which agrees with the
source because such a table is not a key of the graph and so
`graph.get(table, [])` is empty. -/
def resolveAux (g : List (String × List String)) (univ : List String) :
    List String → List String → List String
  | [], vis => vis
  | t :: stack, vis =>
    if t ∈ vis then resolveAux g univ stack vis
    else if t ∈ univ then resolveAux g univ (succs g t ++ stack) (t :: vis)
    else resolveAux g univ stack (t :: vis)
termination_by stack vis =>
  ((univ.filter (fun x => ¬ x ∈ vis)).length, stack.length)
decreasing_by
  · apply Prod.Lex.right
    exact Nat.lt_succ_self _
  · apply Prod.Lex.left
    rename_i ht hv
    have h1 : univ.filter (fun x => ¬ x ∈ (t :: vis)) =
        (univ.filter (fun x => ¬ x ∈ vis)).filter (fun x => ¬ x = t) := by
      rw [List.filter_filter]
      apply List.filter_congr
      intro x _
      by_cases hx : x = t <;> by_cases hxv : x ∈ vis <;>
        simp [hx, hxv, List.mem_cons, hv]
    rw [h1]
    rw [List.length_filter_lt_length_iff_exists]
    exact ⟨t, by simp [List.mem_filter, ht, hv], by simp⟩
  · have h2 : univ.filter (fun x => ¬ x ∈ (t :: vis)) =
        univ.filter (fun x => ¬ x ∈ vis) := by
      apply List.filter_congr
      intro x hx
      rename_i ht hv
      have : ¬ x = t := fun h => hv (h ▸ hx)
      simp [List.mem_cons, this]
    rw [h2]
    apply Prod.Lex.right
    exact Nat.lt_succ_self _

/-- `resolve_chunk_tables(graph, table)` (schema.py lines 111-119): the
visited set after the traversal starting from `table`. -/
def resolve_chunk_tables (g : List (String × List String)) (table : String) :
    List String :=
  resolveAux g (table :: graphUniv g) [table] []

/-- Reachability along foreign-key edges: the start table, and every
successor of a reachable table. -/
inductive Reachable (g : List (String × List String)) (s : String) :
    String → Prop
  | refl : Reachable g s s
  | step {u v : String} : Reachable g s u → v ∈ succs g u → Reachable g s v

/-- The cyclic dependency graph `A -> B -> C -> A` of the specification's
cycle scenario. -/
def cycleABC : List (String × List String) :=
  [("A", ["B"]), ("B", ["C"]), ("C", ["A"])]

/-! ## `fix_sql_schema` (schema.py lines 78-83) -/

/-- One pass of `re.sub(word + r"\(\s*\)", word + "(255)", text, re.IGNORECASE)`:
scan left to right; at a position matching `word(` + whitespace + `)`
(case-insensitively) emit the uppercase replacement and continue after
the match, otherwise keep the character.  The fuel argument (one unit per
examined position) is instantiated with the text length, which always
suffices. -/
def fixEmptyLenGo (word : List Char) : Nat → List Char → List Char
  | _, [] => []
  | 0, cs => cs
  | fuel + 1, c :: rest =>
    if startsWithCI word (c :: rest) then
      match (c :: rest).drop word.length with
      | '(' :: r2 =>
        match r2.drop (r2.takeWhile isPyWS).length with
        | ')' :: r3 => (word ++ "(255)".data) ++ fixEmptyLenGo word fuel r3
        | _ => c :: fixEmptyLenGo word fuel rest
      | _ => c :: fixEmptyLenGo word fuel rest
    else c :: fixEmptyLenGo word fuel rest

/-- `re.sub(word + r"\(\s*\)", ...)` with sufficient fuel. -/
def fixEmptyLen (word cs : List Char) : List Char :=
  fixEmptyLenGo word cs.length cs

/-- One pass of `re.sub(r",\s*\)", ")", text)` (or the `;` variant): a
comma followed by whitespace and the closing character collapses to the
closing character. -/
def fixCommaCloseGo (close : Char) : Nat → List Char → List Char
  | _, [] => []
  | 0, cs => cs
  | fuel + 1, c :: rest =>
    if c = ',' then
      match rest.drop (rest.takeWhile isPyWS).length with
      | d :: r3 =>
        if d = close then close :: fixCommaCloseGo close fuel r3
        else c :: fixCommaCloseGo close fuel rest
      | [] => c :: fixCommaCloseGo close fuel rest
    else c :: fixCommaCloseGo close fuel rest

/-- `re.sub(r",\s*" ++ close, close, text)` with sufficient fuel. -/
def fixCommaClose (close : Char) (cs : List Char) : List Char :=
  fixCommaCloseGo close cs.length cs

/-- `fix_sql_schema` (schema.py lines 78-83): the four substitution
passes in source order. -/
def fix_sql_schema (sql_text : String) : String :=
  String.mk (fixCommaClose ';' (fixCommaClose ')'
    (fixEmptyLen "VARCHAR".data (fixEmptyLen "NVARCHAR".data sql_text.data))))

/-! ## `split_schema_to_tables` and `extract_table_name`
(schema.py lines 85-99) -/

/-- The lazy tail of the block pattern: the number of characters up to
and including the first `);` occurrence (`.*?\);` of the regex). -/
def findCloseSemi : List Char → Option Nat
  | [] => none
  | c :: rest =>
    match rest with
    | d :: _ =>
      if c = ')' ∧ d = ';' then some 2 else (findCloseSemi rest).map (· + 1)
    | [] => none

/-- A match of `r"(CREATE TABLE\s+\[?\w+\]?.*?\);)"` (case-insensitive,
DOTALL) anchored at the head of `cs`: the literal `CREATE TABLE`, at
least one whitespace character (matched greedily), an optional `[`, a
non-empty greedy word run, an optional `]`, then lazily up to the first
`);`.  Returns the length of the whole match.  (Greedy/lazy backtracking
is deterministic for this pattern: no whitespace character is `[` or a
word character, and neither `)` nor `;` can occur inside the word run or
the optional brackets.) -/
def matchCreateAt (cs : List Char) : Option Nat :=
  if startsWithCI "CREATE TABLE".data cs then
    let r1 := cs.drop 12
    match r1 with
    | c :: _ =>
      if isPyWS c then
        let wsLen := (r1.takeWhile isPyWS).length
        let r2 := r1.drop wsLen
        let brLen := if r2.take 1 = ['['] then 1 else 0
        let r3 := r2.drop brLen
        match r3 with
        | w :: _ =>
          if isWordChar w then
            let wLen := (r3.takeWhile isWordChar).length
            let r4 := r3.drop wLen
            let crLen := if r4.take 1 = [']'] then 1 else 0
            let r5 := r4.drop crLen
            match findCloseSemi r5 with
            | some closeLen =>
              some (12 + wsLen + brLen + wLen + crLen + closeLen)
            | none => none
          else none
        | [] => none
      else none
    | [] => none
  else none

/-- `pattern.findall(schema_text)`: non-overlapping matches, scanned left
to right.  Fuel is one unit per examined position; `split_schema_to_tables`
supplies the text length. -/
def findAllCreateGo : Nat → List Char → List (List Char)
  | _, [] => []
  | 0, _ => []
  | fuel + 1, c :: rest =>
    match matchCreateAt (c :: rest) with
    | some n => (c :: rest).take n :: findAllCreateGo fuel ((c :: rest).drop n)
    | none => findAllCreateGo fuel rest

/-- `split_schema_to_tables` (schema.py lines 85-89). -/
def split_schema_to_tables (schema_text : String) : List String :=
  (findAllCreateGo schema_text.data.length schema_text.data).map String.mk

/-- `extract_table_name` (schema.py lines 97-99):
`re.match(r"CREATE TABLE\s+\[?(\w+)\]?", table_sql, re.IGNORECASE)`,
returning the captured word run, or `"Unknown"` when the pattern does not
match at the start of the text. -/
def extract_table_name (table_sql : String) : String :=
  let cs := table_sql.data
  if startsWithCI "CREATE TABLE".data cs then
    let r1 := cs.drop 12
    match r1 with
    | c :: _ =>
      if isPyWS c then
        let r2 := r1.dropWhile isPyWS
        let r3 := if r2.take 1 = ['['] then r2.drop 1 else r2
        match r3 with
        | w :: _ =>
          if isWordChar w then String.mk (r3.takeWhile isWordChar)
          else "Unknown"
        | [] => "Unknown"
      else "Unknown"
    | [] => "Unknown"
  else "Unknown"

/-! ## C1 infrastructure: the shape of the synthesized DDL text.
Only the table names carry any restriction; all other fields of the
catalog rows are arbitrary. -/

/-- A nonempty string all of whose characters belong to the regex class
`\w` (a SQL identifier that survives the `\w+` capture unchanged). -/
def WordName (s : String) : Prop :=
  s.data ≠ [] ∧ ∀ c ∈ s.data, isWordChar c = true

/-- One synthesized column line: `columnFragment` without its trailing
`",\n"` separator. -/
def coreStr (row : CatalogRow) : String :=
  let colName := row.column_name.getD "UnknownColumn"
  let dataType := row.data_type.getD "VARCHAR"
  let fkPart :=
    if row.is_foreign_key.getD false then
      let rt := pyStrOr row.ReferenceTable row.referenced_table
      let rc := pyStrOr row.ReferenceColumn row.referenced_column
      if rt ≠ "" ∧ rc ≠ "" then
        " FOREIGN KEY REFERENCES " ++ rt ++ "(" ++ rc ++ ")"
      else ""
    else ""
  "  [" ++ colName ++ "] " ++ dataType ++ emitLength dataType row.max_length
    ++ (if row.is_nullable.getD true then " NULL" else " NOT NULL")
    ++ (if row.is_primary_key.getD false then " PRIMARY KEY" else "")
    ++ fkPart

/-- The last character of a block body survives both `rstrip(",\n")`
and all four fix-up substitutions: it is not whitespace, not a comma
and not an opening parenthesis. -/
def TailOK (b : List Char) : Prop :=
  ∃ e, b.getLast? = some e ∧ isPyWS e = false ∧ e ≠ ',' ∧ e ≠ '('

/-- The body of one `CREATE TABLE` block: the column lines joined by
`,\n` (the final `,\n` of the synthesis loop already stripped). -/
def bodyChars : List (List Char) → List Char
  | [] => []
  | c :: rest => c ++ (if rest = [] then [] else ',' :: '\n' :: bodyChars rest)

/-- The characters of `CREATE TABLE [t] (\n`. -/
def headerChars (t : String) : List Char :=
  "CREATE TABLE [".data ++ t.data ++ "] (\n".data

/-- The characters of one complete `CREATE TABLE` block. -/
def blockChars (t : String) (b : List Char) : List Char :=
  headerChars t ++ b ++ "\n);".data

/-- The synthesized schema text: blocks separated by blank lines
(`\n\n` after each `\n);` except the last). -/
def chainChars : List (String × List Char) → List Char
  | [] => []
  | p :: rest =>
    blockChars p.1 p.2 ++ (if rest = [] then [] else '\n' :: '\n' :: chainChars rest)

/-- The already-closed prefix of the synthesized text: every block
followed by `\n\n`. -/
def closedChars : List (String × List Char) → List Char
  | [] => []
  | p :: rest => blockChars p.1 p.2 ++ '\n' :: '\n' :: closedChars rest

/-- What matters for re-parsing: every table name is a nonempty `\w`
word, every body ends benignly.  The bodies themselves are arbitrary. -/
def GoodChain (bs : List (String × List Char)) : Prop :=
  ∀ p ∈ bs, WordName p.1 ∧ TailOK p.2

/-- The text that follows a block: nothing after the last block, a
blank line and the remaining chain otherwise. -/
def chainSep (bs : List (String × List Char)) : List Char :=
  if bs = [] then [] else '\n' :: '\n' :: chainChars bs

/-- The possible scan positions strictly inside a block remainder:
either exhausted, or just the final `;`, or still ending with `);`. -/
def TailShape (s : List Char) : Prop :=
  s = [] ∨ s = [';'] ∨ ∃ s₀, s = s₀ ++ [')', ';']

/-- At this scan position no `WORD(\s*)` trigger can fire, whatever
text follows: either the case-insensitive word check fails outright,
or the character at the required distance is not `(`. -/
def StepSafeE (w v : List Char) : Prop :=
  (∀ R, startsWithCI w (v ++ R) = false) ∨
  (∃ d r2, v.drop w.length = d :: r2 ∧ d ≠ '(')

/-- Every position of `Z` is safe for the `WORD(\s*)` scanner. -/
def RunSafeE (w Z : List Char) : Prop :=
  ∀ u v, Z = u ++ v → v ≠ [] → StepSafeE w v

/-! # Theorems -/

/-! ## C2: length qualifiers in DDL synthesis -/

/-- C2, counterexample: the claim states that a catalog row of type
`VARCHAR` whose `max_length` is non-positive gets the fallback length
255; for `max_length = -1` the code takes `abs(-1) = 1` before the
positivity test and emits `(1)`, not `(255)`. -/
theorem c2_length_counterexample :
    emitLength "VARCHAR" (some (-1)) = "(1)" ∧
    ¬ emitLength "VARCHAR" (some (-1)) = "(255)" := by
  constructor <;> decide

/-- C2, amended: during DDL synthesis a length qualifier is emitted only
for the variable-length character types `VARCHAR` and `NVARCHAR`
(compared case-insensitively); for such a type a missing or zero
`max_length` is emitted as the fixed fallback 255, while any non-zero
`max_length` — including negative values — is emitted as its absolute
value. -/
theorem c2_length_qualifier (dt : String) (ml : Option Int) :
    (¬ pyUpper dt = "VARCHAR" ∧ ¬ pyUpper dt = "NVARCHAR" →
      emitLength dt ml = "") ∧
    ((pyUpper dt = "VARCHAR" ∨ pyUpper dt = "NVARCHAR") →
      ((ml = none ∨ ml = some 0) → emitLength dt ml = "(255)") ∧
      (∀ z : Int, ml = some z → ¬ z = 0 →
        emitLength dt ml = "(" ++ toString z.natAbs ++ ")")) := by
  unfold emitLength
  constructor
  · rintro ⟨h1, h2⟩
    simp [h1, h2]
  · intro hd
    have hcond : (pyUpper dt = "VARCHAR" || pyUpper dt = "NVARCHAR") = true := by
      rcases hd with h | h <;> simp [h]
    constructor
    · rintro (h | h) <;> simp [h, hcond]
    · rintro z rfl hz
      have habs : ¬ |(z : Int)| ≤ 0 := by
        simp [abs_pos]
        exact hz
      have habs' : (0 : Int) < |z| := by
        simpa [abs_pos] using hz
      simp only [hcond, if_true, Option.getD_some]
      rw [if_pos habs']
      have : |z| = (z.natAbs : Int) := Int.abs_eq_natAbs z
      rw [this]
      rfl

/-- Witness for C2's amended theorem at concrete inputs. -/
theorem c2_length_qualifier_witness :
    emitLength "nvarchar" none = "(255)" ∧ emitLength "int" (some 10) = "" :=
  ⟨((c2_length_qualifier "nvarchar" none).2 (Or.inr (by decide))).1
    (Or.inl rfl),
   (c2_length_qualifier "int" (some 10)).1 (by decide)⟩

/-! ## C8: the retry wrapper `call_llm_single` -/

/-- Skipping an initial run of `k` rate-limit outcomes: the wrapper
sleeps `base_delay * 2 ^ retries` before each retry and continues with
the remaining attempts. -/
theorem callLlmGo_skip429 (call : Nat → LlmAttempt) (d : Nat) :
    ∀ (k left retries : Nat), k ≤ left →
      (∀ i, i < k → call (retries + i) = .httpError 429) →
      callLlmGo call d left retries =
        ((callLlmGo call d (left - k) (retries + k)).1,
          ((List.range k).map (fun j => d * 2 ^ (retries + j))) ++
            (callLlmGo call d (left - k) (retries + k)).2) := by
  intro k
  induction k with
  | zero => intro left retries _ _; simp
  | succ k ih =>
    intro left retries hk h429
    obtain ⟨left', rfl⟩ : ∃ l, left = l + 1 := ⟨left - 1, by omega⟩
    have h0 : call retries = .httpError 429 := by
      simpa using h429 0 (Nat.succ_pos k)
    have hrec := ih left' (retries + 1) (by omega)
      (fun i hi => by
        have := h429 (i + 1) (by omega)
        rw [show retries + 1 + i = retries + (i + 1) by omega]
        exact this)
    simp only [callLlmGo, h0, if_pos rfl]
    rw [hrec]
    have harith1 : left' - k = left' + 1 - (k + 1) := by omega
    have harith2 : retries + 1 + k = retries + (k + 1) := by omega
    rw [harith1, harith2]
    refine congrArg₂ Prod.mk rfl ?_
    rw [List.range_succ_eq_map, List.map_cons, List.map_map]
    simp only [Nat.add_zero, List.cons_append]
    refine congrArg₂ List.cons rfl (congrArg₂ _ ?_ rfl)
    apply List.map_congr_left
    intro j _
    simp only [Function.comp_apply, Nat.succ_eq_add_one]
    rw [show retries + 1 + j = retries + (j + 1) by omega]

/-- C8: the retry wrapper `call_llm_single` retries only on HTTP 429,
sleeping `base_delay * 2 ^ retries` before each retry, up to the maximum
retry count; a returned value ends the loop with the stripped result (or
`""` for `None`); a non-429 HTTP error or any other failure yields `""`
immediately with no further attempt; exhausting the retries yields `""`.
Every branch returns a value — the wrapper is a total function, never
propagating an exception. -/
theorem c8_retry_only_rate_limit (call : Nat → LlmAttempt) (m d : Nat) :
    ((∀ i, i < m → call i = .httpError 429) →
      call_llm_single call m d = ("", (List.range m).map (fun i => d * 2 ^ i))) ∧
    (∀ k r, k < m → (∀ i, i < k → call i = .httpError 429) →
      call k = .success r →
      call_llm_single call m d =
        ((match r with | none => "" | some s => pyStripStr s),
          (List.range k).map (fun i => d * 2 ^ i))) ∧
    (∀ k st, k < m → (∀ i, i < k → call i = .httpError 429) →
      call k = .httpError st → ¬ st = 429 →
      call_llm_single call m d = ("", (List.range k).map (fun i => d * 2 ^ i))) ∧
    (∀ k, k < m → (∀ i, i < k → call i = .httpError 429) →
      call k = .failure →
      call_llm_single call m d = ("", (List.range k).map (fun i => d * 2 ^ i))) := by
  refine ⟨?_, ?_, ?_, ?_⟩
  · intro h429
    have h := callLlmGo_skip429 call d m m 0 (le_refl m)
      (fun i hi => by simpa using h429 i hi)
    simp only [Nat.sub_self, Nat.zero_add] at h
    unfold call_llm_single
    rw [h]
    simp [callLlmGo]
  · intro k r hk h429 hc
    have h := callLlmGo_skip429 call d k m 0 (le_of_lt hk)
      (fun i hi => by simpa using h429 i hi)
    simp only [Nat.zero_add] at h
    unfold call_llm_single
    rw [h]
    obtain ⟨l, hl⟩ : ∃ l, m - k = l + 1 := ⟨m - k - 1, by omega⟩
    rw [hl]
    simp only [callLlmGo, hc]
    cases r <;> simp
  · intro k st hk h429 hc hst
    have h := callLlmGo_skip429 call d k m 0 (le_of_lt hk)
      (fun i hi => by simpa using h429 i hi)
    simp only [Nat.zero_add] at h
    unfold call_llm_single
    rw [h]
    obtain ⟨l, hl⟩ : ∃ l, m - k = l + 1 := ⟨m - k - 1, by omega⟩
    rw [hl]
    simp only [callLlmGo, hc]
    simp [hst]
  · intro k hk h429 hc
    have h := callLlmGo_skip429 call d k m 0 (le_of_lt hk)
      (fun i hi => by simpa using h429 i hi)
    simp only [Nat.zero_add] at h
    unfold call_llm_single
    rw [h]
    obtain ⟨l, hl⟩ : ∃ l, m - k = l + 1 := ⟨m - k - 1, by omega⟩
    rw [hl]
    simp only [callLlmGo, hc]
    simp

/-- Witness for C8 at a concrete outcome stream: two rate-limit hits,
then a successful result, with sleeps 2 and 4. -/
theorem c8_retry_witness :
    call_llm_single
      (fun i => if i < 2 then .httpError 429 else .success (some " hello "))
      5 2 = ("hello", [2, 4]) :=
  ((c8_retry_only_rate_limit
      (fun i => if i < 2 then .httpError 429 else .success (some " hello "))
      5 2).2.1 2 (some " hello ") (by decide) (by decide) (by decide)).trans
    (by decide)

/-! ## C3: merge and dedup of the per-chunk results -/

theorem upsertNode_keys_of_mem {α : Type} (k : String) (v : α) :
    ∀ (m : List (String × α)), k ∈ m.map Prod.fst →
      (upsertNode m k v).map Prod.fst = m.map Prod.fst := by
  intro m
  induction m with
  | nil => intro h; simp at h
  | cons q rest ih =>
    intro h
    by_cases hk : q.1 = k
    · simp [upsertNode, hk]
    · have hmem : k ∈ rest.map Prod.fst := by
        rcases List.mem_cons.mp h with h1 | h1
        · exact absurd h1.symm hk
        · exact h1
      simp [upsertNode, hk, ih hmem]

theorem upsertNode_of_not_mem {α : Type} (k : String) (v : α) :
    ∀ (m : List (String × α)), ¬ k ∈ m.map Prod.fst →
      upsertNode m k v = m ++ [(k, v)] := by
  intro m
  induction m with
  | nil => intro _; rfl
  | cons q rest ih =>
    intro h
    have hk : ¬ q.1 = k := by
      intro he; exact h (by simp [he])
    have hrest : ¬ k ∈ rest.map Prod.fst := by
      intro hm; exact h (by simp [hm])
    simp [upsertNode, hk, ih hrest]

theorem upsertNode_of_mem_nodup {α : Type} (k : String) (v : α) :
    ∀ (m : List (String × α)), (m.map Prod.fst).Nodup → k ∈ m.map Prod.fst →
      upsertNode m k v = m.map (fun q => if q.1 = k then (k, v) else q) := by
  intro m
  induction m with
  | nil => intro _ h; simp at h
  | cons q rest ih =>
    intro hnd h
    rw [List.map_cons] at hnd
    obtain ⟨hq1, hnd'⟩ := List.nodup_cons.mp hnd
    by_cases hk : q.1 = k
    · have hknr : ¬ k ∈ rest.map Prod.fst := hk ▸ hq1
      have hmapid : rest.map (fun q => if q.1 = k then (k, v) else q) = rest := by
        nth_rewrite 2 [← List.map_id rest]
        apply List.map_congr_left
        intro p hp
        have hpk : ¬ p.1 = k :=
          fun he => hknr (he ▸ List.mem_map_of_mem Prod.fst hp)
        simp [hpk]
      simp [upsertNode, hk, hmapid]
    · have hmem : k ∈ rest.map Prod.fst := by
        rcases List.mem_cons.mp h with h1 | h1
        · exact absurd h1.symm hk
        · exact h1
      simp [upsertNode, hk, ih hnd' hmem]

theorem assocLast_cons {α : Type} (k' : String) (v : α) (rest : List (String × α))
    (k : String) :
    assocLast ((k', v) :: rest) k =
      match assocLast rest k with
      | some w => some w
      | none => if k' = k then some v else none := rfl

theorem assocLast_filter {α : Type} (k : String) (p : String × α → Bool) :
    ∀ (l : List (String × α)), (∀ q ∈ l, q.1 = k → p q = true) →
      assocLast (l.filter p) k = assocLast l k := by
  intro l
  induction l with
  | nil => intro _; rfl
  | cons q rest ih =>
    intro h
    have hrest := ih (fun q hq => h q (List.mem_cons_of_mem _ hq))
    by_cases hp : p q = true
    · rw [List.filter_cons_of_pos hp]
      rw [assocLast_cons, assocLast_cons, hrest]
    · rw [List.filter_cons_of_neg (by simpa using hp)]
      have hqk : ¬ q.1 = k := fun he => hp (h q (List.mem_cons_self q rest) he)
      rw [assocLast_cons, hrest]
      cases assocLast rest k with
      | some w => rfl
      | none => simp [hqk]

/-- The dictionary comprehension, generalized over a starting dictionary
with distinct keys: existing keys keep their position and receive the
value of their last occurrence; fresh keys are appended in first-seen
order with `specNodeMerge` describing the tail. -/
theorem foldl_upsert_eq {α : Type} :
    ∀ (ns m : List (String × α)), (m.map Prod.fst).Nodup →
      ns.foldl (fun acc p => upsertNode acc p.1 p.2) m =
        m.map (fun q => (q.1, (assocLast ns q.1).getD q.2)) ++
          specNodeMerge (ns.filter (fun p => ¬ p.1 ∈ m.map Prod.fst)) := by
  intro ns
  induction ns with
  | nil =>
    intro m hnd
    simp [specNodeMerge, assocLast]
  | cons hd rest ih =>
    obtain ⟨k, v⟩ := hd
    intro m hnd
    rw [List.foldl_cons]
    by_cases hin : k ∈ m.map Prod.fst
    · have hkeys := upsertNode_keys_of_mem k v m hin
      have hnd2 : ((upsertNode m k v).map Prod.fst).Nodup := by
        rw [hkeys]; exact hnd
      rw [ih (upsertNode m k v) hnd2, hkeys]
      have hfilter : ((k, v) :: rest).filter (fun p => ¬ p.1 ∈ m.map Prod.fst) =
          rest.filter (fun p => ¬ p.1 ∈ m.map Prod.fst) := by
        rw [List.filter_cons_of_neg]; simpa using hin
      rw [hfilter]
      congr 1
      rw [upsertNode_of_mem_nodup k v m hnd hin, List.map_map]
      apply List.map_congr_left
      intro q hq
      by_cases hqk : q.1 = k
      · simp only [Function.comp_apply, if_pos hqk, hqk]
        rw [assocLast_cons]
        cases h : assocLast rest k with
        | some w => simp [h]
        | none => simp [h]
      · simp only [Function.comp_apply, if_neg hqk]
        rw [assocLast_cons]
        cases h : assocLast rest q.1 with
        | some w => simp [h]
        | none => simp [h, show ¬ k = q.1 from fun he => hqk he.symm]
    · have happ := upsertNode_of_not_mem k v m hin
      have hkeys : (upsertNode m k v).map Prod.fst = m.map Prod.fst ++ [k] := by
        rw [happ]; simp
      have hnd2 : ((upsertNode m k v).map Prod.fst).Nodup := by
        rw [hkeys]
        refine List.Nodup.append hnd (List.nodup_singleton k) ?_
        intro a ha hb
        rcases List.mem_singleton.mp hb with rfl
        exact hin ha
      rw [ih (upsertNode m k v) hnd2, hkeys, happ]
      have hfilter : ((k, v) :: rest).filter (fun p => ¬ p.1 ∈ m.map Prod.fst) =
          (k, v) :: rest.filter (fun p => ¬ p.1 ∈ m.map Prod.fst) := by
        rw [List.filter_cons_of_pos]; simpa using hin
      rw [hfilter]
      simp only [specNodeMerge]
      rw [List.map_append, List.append_assoc]
      congr 1
      · apply List.map_congr_left
        intro q hq
        have hqk : ¬ q.1 = k :=
          fun he => hin (he ▸ List.mem_map_of_mem Prod.fst hq)
        rw [assocLast_cons]
        cases h : assocLast rest q.1 with
        | some w => simp [h]
        | none => simp [h, show ¬ k = q.1 from fun he => hqk he.symm]
      · rw [List.map_cons, List.map_nil, List.singleton_append]
        congr 1
        · have hlast := assocLast_filter k
            (fun p => decide (¬ p.1 ∈ m.map Prod.fst)) rest
            (fun q _ hqk => by simp [hqk, hin])
          rw [hlast]
        · rw [List.filter_filter]
          apply congrArg specNodeMerge
          apply List.filter_congr
          intro q _
          by_cases h1 : q.1 = k <;> by_cases h2 : q.1 ∈ m.map Prod.fst <;>
            simp [h1, h2]

/-- The node merge of schema.py line 374 equals its specification. -/
theorem dedupNodes_eq_spec {α : Type} (ns : List (String × α)) :
    dedupNodes ns = specNodeMerge ns := by
  have h := foldl_upsert_eq ns [] (by simp)
  simpa [dedupNodes] using h

/-- A key that never occurs has no last binding. -/
theorem assocLast_eq_none {α : Type} (k : String) :
    ∀ l : List (String × α), ¬ k ∈ l.map Prod.fst → assocLast l k = none := by
  intro l
  induction l with
  | nil => intro _; rfl
  | cons q rest ih =>
    intro h
    have hq : ¬ q.1 = k := by
      intro he; exact h (by simp [he])
    have hrest : ¬ k ∈ rest.map Prod.fst := by
      intro hm; exact h (by simp [hm])
    rw [assocLast_cons, ih hrest]
    simp [hq]

/-- With pairwise-distinct keys the node merge changes nothing. -/
theorem specNodeMerge_of_nodup {α : Type} :
    ∀ ns : List (String × α), (ns.map Prod.fst).Nodup → specNodeMerge ns = ns := by
  intro ns
  induction ns with
  | nil => intro _; simp [specNodeMerge]
  | cons hd rest ih =>
    obtain ⟨k, v⟩ := hd
    intro hnd
    rw [List.map_cons] at hnd
    obtain ⟨hk, hnd2⟩ := List.nodup_cons.mp hnd
    have hfilter : rest.filter (fun p => ¬ p.1 = k) = rest := by
      rw [List.filter_eq_self]
      intro q hq
      simp only [decide_eq_true_eq]
      intro he
      exact hk (by rw [← he]; exact List.mem_map.mpr ⟨q, hq, rfl⟩)
    simp only [specNodeMerge, hfilter, assocLast_eq_none k rest hk,
      Option.getD_none, ih hnd2]

/-- The edge dedup loop, generalized over the seen-set and accumulator. -/
theorem dedupEdgesGo_eq :
    ∀ (es : List ErdEdge)
      (seen : List (Option String × Option String × Option String))
      (out : List ErdEdge),
      dedupEdgesGo es seen out =
        out ++ specEdgeDedup (es.filter (fun e => ¬ edgeKey e ∈ seen)) := by
  intro es
  induction es with
  | nil => intro seen out; simp [dedupEdgesGo, specEdgeDedup]
  | cons e rest ih =>
    intro seen out
    by_cases hseen : edgeKey e ∈ seen
    · rw [show dedupEdgesGo (e :: rest) seen out = dedupEdgesGo rest seen out by
        simp [dedupEdgesGo, hseen]]
      rw [ih]
      congr 2
      rw [List.filter_cons_of_neg (by simpa using hseen)]
    · rw [show dedupEdgesGo (e :: rest) seen out =
          dedupEdgesGo rest (edgeKey e :: seen) (out ++ [e]) by
        simp [dedupEdgesGo, hseen]]
      rw [ih, List.filter_cons_of_pos (by simpa using hseen)]
      simp only [specEdgeDedup]
      rw [List.append_assoc, List.singleton_append]
      congr 2
      rw [List.filter_filter]
      apply congrArg specEdgeDedup
      apply List.filter_congr
      intro x _
      by_cases h1 : edgeKey x = edgeKey e <;> by_cases h2 : edgeKey x ∈ seen <;>
        simp [h1, h2]

/-- The edge merge of schema.py lines 375-381 equals its specification. -/
theorem dedupEdges_eq_spec (es : List ErdEdge) :
    dedupEdges es = specEdgeDedup es := by
  have h := dedupEdgesGo_eq es [] []
  simpa [dedupEdges] using h

/-- A permutation of chunk lists flattens to a permutation. -/
theorem perm_flatten {β : Type} {l₁ l₂ : List (List β)} (h : l₁.Perm l₂) :
    l₁.flatten.Perm l₂.flatten := by
  induction h with
  | nil => rfl
  | cons x _ ih => simpa using ih.append_left x
  | swap x y l =>
    simp only [List.flatten_cons]
    rw [← List.append_assoc, ← List.append_assoc]
    exact (List.perm_append_comm).append_right _
  | trans _ _ ih₁ ih₂ => exact ih₁.trans ih₂

/-- C3: in the final merge, nodes are deduplicated by id with the last
occurrence's content winning and keys listed in first-insertion order
(`specNodeMerge`); edges are deduplicated by `(source, target, label)`
with the first occurrence winning and later duplicates dropped, in
first-occurrence order (`specEdgeDedup`); and for chunk sequences whose
node ids are pairwise distinct, any two orderings of the chunks merge to
the same node set. -/
theorem c3_merge_dedup_order {α : Type} :
    (∀ ns : List (String × α), dedupNodes ns = specNodeMerge ns) ∧
    (∀ es : List ErdEdge, dedupEdges es = specEdgeDedup es) ∧
    (∀ chunks chunks' : List (List (String × α)), chunks.Perm chunks' →
      (chunks.flatten.map Prod.fst).Nodup →
      ∀ x, x ∈ dedupNodes chunks.flatten ↔ x ∈ dedupNodes chunks'.flatten) := by
  refine ⟨dedupNodes_eq_spec, dedupEdges_eq_spec, ?_⟩
  intro chunks chunks' hperm hnd x
  have hpf : chunks.flatten.Perm chunks'.flatten := perm_flatten hperm
  have hnd' : (chunks'.flatten.map Prod.fst).Nodup :=
    (hpf.map Prod.fst).nodup_iff.mp hnd
  rw [dedupNodes_eq_spec, dedupNodes_eq_spec,
    specNodeMerge_of_nodup _ hnd, specNodeMerge_of_nodup _ hnd']
  exact hpf.mem_iff

/-- Witness for C3 at concrete inputs: a node id collision resolved
last-write-wins, an edge key collision resolved first-write-wins, and a
two-chunk permutation with distinct ids. -/
theorem c3_merge_dedup_order_witness :
    dedupNodes [("A", "x"), ("B", "y"), ("A", "z")] =
      specNodeMerge [("A", "x"), ("B", "y"), ("A", "z")] ∧
    dedupEdges
      [⟨some "A", some "B", some "fk", some "c", some "d"⟩,
       ⟨some "A", some "B", some "fk", some "C", some "D"⟩] =
      specEdgeDedup
        [⟨some "A", some "B", some "fk", some "c", some "d"⟩,
         ⟨some "A", some "B", some "fk", some "C", some "D"⟩] ∧
    (("A", "x") ∈ dedupNodes [[("A", "x")], [("B", "y")]].flatten ↔
      ("A", "x") ∈ dedupNodes [[("B", "y")], [("A", "x")]].flatten) :=
  ⟨(c3_merge_dedup_order (α := String)).1 _,
   (c3_merge_dedup_order (α := String)).2.1 _,
   (c3_merge_dedup_order (α := String)).2.2
     [[("A", "x")], [("B", "y")]] [[("B", "y")], [("A", "x")]]
     (by decide) (by decide) ("A", "x")⟩

/-! ## C4: `resolve_chunk_tables` computes the reachable set -/

theorem resolveAux_nil (g : List (String × List String)) (univ vis : List String) :
    resolveAux g univ [] vis = vis := by
  unfold resolveAux
  rfl

theorem resolveAux_cons (g : List (String × List String)) (univ : List String)
    (t : String) (stack vis : List String) :
    resolveAux g univ (t :: stack) vis =
      if t ∈ vis then resolveAux g univ stack vis
      else if t ∈ univ then resolveAux g univ (succs g t ++ stack) (t :: vis)
      else resolveAux g univ stack (t :: vis) := by
  rw [resolveAux]

/-- The visited set only grows. -/
theorem resolveAux_mono (g : List (String × List String)) (univ : List String) :
    ∀ stack vis, vis ⊆ resolveAux g univ stack vis := by
  intro stack vis
  induction stack, vis using resolveAux.induct g univ with
  | case1 vis => rw [resolveAux_nil]; exact fun a ha => ha
  | case2 t stack vis h ih =>
    rw [resolveAux_cons, if_pos h]; exact ih
  | case3 t stack vis h1 h2 ih =>
    rw [resolveAux_cons, if_neg h1, if_pos h2]
    exact fun a ha => ih (List.mem_cons_of_mem _ ha)
  | case4 t stack vis h1 h2 ih =>
    rw [resolveAux_cons, if_neg h1, if_neg h2]
    exact fun a ha => ih (List.mem_cons_of_mem _ ha)

/-- Every table on the work stack ends up visited. -/
theorem resolveAux_stack_subset (g : List (String × List String))
    (univ : List String) :
    ∀ stack vis, ∀ t ∈ stack, t ∈ resolveAux g univ stack vis := by
  intro stack vis
  induction stack, vis using resolveAux.induct g univ with
  | case1 vis => intro t ht; simp at ht
  | case2 t stack vis h ih =>
    intro u hu
    rw [resolveAux_cons, if_pos h]
    rcases List.mem_cons.mp hu with rfl | hu'
    · exact resolveAux_mono g univ stack vis h
    · exact ih u hu'
  | case3 t stack vis h1 h2 ih =>
    intro u hu
    rw [resolveAux_cons, if_neg h1, if_pos h2]
    rcases List.mem_cons.mp hu with rfl | hu'
    · exact resolveAux_mono g univ _ _ (List.mem_cons_self _ _)
    · exact ih u (List.mem_append_right _ hu')
  | case4 t stack vis h1 h2 ih =>
    intro u hu
    rw [resolveAux_cons, if_neg h1, if_neg h2]
    rcases List.mem_cons.mp hu with rfl | hu'
    · exact resolveAux_mono g univ _ _ (List.mem_cons_self _ _)
    · exact ih u hu'

/-- Soundness: when the visited set and the stack hold only reachable
tables, so does the result. -/
theorem resolveAux_sound (g : List (String × List String)) (univ : List String)
    (s : String) :
    ∀ stack vis, (∀ v ∈ vis, Reachable g s v) → (∀ t ∈ stack, Reachable g s t) →
      ∀ x ∈ resolveAux g univ stack vis, Reachable g s x := by
  intro stack vis
  induction stack, vis using resolveAux.induct g univ with
  | case1 vis =>
    intro hvis _ x hx
    rw [resolveAux_nil] at hx
    exact hvis x hx
  | case2 t stack vis h ih =>
    intro hvis hstack x hx
    rw [resolveAux_cons, if_pos h] at hx
    exact ih hvis (fun u hu => hstack u (List.mem_cons_of_mem _ hu)) x hx
  | case3 t stack vis h1 h2 ih =>
    intro hvis hstack x hx
    rw [resolveAux_cons, if_neg h1, if_pos h2] at hx
    have hrt : Reachable g s t := hstack t (List.mem_cons_self _ _)
    refine ih ?_ ?_ x hx
    · intro v hv
      rcases List.mem_cons.mp hv with rfl | hv'
      · exact hrt
      · exact hvis v hv'
    · intro u hu
      rcases List.mem_append.mp hu with hu' | hu'
      · exact Reachable.step hrt hu'
      · exact hstack u (List.mem_cons_of_mem _ hu')
  | case4 t stack vis h1 h2 ih =>
    intro hvis hstack x hx
    rw [resolveAux_cons, if_neg h1, if_neg h2] at hx
    refine ih ?_ (fun u hu => hstack u (List.mem_cons_of_mem _ hu)) x hx
    intro v hv
    rcases List.mem_cons.mp hv with rfl | hv'
    · exact hstack v (List.mem_cons_self _ _)
    · exact hvis v hv'

/-- An unknown table has no successors. -/
theorem succs_of_not_key (g : List (String × List String)) (t : String)
    (h : ¬ t ∈ g.map Prod.fst) : succs g t = [] := by
  unfold succs
  have : assocFind g t = none := by
    induction g with
    | nil => rfl
    | cons q rest ih =>
      have hq : ¬ q.1 = t := by
        intro he; exact h (by simp [he])
      have hrest : ¬ t ∈ rest.map Prod.fst := by
        intro hm; exact h (by simp [hm])
      simp only [assocFind, if_neg hq]
      exact ih hrest
  rw [this]; rfl

/-- Closure: when every visited table's successors are visited or on the
stack, the result is closed under successors. -/
theorem resolveAux_closed (g : List (String × List String)) (univ : List String)
    (hku : ∀ x ∈ g.map Prod.fst, x ∈ univ) :
    ∀ stack vis, (∀ v ∈ vis, ∀ w ∈ succs g v, w ∈ vis ∨ w ∈ stack) →
      ∀ v ∈ resolveAux g univ stack vis, ∀ w ∈ succs g v,
        w ∈ resolveAux g univ stack vis := by
  intro stack vis
  induction stack, vis using resolveAux.induct g univ with
  | case1 vis =>
    intro hinv v hv w hw
    rw [resolveAux_nil] at hv ⊢
    rcases hinv v hv w hw with h | h
    · exact h
    · simp at h
  | case2 t stack vis h ih =>
    intro hinv
    rw [resolveAux_cons, if_pos h]
    refine ih ?_
    intro v hv w hw
    rcases hinv v hv w hw with h' | h'
    · exact Or.inl h'
    · rcases List.mem_cons.mp h' with rfl | h''
      · exact Or.inl h
      · exact Or.inr h''
  | case3 t stack vis h1 h2 ih =>
    intro hinv
    rw [resolveAux_cons, if_neg h1, if_pos h2]
    refine ih ?_
    intro v hv w hw
    rcases List.mem_cons.mp hv with rfl | hv'
    · exact Or.inr (List.mem_append_left _ hw)
    · rcases hinv v hv' w hw with h' | h'
      · exact Or.inl (List.mem_cons_of_mem _ h')
      · rcases List.mem_cons.mp h' with rfl | h''
        · exact Or.inl (List.mem_cons_self _ _)
        · exact Or.inr (List.mem_append_right _ h'')
  | case4 t stack vis h1 h2 ih =>
    intro hinv
    rw [resolveAux_cons, if_neg h1, if_neg h2]
    refine ih ?_
    intro v hv w hw
    rcases List.mem_cons.mp hv with rfl | hv'
    · have : succs g v = [] :=
        succs_of_not_key g v (fun hk => h2 (hku v hk))
      rw [this] at hw
      simp at hw
    · rcases hinv v hv' w hw with h' | h'
      · exact Or.inl (List.mem_cons_of_mem _ h')
      · rcases List.mem_cons.mp h' with rfl | h''
        · exact Or.inl (List.mem_cons_self _ _)
        · exact Or.inr h''

/-- C4: for every dependency graph, `resolve_chunk_tables` (a total
function — the traversal terminates on every input, cycles included)
returns exactly the set of tables reachable from the start table along
foreign-key edges, the start table itself included; in particular, on
the cycle `A → B → C → A` started at `A` it returns `{A, B, C}`. -/
theorem c4_resolve_reachable :
    (∀ (g : List (String × List String)) (s : String),
      (∀ x, x ∈ resolve_chunk_tables g s ↔ Reachable g s x) ∧
        s ∈ resolve_chunk_tables g s) ∧
    (∀ x, x ∈ resolve_chunk_tables cycleABC "A" ↔
      (x = "A" ∨ x = "B" ∨ x = "C")) := by
  have main : ∀ (g : List (String × List String)) (s : String),
      ∀ x, x ∈ resolve_chunk_tables g s ↔ Reachable g s x := by
    intro g s x
    unfold resolve_chunk_tables
    constructor
    · intro hx
      refine resolveAux_sound g (s :: graphUniv g) s [s] [] ?_ ?_ x hx
      · intro v hv; simp at hv
      · intro t ht
        rcases List.mem_singleton.mp ht with rfl
        exact Reachable.refl
    · intro hr
      induction hr with
      | refl =>
        exact resolveAux_stack_subset g (s :: graphUniv g) [s] [] s
          (List.mem_singleton.mpr rfl)
      | step hu hsucc ih =>
        refine resolveAux_closed g (s :: graphUniv g) ?_ [s] [] ?_ _ ih _ hsucc
        · intro y hy
          exact List.mem_cons_of_mem _ (List.mem_append_left _ hy)
        · intro v hv; simp at hv
  constructor
  · intro g s
    exact ⟨main g s, (main g s s).mpr Reachable.refl⟩
  · intro x
    rw [main cycleABC "A" x]
    constructor
    · intro hr
      induction hr with
      | refl => exact Or.inl rfl
      | step hu hsucc ih =>
        rename_i u v
        rcases ih with rfl | rfl | rfl
        · right; left
          have : succs cycleABC "A" = ["B"] := by decide
          rw [this] at hsucc
          simpa using hsucc
        · right; right
          have : succs cycleABC "B" = ["C"] := by decide
          rw [this] at hsucc
          simpa using hsucc
        · left
          have : succs cycleABC "C" = ["A"] := by decide
          rw [this] at hsucc
          simpa using hsucc
    · intro hx
      have hAB : ("B" : String) ∈ succs cycleABC "A" := by decide
      have hBC : ("C" : String) ∈ succs cycleABC "B" := by decide
      have hCA : ("A" : String) ∈ succs cycleABC "C" := by decide
      rcases hx with rfl | rfl | rfl
      · exact Reachable.refl
      · exact Reachable.step Reachable.refl hAB
      · exact Reachable.step (Reachable.step Reachable.refl hAB) hBC

/-! ## C9: column names after recovery and normalization -/

theorem lookup_upsertKv_self (kvs : List (String × PyVal)) (k : String) (v : PyVal) :
    (upsertKv kvs k v).lookup k = some v := by
  induction kvs with
  | nil => simp [upsertKv, List.lookup]
  | cons q rest ih =>
    by_cases hq : q.1 = k
    · simp [upsertKv, hq, List.lookup]
    · simp only [upsertKv]
      rw [if_neg hq]
      simpa [List.lookup, show ¬ (k == q.1) = true by simpa using fun he => hq (by simp [he])] using ih

theorem lookup_upsertKv_ne (kvs : List (String × PyVal)) (k : String) (v : PyVal)
    (k' : String) (h : ¬ k' = k) :
    (upsertKv kvs k v).lookup k' = kvs.lookup k' := by
  induction kvs with
  | nil => simp [upsertKv, List.lookup, show ¬ (k' == k) = true by simpa using h]
  | cons q rest ih =>
    by_cases hq : q.1 = k
    · subst hq
      simp only [upsertKv, if_pos rfl]
      simp [List.lookup, show ¬ (k' == q.1) = true by simpa using h]
    · simp only [upsertKv]
      rw [if_neg hq]
      by_cases hq' : q.1 = k'
      · simp [List.lookup, hq']
      · simp only [List.lookup]
        rw [show (k' == q.1) = false by simpa using fun he => hq' (by simp [he])]
        exact ih

theorem lookup_filter_of_pass (k : String) (p : String × PyVal → Bool) :
    ∀ kvs : List (String × PyVal), (∀ q ∈ kvs, q.1 = k → p q = true) →
      (kvs.filter p).lookup k = kvs.lookup k := by
  intro kvs
  induction kvs with
  | nil => intro _; rfl
  | cons q rest ih =>
    intro h
    have hrest := ih (fun q' hq' => h q' (List.mem_cons_of_mem _ hq'))
    by_cases hq : q.1 = k
    · rw [List.filter_cons_of_pos (h q (List.mem_cons_self _ _) hq)]
      simp [List.lookup, hq]
    · by_cases hp : p q = true
      · rw [List.filter_cons_of_pos hp]
        simp only [List.lookup]
        rw [show (k == q.1) = false by simpa using fun he => hq (by simp [he])]
        exact hrest
      · rw [List.filter_cons_of_neg (by simpa using hp)]
        rw [hrest]
        simp only [List.lookup]
        rw [show (k == q.1) = false by simpa using fun he => hq (by simp [he])]

theorem effColsVal_upsert_type (kvs : List (String × PyVal)) (v : PyVal) :
    effColsVal (upsertKv kvs "type" v) = effColsVal kvs := by
  unfold effColsVal dictGet
  rw [lookup_upsertKv_ne kvs "type" v "columns" (by decide),
    lookup_upsertKv_ne kvs "type" v "data" (by decide)]

theorem mapM_normCol_names :
    ∀ (cs ds : List PyVal), cs.mapM normCol = .ok ds →
      ds.map colName = cs.map colName := by
  intro cs
  induction cs with
  | nil =>
    intro ds h
    simp only [List.mapM_nil, pure, Except.pure] at h
    cases h
    rfl
  | cons c rest ih =>
    intro ds h
    rw [List.mapM_cons] at h
    cases hc : normCol c with
    | error e => rw [hc] at h; simp [Bind.bind, Except.bind] at h
    | ok d =>
      rw [hc] at h
      cases hr : rest.mapM normCol with
      | error e =>
        rw [hr] at h; simp [Bind.bind, Except.bind, pure, Except.pure] at h
      | ok ds' =>
        rw [hr] at h
        simp only [Bind.bind, Except.bind, pure, Except.pure] at h
        cases h
        rw [List.map_cons, List.map_cons, ih ds' hr]
        have hcd : colName d = colName c := by
          cases c with
          | pyDict ckv =>
            simp only [normCol] at hc
            cases hc
            rfl
          | pyNone => simp [normCol] at hc
          | pyBool b => simp [normCol] at hc
          | pyInt n => simp [normCol] at hc
          | pyStr s => simp [normCol] at hc
          | pyList xs => simp [normCol] at hc
        rw [hcd]

/-- C9, amended: `normalize_erd_node` projects every effective input
column to the fixed field set and preserves the column-name sequence
unchanged; consequently the normalized node's columns are free of
duplicate names exactly when the decoded input's effective columns are —
the stage performs no deduplication of its own. -/
theorem c9_column_names (node out : PyVal) :
    normalize_erd_node node = .ok out →
    nodeColNames out = (effCols node).map colName ∧
    (((effCols node).map colName).Nodup → (nodeColNames out).Nodup) := by
  intro h
  suffices hn : nodeColNames out = (effCols node).map colName by
    exact ⟨hn, fun hd => hn ▸ hd⟩
  cases node with
  | pyNone => simp [normalize_erd_node] at h
  | pyBool b => simp [normalize_erd_node] at h
  | pyInt n => simp [normalize_erd_node] at h
  | pyStr s => simp [normalize_erd_node] at h
  | pyList xs => simp [normalize_erd_node] at h
  | pyDict kvs =>
    simp only [normalize_erd_node] at h
    rw [effColsVal_upsert_type kvs (.pyStr "table")] at h
    have main : ∀ (colItems : List PyVal),
        (do
          let normCols ← colItems.mapM normCol
          let kvs1 := upsertKv (upsertKv kvs "type" (.pyStr "table"))
            "columns" (.pyList normCols)
          let kvs2 :=
            if (kvs1.lookup "data").isSome then
              kvs1.filter (fun kv => ¬ kv.1 = "data")
            else kvs1
          Except.ok (PyVal.pyDict kvs2) : Except Unit PyVal) = .ok out →
        nodeColNames out = colItems.map colName := by
      intro colItems hdo
      cases hm : colItems.mapM normCol with
      | error e => rw [hm] at hdo; simp [Bind.bind, Except.bind] at hdo
      | ok normCols =>
        rw [hm] at hdo
        simp only [Bind.bind, Except.bind] at hdo
        cases hdo
        rw [← mapM_normCol_names colItems normCols hm]
        set kvs1 := upsertKv (upsertKv kvs "type" (.pyStr "table"))
          "columns" (.pyList normCols) with hkvs1
        have hlook : ∀ kvs2 : List (String × PyVal),
            kvs2.lookup "columns" = some (.pyList normCols) →
            nodeColNames (PyVal.pyDict kvs2) = normCols.map colName := by
          intro kvs2 hl
          simp [nodeColNames, hl]
        by_cases hd : (kvs1.lookup "data").isSome
        · rw [if_pos hd]
          apply hlook
          rw [lookup_filter_of_pass "columns" _ kvs1
            (fun q _ hq => by simp [hq])]
          exact lookup_upsertKv_self _ _ _
        · rw [if_neg hd]
          apply hlook
          exact lookup_upsertKv_self _ _ _
    cases hec : effColsVal kvs with
    | pyList xs =>
      rw [hec] at h
      have := main xs (by
        simpa [Bind.bind, Except.bind] using h)
      rw [this]
      simp [effCols, hec]
    | pyStr s =>
      rw [hec] at h
      by_cases hs : s.isEmpty
      · have := main [] (by simpa [Bind.bind, Except.bind, hs] using h)
        rw [this]
        simp [effCols, hec]
      · simp [Bind.bind, Except.bind, hs] at h
    | pyDict k2 =>
      rw [hec] at h
      by_cases hs : k2.isEmpty
      · have := main [] (by simpa [Bind.bind, Except.bind, hs] using h)
        rw [this]
        simp [effCols, hec]
      · simp [Bind.bind, Except.bind, hs] at h
    | pyNone => rw [hec] at h; simp [Bind.bind, Except.bind] at h
    | pyBool b => rw [hec] at h; simp [Bind.bind, Except.bind] at h
    | pyInt n => rw [hec] at h; simp [Bind.bind, Except.bind] at h

/-- C9, counterexample: a generated chunk whose node repeats the column
name `x` passes recovery (`parse_erd_json`) and normalization
(`normalize_erd_node`) unchanged — the produced node's columns list
contains two columns with the same name, refuting the claimed
invariant. -/
theorem c9_columns_counterexample :
    ∃ out : PyVal, chunkContribution decodeDup "\x7b\x7d" = ([out], []) ∧
      ¬ (nodeColNames out).Nodup := by
  refine ⟨PyVal.pyDict
    [("columns", PyVal.pyList
      [PyVal.pyDict
         [("name", PyVal.pyStr "x"), ("type", PyVal.pyNone),
          ("isPrimaryKey", PyVal.pyBool false),
          ("isForeignKey", PyVal.pyBool false),
          ("nullable", PyVal.pyBool false)],
       PyVal.pyDict
         [("name", PyVal.pyStr "x"), ("type", PyVal.pyNone),
          ("isPrimaryKey", PyVal.pyBool false),
          ("isForeignKey", PyVal.pyBool false),
          ("nullable", PyVal.pyBool false)]]),
     ("type", PyVal.pyStr "table")], rfl, ?_⟩
  intro h
  have h2 : nodeColNames (PyVal.pyDict
    [("columns", PyVal.pyList
      [PyVal.pyDict
         [("name", PyVal.pyStr "x"), ("type", PyVal.pyNone),
          ("isPrimaryKey", PyVal.pyBool false),
          ("isForeignKey", PyVal.pyBool false),
          ("nullable", PyVal.pyBool false)],
       PyVal.pyDict
         [("name", PyVal.pyStr "x"), ("type", PyVal.pyNone),
          ("isPrimaryKey", PyVal.pyBool false),
          ("isForeignKey", PyVal.pyBool false),
          ("nullable", PyVal.pyBool false)]]),
     ("type", PyVal.pyStr "table")]) = [PyVal.pyStr "x", PyVal.pyStr "x"] := rfl
  rw [h2] at h
  exact (List.nodup_cons.mp h).1 (List.mem_singleton.mpr rfl)

/-- Witness for C9's amended theorem at a node with two distinct column
names. -/
theorem c9_column_names_witness :
    nodeColNames (PyVal.pyDict
      [("columns", PyVal.pyList
        [PyVal.pyDict
           [("name", PyVal.pyStr "a"), ("type", PyVal.pyNone),
            ("isPrimaryKey", PyVal.pyBool false),
            ("isForeignKey", PyVal.pyBool false),
            ("nullable", PyVal.pyBool false)],
         PyVal.pyDict
           [("name", PyVal.pyStr "b"), ("type", PyVal.pyNone),
            ("isPrimaryKey", PyVal.pyBool false),
            ("isForeignKey", PyVal.pyBool false),
            ("nullable", PyVal.pyBool false)]]),
       ("type", PyVal.pyStr "table")]) =
      (effCols (PyVal.pyDict
        [("columns", PyVal.pyList
          [PyVal.pyDict [("name", PyVal.pyStr "a")],
           PyVal.pyDict [("name", PyVal.pyStr "b")]])])).map colName ∧
    (((effCols (PyVal.pyDict
        [("columns", PyVal.pyList
          [PyVal.pyDict [("name", PyVal.pyStr "a")],
           PyVal.pyDict [("name", PyVal.pyStr "b")]])])).map colName).Nodup →
      (nodeColNames (PyVal.pyDict
        [("columns", PyVal.pyList
          [PyVal.pyDict
             [("name", PyVal.pyStr "a"), ("type", PyVal.pyNone),
              ("isPrimaryKey", PyVal.pyBool false),
              ("isForeignKey", PyVal.pyBool false),
              ("nullable", PyVal.pyBool false)],
           PyVal.pyDict
             [("name", PyVal.pyStr "b"), ("type", PyVal.pyNone),
              ("isPrimaryKey", PyVal.pyBool false),
              ("isForeignKey", PyVal.pyBool false),
              ("nullable", PyVal.pyBool false)]]),
         ("type", PyVal.pyStr "table")])).Nodup) :=
  c9_column_names
    (PyVal.pyDict
      [("columns", PyVal.pyList
        [PyVal.pyDict [("name", PyVal.pyStr "a")],
         PyVal.pyDict [("name", PyVal.pyStr "b")]])]) _ rfl

/-! ## C10: totality of `parse_erd_json` -/

theorem cleanupNodes_keys (kvs1 : List (String × PyVal)) (out : PyVal)
    (hc : cleanupNodes (.pyDict kvs1) = .ok out)
    (h1 : (kvs1.lookup "nodes").isSome = true)
    (h2 : (kvs1.lookup "edges").isSome = true) :
    ∃ kvs', out = .pyDict kvs' ∧ (kvs'.lookup "nodes").isSome = true ∧
      (kvs'.lookup "edges").isSome = true := by
  simp only [cleanupNodes] at hc
  split at hc
  · rename_i nodes heq
    cases hmm : nodes.mapM cleanupNode with
    | error e => rw [hmm] at hc; simp [Bind.bind, Except.bind] at hc
    | ok nodes' =>
      rw [hmm] at hc
      simp only [Bind.bind, Except.bind] at hc
      cases hc
      refine ⟨_, rfl, ?_, ?_⟩
      · rw [lookup_upsertKv_self]; rfl
      · rw [lookup_upsertKv_ne _ _ _ _ (by decide)]; exact h2
  · rename_i s heq
    by_cases hs : s.isEmpty
    · simp only [hs, if_true] at hc
      cases hc
      exact ⟨kvs1, rfl, h1, h2⟩
    · simp [hs] at hc
  · rename_i k2 heq
    by_cases hs : k2.isEmpty
    · simp only [hs, if_true] at hc
      cases hc
      exact ⟨kvs1, rfl, h1, h2⟩
    · simp [hs] at hc
  · simp at hc
  · simp at hc

/-- C10: `parse_erd_json` is total over its error cases — for every
decoder behaviour and every input string it either returns a dictionary
carrying both the `nodes` and the `edges` key, or returns `None`; every
internal exception (no object found, decode failure, ill-shaped values)
is absorbed by the handler. -/
theorem c10_parse_erd_json_total (decode : String → Option PyVal)
    (response : String) :
    parse_erd_json decode response = none ∨
    ∃ kvs, parse_erd_json decode response = some (.pyDict kvs) ∧
      (kvs.lookup "nodes").isSome = true ∧
      (kvs.lookup "edges").isSome = true := by
  cases hm : reSearchBraces response.data with
  | none =>
    left
    simp [parse_erd_json, parseErdCore, hm, Bind.bind, Except.bind,
      Except.toOption]
  | some m =>
    cases hd : decode (String.mk (pyStrip (replaceAll ['\x5c', '\x22'] ['\x22']
        (replaceAll ['\x5c', '\x27'] ['\x27'] m)))) with
    | none =>
      left
      simp [parse_erd_json, parseErdCore, hm, hd, Bind.bind, Except.bind,
        Except.toOption]
    | some parsed₀ =>
      cases hf : fixEdgeNesting parsed₀ with
      | error e =>
        left
        simp [parse_erd_json, parseErdCore, hm, hd, hf, Bind.bind, Except.bind,
          Except.toOption]
      | ok parsed₁ =>
        cases parsed₁ with
        | pyDict kvs1 =>
          by_cases hv : (kvs1.lookup "nodes").isSome = true ∧
              (kvs1.lookup "edges").isSome = true
          · cases hc : cleanupNodes (.pyDict kvs1) with
            | error e =>
              left
              simp [parse_erd_json, parseErdCore, hm, hd, hf, hc, hv,
                Bind.bind, Except.bind, Except.toOption]
            | ok out =>
              right
              obtain ⟨kvs', hout, hk1, hk2⟩ :=
                cleanupNodes_keys kvs1 out hc hv.1 hv.2
              refine ⟨kvs', ?_, hk1, hk2⟩
              rw [← hout]
              simp [parse_erd_json, parseErdCore, hm, hd, hf, hc, hv,
                Bind.bind, Except.bind, Except.toOption]
          · left
            simp only [parse_erd_json, parseErdCore, hm, hd, hf,
              Bind.bind, Except.bind]
            rw [if_neg hv]
            rfl
        | pyNone =>
          left
          simp [parse_erd_json, parseErdCore, hm, hd, hf, Bind.bind,
            Except.bind, Except.toOption]
        | pyBool b =>
          left
          simp [parse_erd_json, parseErdCore, hm, hd, hf, Bind.bind,
            Except.bind, Except.toOption]
        | pyInt n =>
          left
          simp [parse_erd_json, parseErdCore, hm, hd, hf, Bind.bind,
            Except.bind, Except.toOption]
        | pyStr s =>
          left
          simp [parse_erd_json, parseErdCore, hm, hd, hf, Bind.bind,
            Except.bind, Except.toOption]
        | pyList xs =>
          left
          simp [parse_erd_json, parseErdCore, hm, hd, hf, Bind.bind,
            Except.bind, Except.toOption]

/-! ## C5/C6/C7: the brace-matching scan of `clean_json_string` -/

theorem braceDepth_nil : braceDepth [] = 0 := rfl

theorem braceDepth_cons (c : Char) (cs : List Char) :
    braceDepth (c :: cs) = braceDelta c + braceDepth cs := by
  simp [braceDepth]

theorem closeIdx_cons (c0 : Char) (rest : List Char) (c : Int) :
    closeIdx (c0 :: rest) c =
      if c0 = '\x7b' then (closeIdx rest (c + 1)).map (· + 1)
      else if c0 = '\x7d' then
        if c - 1 = 0 then some 1 else (closeIdx rest (c - 1)).map (· + 1)
      else (closeIdx rest c).map (· + 1) := rfl

/-- The scan consumes at least one and at most all characters. -/
theorem closeIdx_bounds :
    ∀ (cs : List Char) (c : Int) (n : Nat), closeIdx cs c = some n →
      1 ≤ n ∧ n ≤ cs.length := by
  intro cs
  induction cs with
  | nil => intro c n h; simp [closeIdx] at h
  | cons c0 rest ih =>
    intro c n h
    rw [closeIdx_cons] at h
    by_cases h1 : c0 = '\x7b'
    · rw [if_pos h1] at h
      obtain ⟨m, hm, rfl⟩ := Option.map_eq_some'.mp h
      have := ih _ _ hm
      simp only [List.length_cons]
      omega
    · rw [if_neg h1] at h
      by_cases h2 : c0 = '\x7d'
      · rw [if_pos h2] at h
        by_cases h3 : c - 1 = 0
        · rw [if_pos h3] at h
          cases h
          simp only [List.length_cons]
          omega
        · rw [if_neg h3] at h
          obtain ⟨m, hm, rfl⟩ := Option.map_eq_some'.mp h
          have := ih _ _ hm
          simp only [List.length_cons]
          omega
      · rw [if_neg h2] at h
        obtain ⟨m, hm, rfl⟩ := Option.map_eq_some'.mp h
        have := ih _ _ hm
        simp only [List.length_cons]
        omega

/-- The scan result only depends on the consumed prefix. -/
theorem closeIdx_take :
    ∀ (cs : List Char) (c : Int) (n : Nat), closeIdx cs c = some n →
      closeIdx (cs.take n) c = some n := by
  intro cs
  induction cs with
  | nil => intro c n h; simp [closeIdx] at h
  | cons c0 rest ih =>
    intro c n h
    rw [closeIdx_cons] at h
    by_cases h1 : c0 = '\x7b'
    · rw [if_pos h1] at h
      obtain ⟨m, hm, rfl⟩ := Option.map_eq_some'.mp h
      rw [List.take_succ_cons, closeIdx_cons, if_pos h1, ih _ _ hm]
      rfl
    · rw [if_neg h1] at h
      by_cases h2 : c0 = '\x7d'
      · rw [if_pos h2] at h
        by_cases h3 : c - 1 = 0
        · rw [if_pos h3] at h
          cases h
          rw [List.take_succ_cons, List.take_zero, closeIdx_cons,
            if_neg h1, if_pos h2, if_pos h3]
        · rw [if_neg h3] at h
          obtain ⟨m, hm, rfl⟩ := Option.map_eq_some'.mp h
          rw [List.take_succ_cons, closeIdx_cons, if_neg h1, if_pos h2,
            if_neg h3, ih _ _ hm]
          rfl
      · rw [if_neg h2] at h
        obtain ⟨m, hm, rfl⟩ := Option.map_eq_some'.mp h
        rw [List.take_succ_cons, closeIdx_cons, if_neg h1, if_neg h2,
          ih _ _ hm]
        rfl

/-- The scan ignores anything after the matching brace. -/
theorem closeIdx_append :
    ∀ (cs : List Char) (c : Int) (n : Nat) (r : List Char),
      closeIdx cs c = some n → closeIdx (cs ++ r) c = some n := by
  intro cs
  induction cs with
  | nil => intro c n r h; simp [closeIdx] at h
  | cons c0 rest ih =>
    intro c n r h
    rw [closeIdx_cons] at h
    rw [List.cons_append, closeIdx_cons]
    by_cases h1 : c0 = '\x7b'
    · rw [if_pos h1] at h ⊢
      obtain ⟨m, hm, rfl⟩ := Option.map_eq_some'.mp h
      rw [ih _ _ r hm]
      rfl
    · rw [if_neg h1] at h ⊢
      by_cases h2 : c0 = '\x7d'
      · rw [if_pos h2] at h ⊢
        by_cases h3 : c - 1 = 0
        · rw [if_pos h3] at h ⊢
          exact h
        · rw [if_neg h3] at h ⊢
          obtain ⟨m, hm, rfl⟩ := Option.map_eq_some'.mp h
          rw [ih _ _ r hm]
          rfl
      · rw [if_neg h2] at h ⊢
        obtain ⟨m, hm, rfl⟩ := Option.map_eq_some'.mp h
        rw [ih _ _ r hm]
        rfl

/-- The consumed prefix ends at a closing brace. -/
theorem closeIdx_last :
    ∀ (cs : List Char) (c : Int) (n : Nat), closeIdx cs c = some n →
      ∃ p, cs.take n = p ++ ['\x7d'] := by
  intro cs
  induction cs with
  | nil => intro c n h; simp [closeIdx] at h
  | cons c0 rest ih =>
    intro c n h
    rw [closeIdx_cons] at h
    by_cases h1 : c0 = '\x7b'
    · rw [if_pos h1] at h
      obtain ⟨m, hm, rfl⟩ := Option.map_eq_some'.mp h
      obtain ⟨p, hp⟩ := ih _ _ hm
      exact ⟨c0 :: p, by rw [List.take_succ_cons, hp]; rfl⟩
    · rw [if_neg h1] at h
      by_cases h2 : c0 = '\x7d'
      · rw [if_pos h2] at h
        by_cases h3 : c - 1 = 0
        · rw [if_pos h3] at h
          cases h
          exact ⟨[], by simp [List.take_succ_cons, h2]⟩
        · rw [if_neg h3] at h
          obtain ⟨m, hm, rfl⟩ := Option.map_eq_some'.mp h
          obtain ⟨p, hp⟩ := ih _ _ hm
          exact ⟨c0 :: p, by rw [List.take_succ_cons, hp]; rfl⟩
      · rw [if_neg h2] at h
        obtain ⟨m, hm, rfl⟩ := Option.map_eq_some'.mp h
        obtain ⟨p, hp⟩ := ih _ _ hm
        exact ⟨c0 :: p, by rw [List.take_succ_cons, hp]; rfl⟩

/-- The scan returns exactly when the counter reaches zero. -/
theorem closeIdx_depth :
    ∀ (cs : List Char) (c : Int) (n : Nat), closeIdx cs c = some n →
      c + braceDepth (cs.take n) = 0 := by
  intro cs
  induction cs with
  | nil => intro c n h; simp [closeIdx] at h
  | cons c0 rest ih =>
    intro c n h
    rw [closeIdx_cons] at h
    by_cases h1 : c0 = '\x7b'
    · rw [if_pos h1] at h
      obtain ⟨m, hm, rfl⟩ := Option.map_eq_some'.mp h
      have := ih _ _ hm
      rw [List.take_succ_cons, braceDepth_cons]
      simp only [braceDelta, if_pos h1]
      omega
    · rw [if_neg h1] at h
      by_cases h2 : c0 = '\x7d'
      · rw [if_pos h2] at h
        by_cases h3 : c - 1 = 0
        · rw [if_pos h3] at h
          cases h
          rw [List.take_succ_cons, List.take_zero, braceDepth_cons,
            braceDepth_nil]
          simp only [braceDelta, if_neg h1, if_pos h2]
          omega
        · rw [if_neg h3] at h
          obtain ⟨m, hm, rfl⟩ := Option.map_eq_some'.mp h
          have := ih _ _ hm
          rw [List.take_succ_cons, braceDepth_cons]
          simp only [braceDelta, if_neg h1, if_pos h2]
          omega
      · rw [if_neg h2] at h
        obtain ⟨m, hm, rfl⟩ := Option.map_eq_some'.mp h
        have := ih _ _ hm
        rw [List.take_succ_cons, braceDepth_cons]
        simp only [braceDelta, if_neg h1, if_neg h2]
        omega

/-- Conversely, the scan finds the first prefix on which the counter
reaches zero. -/
theorem closeIdx_of_depth :
    ∀ (cs : List Char) (c : Int) (m : Nat), 0 < c → m ≤ cs.length →
      c + braceDepth (cs.take m) = 0 →
      (∀ k, k < m → ¬ c + braceDepth (cs.take k) = 0) →
      closeIdx cs c = some m := by
  intro cs
  induction cs with
  | nil =>
    intro c m hc hm hz _
    simp only [List.length_nil, Nat.le_zero] at hm
    subst hm
    rw [List.take_nil, braceDepth_nil] at hz
    omega
  | cons c0 rest ih =>
    intro c m hc hm hz hnz
    have hm1 : 1 ≤ m := by
      by_contra hlt
      have hm0 : m = 0 := by omega
      rw [hm0] at hz
      simp [braceDepth_nil] at hz
      omega
    obtain ⟨m', rfl⟩ : ∃ m', m = m' + 1 := ⟨m - 1, by omega⟩
    rw [List.take_succ_cons, braceDepth_cons] at hz
    rw [closeIdx_cons]
    by_cases h1 : c0 = '\x7b'
    · rw [if_pos h1]
      have hd : braceDelta c0 = 1 := by simp [braceDelta, h1]
      rw [hd] at hz
      have : closeIdx rest (c + 1) = some m' := by
        apply ih _ _ (by omega) (by simpa using hm) (by omega)
        intro k hk
        have := hnz (k + 1) (by omega)
        rw [List.take_succ_cons, braceDepth_cons, hd] at this
        omega
      rw [this]
      rfl
    · rw [if_neg h1]
      by_cases h2 : c0 = '\x7d'
      · rw [if_pos h2]
        have hd : braceDelta c0 = -1 := by simp [braceDelta, h1, h2]
        rw [hd] at hz
        by_cases h3 : c - 1 = 0
        · rw [if_pos h3]
          congr 1
          by_contra hne
          have hm'pos : 0 < m' := by omega
          have := hnz 1 (by omega)
          rw [List.take_succ_cons, List.take_zero, braceDepth_cons,
            braceDepth_nil, hd] at this
          omega
        · rw [if_neg h3]
          have : closeIdx rest (c - 1) = some m' := by
            have hc1 : 0 < c - 1 := by
              have := hnz 1 ?_
              · rw [List.take_succ_cons, List.take_zero, braceDepth_cons,
                  braceDepth_nil, hd] at this
                omega
              · by_contra hge
                have hm0 : m' = 0 := by omega
                subst hm0
                rw [List.take_zero, braceDepth_nil] at hz
                omega
            apply ih _ _ hc1 (by simpa using hm) (by omega)
            intro k hk
            have := hnz (k + 1) (by omega)
            rw [List.take_succ_cons, braceDepth_cons, hd] at this
            omega
          rw [this]
          rfl
      · rw [if_neg h2]
        have hd : braceDelta c0 = 0 := by simp [braceDelta, h1, h2]
        rw [hd] at hz
        have : closeIdx rest c = some m' := by
          apply ih _ _ hc (by simpa using hm) (by omega)
          intro k hk
          have := hnz (k + 1) (by omega)
          rw [List.take_succ_cons, braceDepth_cons, hd] at this
          omega
        rw [this]
        rfl

theorem ws_not_brace (c : Char) (h : isPyWS c = true) :
    ¬ c = '\x7b' ∧ ¬ c = '\x7d' := by
  simp only [isPyWS, Bool.or_eq_true, decide_eq_true_eq] at h
  rcases h with ((((h | h) | h) | h) | h) | h <;> subst h <;>
    exact ⟨by decide, by decide⟩

theorem dropLeadWS_decomp (cs : List Char) :
    ∃ pre, cs = pre ++ dropLeadWS cs ∧ ∀ c ∈ pre, isPyWS c = true :=
  ⟨cs.takeWhile isPyWS,
    by rw [dropLeadWS, List.takeWhile_append_dropWhile],
    fun c hc => List.mem_takeWhile_imp hc⟩

theorem dropTrailWS_decomp (cs : List Char) :
    ∃ suf, cs = dropTrailWS cs ++ suf ∧ ∀ c ∈ suf, isPyWS c = true := by
  refine ⟨(cs.reverse.takeWhile isPyWS).reverse, ?_, ?_⟩
  · unfold dropTrailWS
    calc cs = cs.reverse.reverse := (List.reverse_reverse cs).symm
      _ = (cs.reverse.takeWhile isPyWS ++ cs.reverse.dropWhile isPyWS).reverse := by
          rw [List.takeWhile_append_dropWhile]
      _ = (cs.reverse.dropWhile isPyWS).reverse ++
            (cs.reverse.takeWhile isPyWS).reverse := by
          rw [List.reverse_append]
  · intro c hc
    exact List.mem_takeWhile_imp (List.mem_reverse.mp hc)

theorem stripOpenFence_decomp (cs : List Char) :
    ∃ pre, cs = pre ++ stripOpenFence cs ∧ ∀ c ∈ pre, ¬ c = '\x7b' := by
  unfold stripOpenFence
  by_cases hcond : (cs.take 7).map Char.toLower = "```json".data
  · rw [if_pos hcond]
    obtain ⟨pre2, hpre2, hws⟩ := dropLeadWS_decomp (cs.drop 7)
    refine ⟨cs.take 7 ++ pre2, ?_, ?_⟩
    · conv_lhs => rw [← List.take_append_drop 7 cs]
      rw [List.append_assoc, ← hpre2]
    · intro c hc
      rcases List.mem_append.mp hc with hc | hc
      · intro he
        have hmem : Char.toLower c ∈ "```json".data := by
          rw [← hcond]
          exact List.mem_map_of_mem Char.toLower hc
        subst he
        exact absurd hmem (by decide)
      · exact (ws_not_brace c (hws c hc)).1
  · rw [if_neg hcond]
    exact ⟨[], rfl, by intro c hc; simp at hc⟩

theorem stripCloseFence_decomp (cs : List Char) :
    ∃ suf, cs = stripCloseFence cs ++ suf ∧
      ∀ c ∈ suf, ¬ c = '\x7b' ∧ ¬ c = '\x7d' := by
  unfold stripCloseFence
  by_cases hcond : cs.reverse.take 3 = ['`', '`', '`']
  · rw [if_pos hcond]
    refine ⟨((cs.reverse.drop 3).takeWhile isPyWS).reverse ++
      (cs.reverse.take 3).reverse, ?_, ?_⟩
    · calc cs = cs.reverse.reverse := (List.reverse_reverse cs).symm
        _ = (cs.reverse.take 3 ++
              ((cs.reverse.drop 3).takeWhile isPyWS ++
                (cs.reverse.drop 3).dropWhile isPyWS)).reverse := by
            rw [List.takeWhile_append_dropWhile, List.take_append_drop]
        _ = _ := by
            rw [List.reverse_append, List.reverse_append]
            rw [List.append_assoc]
    · intro c hc
      rcases List.mem_append.mp hc with hc | hc
      · exact ws_not_brace c (List.mem_takeWhile_imp (List.mem_reverse.mp hc))
      · rw [hcond] at hc
        have : c = '`' := by
          simpa using List.mem_reverse.mp hc
        subst this
        exact ⟨by decide, by decide⟩
  · rw [if_neg hcond]
    exact ⟨[], by rw [List.append_nil], by intro c hc; simp at hc⟩

/-- The whitespace- and fence-stripping of `clean_json_string` removes a
`{`-free prefix and a brace-free suffix from the raw text. -/
theorem clean_decomp (s : String) :
    ∃ pre suf,
      s.data = pre ++ stripCloseFence (stripOpenFence (pyStrip s.data)) ++ suf ∧
      (∀ c ∈ pre, ¬ c = '\x7b') ∧ (∀ c ∈ suf, ¬ c = '\x7b' ∧ ¬ c = '\x7d') := by
  obtain ⟨p1, h1, hp1⟩ := dropLeadWS_decomp s.data
  obtain ⟨s1, h2, hs1⟩ := dropTrailWS_decomp (dropLeadWS s.data)
  obtain ⟨p2, h3, hp2⟩ := stripOpenFence_decomp (pyStrip s.data)
  obtain ⟨s2, h4, hs2⟩ := stripCloseFence_decomp (stripOpenFence (pyStrip s.data))
  simp only [pyStrip] at h3 h4
  refine ⟨p1 ++ p2, s2 ++ s1, ?_, ?_, ?_⟩
  · simp only [pyStrip]
    conv_lhs => rw [h1]
    conv_lhs => rw [h2]
    conv_lhs => rw [h3]
    conv_lhs => rw [h4]
    simp [List.append_assoc]
  · intro c hc
    rcases List.mem_append.mp hc with hc | hc
    · exact (ws_not_brace c (hp1 c hc)).1
    · exact hp2 c hc
  · intro c hc
    rcases List.mem_append.mp hc with hc | hc
    · exact hs2 c hc
    · exact ws_not_brace c (hs1 c hc)

/-- A balanced object scans to exactly its own length. -/
theorem closeIdx_of_balanced (j : String) (hb : BalancedJson j) :
    closeIdx j.data 0 = some j.data.length := by
  obtain ⟨hhead, htotal, hmid⟩ := hb
  obtain ⟨rest, hrest⟩ : ∃ rest, j.data = '\x7b' :: rest := by
    cases hj : j.data with
    | nil => rw [hj] at hhead; simp at hhead
    | cons c t =>
      rw [hj] at hhead
      simp at hhead
      exact ⟨t, by rw [hhead]⟩
  rw [hrest]
  rw [closeIdx_cons, if_pos rfl]
  have hdelta : braceDelta '\x7b' = 1 := by decide
  have hrest_depth : (0 : Int) + 1 + braceDepth (rest.take rest.length) = 0 := by
    rw [List.take_length]
    have := htotal
    rw [hrest, braceDepth_cons, hdelta] at this
    omega
  have hscan : closeIdx rest (0 + 1) = some rest.length := by
    apply closeIdx_of_depth rest (0 + 1) rest.length (by omega) (le_refl _)
      (by omega)
    intro k hk
    have := hmid (k + 1) (by rw [hrest]; simp; omega) (by omega)
    rw [hrest, List.take_succ_cons, braceDepth_cons, hdelta] at this
    omega
  rw [hscan]
  simp

/-- A balanced object ends at a closing brace. -/
theorem balanced_getLast (j : String) (hb : BalancedJson j) :
    ∃ p, j.data = p ++ ['\x7d'] := by
  have h := closeIdx_of_balanced j hb
  obtain ⟨p, hp⟩ := closeIdx_last j.data 0 j.data.length h
  rw [List.take_length] at hp
  exact ⟨p, hp⟩

/-- `clean_json_string` succeeds with exactly `j` whenever the stripped
text decomposes as a `{`-free prefix, the balanced object, and an
arbitrary tail. -/
theorem clean_json_of_parts (s : String) (x y : List Char) (j : String)
    (hdecomp : stripCloseFence (stripOpenFence (pyStrip s.data)) =
      x ++ j.data ++ y)
    (hb : BalancedJson j) (hx : ∀ c ∈ x, ¬ c = '\x7b') :
    clean_json_string s = .ok j := by
  obtain ⟨rest, hrest⟩ : ∃ rest, j.data = '\x7b' :: rest := by
    obtain ⟨hhead, _, _⟩ := hb
    cases hj : j.data with
    | nil => rw [hj] at hhead; simp at hhead
    | cons c t =>
      rw [hj] at hhead
      simp at hhead
      exact ⟨t, by rw [hhead]⟩
  have hfs : fencesStripped s = x ++ j.data ++ y := hdecomp
  unfold clean_json_string
  rw [hfs]
  have htail : (x ++ j.data ++ y).dropWhile (fun c => ¬ c = '\x7b') =
      j.data ++ y := by
    rw [List.append_assoc]
    rw [List.dropWhile_append_of_pos (by
      intro a ha
      simpa using hx a ha)]
    rw [hrest, List.cons_append, List.dropWhile_cons]
    simp
  rw [htail]
  have hne : (j.data ++ y).isEmpty = false := by
    rw [hrest]; rfl
  rw [hne]
  simp only [Bool.false_eq_true, if_false]
  rw [closeIdx_append j.data 0 j.data.length y (closeIdx_of_balanced j hb)]
  show Except.ok (String.mk ((j.data ++ y).take j.data.length)) = Except.ok j
  rw [List.take_left]

/-- `pyStrip` is the identity on text with non-whitespace endpoints. -/
theorem pyStrip_eq_self (cs : List Char) (c1 c2 : Char)
    (h1 : cs.head? = some c1) (hw1 : isPyWS c1 = false)
    (h2 : cs.getLast? = some c2) (hw2 : isPyWS c2 = false) :
    pyStrip cs = cs := by
  have hlead : dropLeadWS cs = cs := by
    cases hcs : cs with
    | nil => rfl
    | cons c t =>
      rw [hcs] at h1
      simp at h1
      subst h1
      rw [dropLeadWS, List.dropWhile_cons, hw1]
      simp
  have htrail : dropTrailWS cs = cs := by
    unfold dropTrailWS
    have hrev : cs.reverse.head? = some c2 := by
      rw [List.head?_reverse]
      exact h2
    cases hcr : cs.reverse with
    | nil =>
      simp only [List.dropWhile_nil, List.reverse_nil]
      exact (List.reverse_eq_nil_iff.mp hcr).symm
    | cons c t =>
      rw [hcr] at hrev
      simp at hrev
      subst hrev
      rw [List.dropWhile_cons, hw2]
      simp only [Bool.false_eq_true, if_false]
      rw [← hcr, List.reverse_reverse]
  rw [pyStrip, hlead, htrail]

theorem stripOpenFence_eq_self (cs : List Char) (c1 : Char)
    (h : cs.head? = some c1) (hne : ¬ Char.toLower c1 = '`') :
    stripOpenFence cs = cs := by
  obtain ⟨t, rfl⟩ : ∃ t, cs = c1 :: t := by
    cases cs with
    | nil => simp at h
    | cons a t =>
      simp at h
      exact ⟨t, by rw [h]⟩
  unfold stripOpenFence
  rw [if_neg]
  intro hcond
  rw [show (c1 :: t).take 7 = c1 :: t.take 6 from rfl, List.map_cons] at hcond
  exact hne (List.head_eq_of_cons_eq hcond)

theorem stripCloseFence_eq_self (cs : List Char) (c2 : Char)
    (h : cs.getLast? = some c2) (hne : ¬ c2 = '`') :
    stripCloseFence cs = cs := by
  have hrev : cs.reverse.head? = some c2 := by
    rw [List.head?_reverse]; exact h
  obtain ⟨t, ht⟩ : ∃ t, cs.reverse = c2 :: t := by
    cases hcr : cs.reverse with
    | nil => rw [hcr] at hrev; simp at hrev
    | cons a t =>
      rw [hcr] at hrev
      simp at hrev
      exact ⟨t, by rw [hrev]⟩
  unfold stripCloseFence
  rw [if_neg]
  intro hcond
  rw [ht, show (c2 :: t).take 3 = c2 :: t.take 2 from rfl] at hcond
  exact hne (List.head_eq_of_cons_eq hcond)

theorem dropWhile_head?_not (p : Char → Bool) :
    ∀ (cs : List Char) (c : Char), (cs.dropWhile p).head? = some c →
      p c = false := by
  intro cs
  induction cs with
  | nil => intro c h; simp at h
  | cons a t ih =>
    intro c h
    rw [List.dropWhile_cons] at h
    by_cases hp : p a
    · rw [if_pos hp] at h
      exact ih c h
    · rw [if_neg hp] at h
      simp at h
      rw [← h]
      simpa using hp

theorem head?_take_pos {α : Type} {l : List α} {n : Nat} (h : 0 < n) :
    (l.take n).head? = l.head? := by
  cases l with
  | nil => simp
  | cons a t =>
    obtain ⟨m, rfl⟩ : ∃ m, n = m + 1 := ⟨n - 1, by omega⟩
    simp [List.take_succ_cons]

/-- C7: `clean_json_string` is idempotent — whenever it succeeds, running
it again on its own output succeeds with the same result. -/
theorem c7_clean_idempotent (s r : String)
    (h : clean_json_string s = .ok r) :
    clean_json_string r = .ok r := by
  unfold clean_json_string at h
  by_cases hemp : ((fencesStripped s).dropWhile (fun c => ¬ c = '\x7b')).isEmpty
  · rw [if_pos hemp] at h
    cases h
  · rw [if_neg hemp] at h
    cases hclose : closeIdx ((fencesStripped s).dropWhile (fun c => ¬ c = '\x7b')) 0 with
    | none => rw [hclose] at h; cases h
    | some n =>
      rw [hclose] at h
      have hr : r.data =
          ((fencesStripped s).dropWhile (fun c => ¬ c = '\x7b')).take n := by
        cases h
        rfl
      obtain ⟨hn1, hn2⟩ := closeIdx_bounds _ _ _ hclose
      have hhead : r.data.head? = some '\x7b' := by
        rw [hr, head?_take_pos (by omega)]
        cases hht : ((fencesStripped s).dropWhile (fun c => ¬ c = '\x7b')).head? with
        | none =>
          exfalso
          have : ((fencesStripped s).dropWhile (fun c => ¬ c = '\x7b')) = [] :=
            List.head?_eq_none_iff.mp hht
          rw [this] at hemp
          simp at hemp
        | some c =>
          have hcp := dropWhile_head?_not _ _ _ hht
          simp at hcp
          rw [hcp]
      obtain ⟨p, hp⟩ := closeIdx_last _ _ _ hclose
      have hlast : r.data.getLast? = some '\x7d' := by
        rw [hr, hp]
        exact List.getLast?_concat _
      have hscan : closeIdx r.data 0 = some n := by
        rw [hr]
        exact closeIdx_take _ _ _ hclose
      have hlen : r.data.length = n := by
        rw [hr, List.length_take]
        omega
      have hfs : fencesStripped r = r.data := by
        unfold fencesStripped
        rw [pyStrip_eq_self r.data '\x7b' '\x7d' hhead (by decide) hlast (by decide)]
        rw [stripOpenFence_eq_self r.data '\x7b' hhead (by decide)]
        rw [stripCloseFence_eq_self r.data '\x7d' hlast (by decide)]
      obtain ⟨t, ht⟩ : ∃ t, r.data = '\x7b' :: t := by
        cases hrd : r.data with
        | nil => rw [hrd] at hhead; simp at hhead
        | cons a t =>
          rw [hrd] at hhead
          simp at hhead
          exact ⟨t, by rw [hhead]⟩
      have hdw : r.data.dropWhile (fun c => ¬ c = '\x7b') = r.data := by
        rw [ht, List.dropWhile_cons]
        simp
      unfold clean_json_string
      rw [hfs, hdw]
      rw [if_neg (by rw [ht]; simp)]
      rw [hscan]
      show Except.ok (String.mk (r.data.take n)) = Except.ok r
      rw [← hlen, List.take_length]

/-- Witness for C7: a fenced response with trailing prose cleans to the
bare object, and cleaning that object again is the identity. -/
theorem c7_clean_idempotent_witness :
    clean_json_string "```json\n\x7b\"a\": 1\x7d\n``` trailing prose" =
      .ok "\x7b\"a\": 1\x7d" ∧
    clean_json_string "\x7b\"a\": 1\x7d" = .ok "\x7b\"a\": 1\x7d" :=
  ⟨by rfl,
   c7_clean_idempotent "```json\n\x7b\"a\": 1\x7d\n``` trailing prose"
     "\x7b\"a\": 1\x7d" (by rfl)⟩

/-- Positioning lemma: when the same text splits as `A ++ cleaned ++ B`
and as `X ++ object ++ Y` with `A`, `X` free of `{` and `B` free of both
braces, the whole object lies inside `cleaned`, preceded there by a
`{`-free prefix. -/
theorem object_inside_cleaned (A cleaned B X Y : List Char) (j : String)
    (heq : A ++ cleaned ++ B = X ++ j.data ++ Y)
    (hA : ∀ c ∈ A, ¬ c = '\x7b') (hX : ∀ c ∈ X, ¬ c = '\x7b')
    (hB : ∀ c ∈ B, ¬ c = '\x7b' ∧ ¬ c = '\x7d')
    (hjhead : j.data.head? = some '\x7b')
    (hjlast : j.data.getLast? = some '\x7d') :
    ∃ x y, cleaned = x ++ j.data ++ y ∧ ∀ c ∈ x, ¬ c = '\x7b' := by
  obtain ⟨rest, hrest⟩ : ∃ rest, j.data = '\x7b' :: rest := by
    cases hj : j.data with
    | nil => rw [hj] at hjhead; simp at hjhead
    | cons c t =>
      rw [hj] at hjhead
      simp at hjhead
      exact ⟨t, by rw [hjhead]⟩
  have hbraceB : ¬ '\x7b' ∈ B := fun hm => (hB _ hm).1 rfl
  have hcloseB : ¬ '\x7d' ∈ B := fun hm => (hB _ hm).2 rfl
  have heq' : A ++ (cleaned ++ B) = X ++ (j.data ++ Y) := by
    rw [← List.append_assoc, ← List.append_assoc]
    exact heq
  rcases List.append_eq_append_iff.mp heq' with ⟨a', hXa, hrest1⟩ | ⟨c', hAc, hrest1⟩
  · have ha' : ∀ c ∈ a', ¬ c = '\x7b' := fun c hc =>
      hX c (hXa ▸ List.mem_append_right A hc)
    rcases List.append_eq_append_iff.mp hrest1 with ⟨b', hab, hB1⟩ | ⟨c₂, hcl, hrest2⟩
    · exfalso
      apply hbraceB
      rw [hB1, hrest]
      exact List.mem_append_right b' (List.mem_append_left _ (List.mem_cons_self _ _))
    · rcases List.append_eq_append_iff.mp hrest2 with ⟨a₃, hc₂, hY⟩ | ⟨c₃, hjd, hB2⟩
      · exact ⟨a', a₃, by rw [hcl, hc₂, List.append_assoc], ha'⟩
      · cases hc₃ : c₃ with
        | nil =>
          subst hc₃
          rw [List.append_nil] at hjd
          exact ⟨a', [], by rw [hcl, ← hjd, List.append_nil], ha'⟩
        | cons ch ct =>
          exfalso
          apply hcloseB
          have hlast3 : c₃.getLast? = some '\x7d' := by
            rw [hjd] at hjlast
            rw [← List.getLast?_append_of_ne_nil c₂ (by rw [hc₃]; simp)]
            exact hjlast
          rw [hB2]
          exact List.mem_append_left _ (List.mem_of_getLast?_eq_some hlast3)
  · cases hc' : c' with
    | nil =>
      subst hc'
      rw [List.append_nil] at hAc
      simp only [List.nil_append] at hrest1
      rcases List.append_eq_append_iff.mp hrest1 with
        ⟨a₄, hcl, hY⟩ | ⟨c₄, hjd, hB2⟩
      · exact ⟨[], a₄, by rw [hcl]; simp, by intro c hc; simp at hc⟩
      · cases hc₄ : c₄ with
        | nil =>
          subst hc₄
          rw [List.append_nil] at hjd
          exact ⟨[], [], by simp [hjd], by intro c hc; simp at hc⟩
        | cons ch ct =>
          exfalso
          apply hcloseB
          have hlast4 : c₄.getLast? = some '\x7d' := by
            rw [hjd] at hjlast
            rw [← List.getLast?_append_of_ne_nil cleaned (by rw [hc₄]; simp)]
            exact hjlast
          rw [hB2]
          exact List.mem_append_left _ (List.mem_of_getLast?_eq_some hlast4)
    | cons ch ct =>
      exfalso
      have hch : ch ∈ A := by
        rw [hAc, hc']
        exact List.mem_append_right X (List.mem_cons_self _ _)
      apply hA ch hch
      have hhead : (j.data ++ Y).head? = some ch := by
        rw [hrest1, hc']
        rfl
      rw [hrest] at hhead
      simpa using hhead.symm

/-- C6: wrapping a balanced object in a triple fence — with any
brace-free language tag or none — and appending trailing prose yields,
after `clean_json_string`, exactly the same extracted object as the
unwrapped input. -/
theorem c6_fence_stripping (j tag prose : String) (hb : BalancedJson j)
    (htag : ∀ c ∈ tag.data, ¬ c = '\x7b') :
    clean_json_string ("```" ++ tag ++ "\n" ++ j ++ "\n```" ++ prose) = .ok j ∧
    clean_json_string j = .ok j := by
  have hjlast : j.data.getLast? = some '\x7d' := by
    obtain ⟨p, hp⟩ := balanced_getLast j hb
    rw [hp]
    exact List.getLast?_concat _
  constructor
  · set s := "```" ++ tag ++ "\n" ++ j ++ "\n```" ++ prose with hs
    obtain ⟨pre, suf, hdec, hpre, hsuf⟩ := clean_decomp s
    have hsplit : s.data =
        ("```".data ++ tag.data ++ ['\n']) ++ j.data ++
          (('\n' :: "```".data) ++ prose.data) := by
      rw [hs]
      simp only [String.data_append]
      simp [List.append_assoc]
    have heq : pre ++ fencesStripped s ++ suf =
        ("```".data ++ tag.data ++ ['\n']) ++ j.data ++
          (('\n' :: "```".data) ++ prose.data) := by
      rw [← hsplit]
      exact hdec.symm
    have hX : ∀ c ∈ "```".data ++ tag.data ++ ['\n'], ¬ c = '\x7b' := by
      intro c hc
      rcases List.mem_append.mp hc with hc | hc
      · rcases List.mem_append.mp hc with hc | hc
        · intro he
          subst he
          exact absurd hc (by decide)
        · exact htag c hc
      · intro he
        subst he
        simp at hc
    obtain ⟨x, y, hcl, hx⟩ := object_inside_cleaned pre (fencesStripped s) suf
      ("```".data ++ tag.data ++ ['\n']) (('\n' :: "```".data) ++ prose.data)
      j heq hpre hX hsuf hb.1 hjlast
    exact clean_json_of_parts s x y j hcl hb hx
  · have hfs : fencesStripped j = j.data := by
      unfold fencesStripped
      rw [pyStrip_eq_self j.data '\x7b' '\x7d' hb.1 (by decide) hjlast (by decide)]
      rw [stripOpenFence_eq_self j.data '\x7b' hb.1 (by decide)]
      rw [stripCloseFence_eq_self j.data '\x7d' hjlast (by decide)]
    refine clean_json_of_parts j [] [] j ?_ hb (by intro c hc; simp at hc)
    rw [show stripCloseFence (stripOpenFence (pyStrip j.data)) =
      fencesStripped j from rfl, hfs]
    simp

/-- Witness for C6: a fenced `json`-tagged object with a trailing
explanation sentence. -/
theorem c6_fence_stripping_witness :
    clean_json_string
      ("```" ++ "json" ++ "\n" ++ "\x7b\"a\": 1\x7d" ++ "\n```" ++
        " The object describes one table.") = .ok "\x7b\"a\": 1\x7d" ∧
    clean_json_string "\x7b\"a\": 1\x7d" = .ok "\x7b\"a\": 1\x7d" :=
  c6_fence_stripping "\x7b\"a\": 1\x7d" "json" " The object describes one table."
    ⟨by decide, by decide, by decide⟩ (by decide)

/-- C5: on input with no `{`, or whose brace depth never returns to zero
after the first `{`, `clean_json_string` signals a failure (`ValueError`)
instead of returning a value, and the chunk loop absorbs the failure:
the chunk contributes no nodes and no edges, and the accumulation over
the remaining chunks is unchanged. -/
theorem c5_unbalanced_chunk_skipped (s : String)
    (h : NoBraceText s ∨ NeverClosesText s) :
    (∃ msg, clean_json_string s = .error msg) ∧
    ∀ (decode : String → Option PyVal) (pre post : List String),
      accumulateChunks decode (pre ++ s :: post) =
        accumulateChunks decode (pre ++ post) := by
  obtain ⟨p2, s2, hdec, hp2, hs2⟩ := clean_decomp s
  have hdecF : s.data = p2 ++ fencesStripped s ++ s2 := hdec
  have herr : ∃ msg, clean_json_string s = .error msg := by
    by_cases hbr : '\x7b' ∈ fencesStripped s
    · have hsbr : '\x7b' ∈ s.data := by
        rw [hdecF]
        exact List.mem_append_left _ (List.mem_append_right _ hbr)
      rcases h with hnb | ⟨_, hnc⟩
      · exact absurd hsbr hnb
      · have htailne :
            (fencesStripped s).dropWhile (fun c => ¬ c = '\x7b') ≠ [] := by
          intro hnil
          have := List.dropWhile_eq_nil_iff.mp hnil '\x7b' hbr
          simp at this
        have htraw : s.data.dropWhile (fun c => ¬ c = '\x7b') =
            (fencesStripped s).dropWhile (fun c => ¬ c = '\x7b') ++ s2 := by
          rw [hdecF, List.append_assoc]
          rw [List.dropWhile_append_of_pos (by
            intro a ha
            simpa using hp2 a ha)]
          rw [List.dropWhile_append]
          rw [if_neg (by simpa using htailne)]
        refine ⟨"No complete JSON object found in the string", ?_⟩
        unfold clean_json_string
        rw [if_neg (by simpa using htailne)]
        cases hclose : closeIdx
            ((fencesStripped s).dropWhile (fun c => ¬ c = '\x7b')) 0 with
        | none => rfl
        | some n =>
          exfalso
          obtain ⟨hn1, hn2⟩ := closeIdx_bounds _ _ _ hclose
          have hdepth := closeIdx_depth _ _ _ hclose
          have hinst := hnc (n - 1) (by
            rw [htraw]
            simp only [List.length_append]
            omega)
          apply hinst
          rw [htraw]
          rw [List.take_append_eq_append_take]
          rw [show n - 1 + 1 = n by omega]
          rw [show n - ((fencesStripped s).dropWhile
            (fun c => ¬ c = '\x7b')).length = 0 by omega]
          rw [List.take_zero, List.append_nil]
          omega
    · have htail : (fencesStripped s).dropWhile (fun c => ¬ c = '\x7b') = [] := by
        rw [List.dropWhile_eq_nil_iff]
        intro x hx
        simp only [decide_not, Bool.not_eq_eq_eq_not, Bool.not_true,
          decide_eq_false_iff_not]
        intro he
        exact hbr (he ▸ hx)
      refine ⟨"No JSON object found in the string", ?_⟩
      unfold clean_json_string
      rw [if_pos (by rw [htail]; rfl)]
  refine ⟨herr, ?_⟩
  intro decode pre post
  have hcontrib : chunkContribution decode s = ([], []) := by
    unfold chunkContribution
    by_cases hse : s = ""
    · rw [if_pos hse]
    · rw [if_neg hse]
      obtain ⟨msg, hmsg⟩ := herr
      rw [hmsg]
  unfold accumulateChunks
  rw [List.foldl_append, List.foldl_append, List.foldl_cons, hcontrib]
  simp

/-- Witness for C5: a truncated object (missing its closing brace) makes
the chunk contribute nothing, leaving the surrounding chunks as if it
were absent. -/
theorem c5_unbalanced_chunk_skipped_witness :
    (∃ msg, clean_json_string "truncated \x7b\"a\": 1" = .error msg) ∧
    accumulateChunks decodeNever
        (["\x7b\x7d"] ++ "truncated \x7b\"a\": 1" :: ["\x7b\x7d"]) =
      accumulateChunks decodeNever (["\x7b\x7d"] ++ ["\x7b\x7d"]) :=
  ⟨(c5_unbalanced_chunk_skipped "truncated \x7b\"a\": 1"
      (Or.inr ⟨by decide, by decide⟩)).1,
   (c5_unbalanced_chunk_skipped "truncated \x7b\"a\": 1"
      (Or.inr ⟨by decide, by decide⟩)).2 decodeNever ["\x7b\x7d"] ["\x7b\x7d"]⟩

/-! ## C1: round-trip of DDL synthesis and parsing -/

/- ------------------------------------------------------------------ -/
/- Character-class lemmas.                                             -/
/- ------------------------------------------------------------------ -/

theorem pyWS_cases (c : Char) (h : isPyWS c = true) :
    c = ' ' ∨ c = '\t' ∨ c = '\n' ∨ c = '\r' ∨ c = '\x0b' ∨ c = '\x0c' := by
  simpa [isPyWS, or_assoc] using h

theorem wordChar_not_pyWS (c : Char) (h : isWordChar c = true) :
    isPyWS c = false := by
  cases hw : isPyWS c
  · rfl
  · rcases pyWS_cases c hw with rfl | rfl | rfl | rfl | rfl | rfl <;>
      simp [isWordChar, Char.isAlpha, Char.isDigit, Char.isUpper, Char.isLower] at h

theorem wordChar_ne (c : Char) (h : isWordChar c = true) :
    c ≠ ';' ∧ c ≠ ',' ∧ c ≠ '(' ∧ c ≠ ')' ∧ c ≠ '\n' ∧ c ≠ '[' ∧ c ≠ ']' := by
  refine ⟨?_, ?_, ?_, ?_, ?_, ?_, ?_⟩ <;> rintro rfl <;> simp [isWordChar] at h

/- ------------------------------------------------------------------ -/
/- Small list utilities.                                               -/
/- ------------------------------------------------------------------ -/

theorem getLast?_append_right {e : Char} {l1 l2 : List Char}
    (h : l2.getLast? = some e) : (l1 ++ l2).getLast? = some e := by
  rw [List.getLast?_append, h]
  rfl

theorem startsWithCI_self_append (p X : List Char) : startsWithCI p (p ++ X) = true := by
  simp [startsWithCI, List.take_left]

theorem takeWhile_word_stop {T : List Char} (hT : ∀ c ∈ T, isWordChar c = true)
    {c2 : Char} (h2 : isWordChar c2 = false) (Z : List Char) :
    (T ++ c2 :: Z).takeWhile isWordChar = T := by
  rw [List.takeWhile_append_of_pos hT, List.takeWhile_cons_of_neg (by simp [h2])]
  simp

/-- A case-insensitive prefix check fails whenever already the first
characters disagree. -/
theorem ci_false_of_head {wh c : Char} (wt rest : List Char)
    (h : Char.toLower c ≠ Char.toLower wh) :
    startsWithCI (wh :: wt) (c :: rest) = false := by
  apply decide_eq_false
  intro heq
  have h2 := congrArg List.head? heq
  simp at h2
  exact h h2

/-- A case-insensitive match of an all-letter word cannot span a
newline. -/
theorem ci_newline_false {w : List Char} (A Z : List Char)
    (hball : ∀ c ∈ w, Char.toLower c ≠ '\n')
    (hlen : A.length < w.length)
    (h : startsWithCI w (A ++ '\n' :: Z) = true) : False := by
  have heq : ((A ++ '\n' :: Z).take w.length).map Char.toLower = w.map Char.toLower := by
    simpa [startsWithCI] using h
  rw [List.take_append_eq_append_take] at heq
  rw [List.take_of_length_le (by omega)] at heq
  have htk : (('\n' :: Z).take (w.length - A.length)) = '\n' :: Z.take (w.length - A.length - 1) := by
    obtain ⟨m, hm⟩ : ∃ m, w.length - A.length = m + 1 := ⟨w.length - A.length - 1, by omega⟩
    rw [hm]
    simp
  rw [htk, List.map_append, List.map_cons] at heq
  have h3 := congrArg (List.drop A.length) heq
  rw [List.drop_append_of_le_length (by simp)] at h3
  rw [List.drop_of_length_le (by simp)] at h3
  rw [List.nil_append] at h3
  have h4 := congrArg List.head? h3
  rw [List.head?_cons, ← List.map_drop] at h4
  obtain ⟨d, wd, hwd⟩ : ∃ d wd, w.drop A.length = d :: wd := by
    cases hh : w.drop A.length with
    | nil =>
      have := congrArg List.length hh
      simp at this
      omega
    | cons d wd => exact ⟨d, wd, rfl⟩
  rw [hwd] at h4
  simp at h4
  have hd : d ∈ w := by
    have : d ∈ w.drop A.length := by rw [hwd]; simp
    exact List.mem_of_mem_drop this
  exact hball d hd h4.symm

/-- `take` of the length of a `takeWhile` recovers the `takeWhile`. -/
theorem take_length_takeWhile (p : Char → Bool) :
    ∀ (l : List Char), l.take (l.takeWhile p).length = l.takeWhile p := by
  intro l
  induction l with
  | nil => rfl
  | cons c rest ih =>
    by_cases hp : p c
    · rw [List.takeWhile_cons_of_pos hp]
      simp [ih]
    · rw [List.takeWhile_cons_of_neg hp]
      simp

/-- A list whose last element falsifies `p` is never fully consumed by
`takeWhile p`. -/
theorem takeWhile_last_stop (p : Char → Bool) :
    ∀ (l : List Char) (e : Char), l.getLast? = some e → p e = false →
      (l.takeWhile p).length < l.length := by
  intro l
  induction l with
  | nil => intro e he _; simp at he
  | cons c rest ih =>
    intro e he hpe
    cases hr : rest with
    | nil =>
      rw [hr] at he
      simp at he
      subst he
      rw [List.takeWhile_cons_of_neg (by simp [hpe])]
      simp
    | cons d rest' =>
      rw [hr] at he ih
      rw [List.getLast?_cons_cons] at he
      by_cases hp : p c
      · rw [List.takeWhile_cons_of_pos hp]
        have := ih e he hpe
        simp only [List.length_cons] at this ⊢
        omega
      · rw [List.takeWhile_cons_of_neg hp]
        simp

/-- When `takeWhile` stops inside `l`, appending more text changes
neither the run nor what follows it. -/
theorem takeWhile_stop_append (p : Char → Bool) :
    ∀ (l y : List Char), (l.takeWhile p).length < l.length →
      (l ++ y).takeWhile p = l.takeWhile p ∧
      (l ++ y).drop ((l ++ y).takeWhile p).length = l.drop (l.takeWhile p).length ++ y := by
  intro l y
  induction l with
  | nil => intro h; simp at h
  | cons c rest ih =>
    intro h
    by_cases hp : p c
    · have h' : (rest.takeWhile p).length < rest.length := by
        rw [List.takeWhile_cons_of_pos hp] at h
        simp only [List.length_cons] at h
        omega
      obtain ⟨e1, e2⟩ := ih h'
      have e1' : (c :: rest ++ y).takeWhile p = (c :: rest).takeWhile p := by
        rw [List.cons_append, List.takeWhile_cons_of_pos hp, e1,
          List.takeWhile_cons_of_pos hp]
      refine ⟨e1', ?_⟩
      rw [e1', List.takeWhile_cons_of_pos hp]
      simp only [List.length_cons, List.cons_append, List.drop_succ_cons]
      rw [e1] at e2
      exact e2
    · rw [List.cons_append, List.takeWhile_cons_of_neg hp,
        List.takeWhile_cons_of_neg hp]
      simp

theorem TailOK_tail {c : Char} {b : List Char} (hb : b ≠ [])
    (h : TailOK (c :: b)) : TailOK b := by
  obtain ⟨e, he, h1, h2, h3⟩ := h
  refine ⟨e, ?_, h1, h2, h3⟩
  rw [← he]
  obtain ⟨d, b', rfl⟩ : ∃ d b', b = d :: b' := by
    cases b with
    | nil => exact absurd rfl hb
    | cons d b' => exact ⟨d, b', rfl⟩
  rw [List.getLast?_cons_cons]

theorem TailOK_cons {c : Char} {b : List Char} (h : TailOK b) : TailOK (c :: b) := by
  obtain ⟨e, he, h1, h2, h3⟩ := h
  refine ⟨e, ?_, h1, h2, h3⟩
  obtain ⟨d, b', rfl⟩ : ∃ d b', b = d :: b' := by
    cases b with
    | nil => simp at he
    | cons d b' => exact ⟨d, b', rfl⟩
  rw [List.getLast?_cons_cons]
  exact he

theorem TailOK_append {a b : List Char} (h : TailOK b) : TailOK (a ++ b) := by
  obtain ⟨e, he, h1, h2, h3⟩ := h
  exact ⟨e, getLast?_append_right he, h1, h2, h3⟩

theorem TailOK_ne_nil {b : List Char} (h : TailOK b) : b ≠ [] := by
  obtain ⟨e, he, -, -, -⟩ := h
  intro hb
  rw [hb] at he
  simp at he

/- ------------------------------------------------------------------ -/
/- Column lines end benignly, whatever the field values are.           -/
/- ------------------------------------------------------------------ -/

theorem coreTail_of_parts (pre null pk fk : List Char)
    (hnull : null = " NULL".data ∨ null = " NOT NULL".data)
    (hpk : pk = [] ∨ pk = " PRIMARY KEY".data)
    (hfk : fk = [] ∨ ∃ mid : List Char, fk = mid ++ [')']) :
    TailOK (pre ++ null ++ pk ++ fk) := by
  rcases hfk with rfl | ⟨mid, rfl⟩
  · rcases hpk with rfl | rfl
    · rcases hnull with rfl | rfl
      · refine ⟨'L', ?_, by decide, by decide, by decide⟩
        simp only [List.append_nil, List.append_assoc]
        repeat apply getLast?_append_right
        decide
      · refine ⟨'L', ?_, by decide, by decide, by decide⟩
        simp only [List.append_nil, List.append_assoc]
        repeat apply getLast?_append_right
        decide
    · refine ⟨'Y', ?_, by decide, by decide, by decide⟩
      simp only [List.append_nil, List.append_assoc]
      repeat apply getLast?_append_right
      decide
  · refine ⟨')', ?_, by decide, by decide, by decide⟩
    simp only [List.append_assoc]
    repeat apply getLast?_append_right
    decide

theorem columnFragment_eq (r : CatalogRow) :
    columnFragment r = coreStr r ++ ",\n" := rfl

theorem columnFragment_data (r : CatalogRow) :
    (columnFragment r).data = (coreStr r).data ++ [',', '\n'] := by
  rw [columnFragment_eq]
  simp

theorem coreStr_tailOK (r : CatalogRow) : TailOK (coreStr r).data := by
  have h := coreTail_of_parts
    (("  [" ++ r.column_name.getD "UnknownColumn" ++ "] " ++ r.data_type.getD "VARCHAR"
      ++ emitLength (r.data_type.getD "VARCHAR") r.max_length : String)).data
    ((if r.is_nullable.getD true then " NULL" else " NOT NULL") : String).data
    ((if r.is_primary_key.getD false then " PRIMARY KEY" else "") : String).data
    ((if r.is_foreign_key.getD false then
        if pyStrOr r.ReferenceTable r.referenced_table ≠ "" ∧
           pyStrOr r.ReferenceColumn r.referenced_column ≠ "" then
          " FOREIGN KEY REFERENCES " ++ pyStrOr r.ReferenceTable r.referenced_table
            ++ "(" ++ pyStrOr r.ReferenceColumn r.referenced_column ++ ")"
        else ""
      else "") : String).data
    (by by_cases hn : r.is_nullable.getD true <;> simp [hn])
    (by by_cases hp : r.is_primary_key.getD false <;> simp [hp])
    (by
      by_cases hf : r.is_foreign_key.getD false
      · rw [if_pos hf]
        by_cases hcond : pyStrOr r.ReferenceTable r.referenced_table ≠ "" ∧
            pyStrOr r.ReferenceColumn r.referenced_column ≠ ""
        · rw [if_pos hcond]
          refine Or.inr ⟨(" FOREIGN KEY REFERENCES " ++ pyStrOr r.ReferenceTable r.referenced_table
            ++ "(" ++ pyStrOr r.ReferenceColumn r.referenced_column : String).data, ?_⟩
          simp
        · rw [if_neg hcond]
          exact Or.inl rfl
      · rw [if_neg hf]
        exact Or.inl rfl)
  simpa only [coreStr, String.data_append] using h

/- ------------------------------------------------------------------ -/
/- Bodies assembled from cores.                                        -/
/- ------------------------------------------------------------------ -/

theorem bodyChars_single (c : List Char) : bodyChars [c] = c := by
  simp [bodyChars]

theorem bodyChars_snoc :
    ∀ (cores : List (List Char)) (c' : List Char), cores ≠ [] →
      bodyChars (cores ++ [c']) = bodyChars cores ++ ',' :: '\n' :: c' := by
  intro cores
  induction cores with
  | nil => intro c' h; exact absurd rfl h
  | cons a rest ih =>
    intro c' _
    cases hr : rest with
    | nil =>
      simp [bodyChars, bodyChars_single]
    | cons b rs =>
      rw [← hr]
      have hne : rest ≠ [] := by rw [hr]; simp
      show bodyChars (a :: (rest ++ [c'])) = _
      rw [bodyChars, bodyChars, if_neg (by simp : ¬ rest ++ [c'] = []),
        if_neg hne, ih c' hne]
      simp

theorem bodyChars_tailOK :
    ∀ (cores : List (List Char)), cores ≠ [] → (∀ c ∈ cores, TailOK c) →
      TailOK (bodyChars cores) := by
  intro cores
  induction cores with
  | nil => intro h; exact absurd rfl h
  | cons c rest ih =>
    intro _ h
    rw [bodyChars]
    by_cases hr : rest = []
    · rw [if_pos hr, List.append_nil]
      exact h c (by simp)
    · rw [if_neg hr]
      exact TailOK_append (TailOK_cons (TailOK_cons
        (ih hr (fun c' hc' => h c' (by simp [hc'])))))

theorem tailOK_getLast {X : List Char} (h : TailOK X) :
    ∃ e, X.getLast? = some e ∧ e ≠ ',' ∧ e ≠ '\n' := by
  obtain ⟨e, he, h1, h2, -⟩ := h
  refine ⟨e, he, h2, ?_⟩
  rintro rfl
  simp [isPyWS] at h1

/- ------------------------------------------------------------------ -/
/- Closing a block; assembling the chain.                              -/
/- ------------------------------------------------------------------ -/

theorem rstrip_exact {X : List Char} {e : Char} (he : X.getLast? = some e)
    (h1 : e ≠ ',') (h2 : e ≠ '\n') (s : String) (hs : s.data = X ++ [',', '\n']) :
    rstripCommaNl s = String.mk X := by
  unfold rstripCommaNl
  rw [hs]
  have hrev : (X ++ [',', '\n']).reverse = '\n' :: ',' :: X.reverse := by simp
  rw [hrev]
  rw [List.dropWhile_cons_of_pos (by decide), List.dropWhile_cons_of_pos (by decide)]
  have hhead : X.reverse.head? = some e := by
    rw [List.head?_reverse]
    exact he
  obtain ⟨l', hl'⟩ : ∃ l', X.reverse = e :: l' := by
    cases hx : X.reverse with
    | nil => rw [hx] at hhead; simp at hhead
    | cons a l' =>
      rw [hx] at hhead
      simp at hhead
      exact ⟨l', by rw [hhead]⟩
  rw [hl', List.dropWhile_cons_of_neg (by simp [h1, h2]), ← hl']
  simp

theorem closedChars_snoc (bs : List (String × List Char)) (p : String × List Char) :
    closedChars (bs ++ [p]) =
      closedChars bs ++ (blockChars p.1 p.2 ++ '\n' :: '\n' :: []) := by
  induction bs with
  | nil => simp [closedChars]
  | cons q qs ih => simp [closedChars, ih]

theorem chainChars_of_closed :
    ∀ (bs : List (String × List Char)) (t : String) (b : List Char),
      closedChars bs ++ blockChars t b = chainChars (bs ++ [(t, b)]) := by
  intro bs
  induction bs with
  | nil =>
    intro t b
    simp [closedChars, chainChars]
  | cons q qs ih =>
    intro t b
    rw [closedChars, List.cons_append, chainChars]
    rw [if_neg (by simp : ¬ qs ++ [(t, b)] = [])]
    rw [← ih t b]
    simp

/- ------------------------------------------------------------------ -/
/- The synthesis loop invariant.                                       -/
/- ------------------------------------------------------------------ -/

theorem synth_go :
    ∀ (rows : List CatalogRow),
      (∀ r ∈ rows, ∀ T, r.table_name = some T → WordName T) →
    ∀ (bs : List (String × List Char)) (t : String) (cores : List (List Char)),
      GoodChain bs → WordName t → cores ≠ [] → (∀ c ∈ cores, TailOK c) →
      ∃ bs' t' cores',
        List.foldl synthStep
          (String.mk (closedChars bs ++ headerChars t ++ bodyChars cores ++ [',', '\n']),
            some t) rows
          = (String.mk (closedChars bs' ++ headerChars t' ++ bodyChars cores' ++ [',', '\n']),
            some t') ∧
        GoodChain bs' ∧ WordName t' ∧ cores' ≠ [] ∧ (∀ c ∈ cores', TailOK c) ∧
        (∀ T, T ∈ bs.map Prod.fst ∨ T = t → T ∈ bs'.map Prod.fst ∨ T = t') ∧
        (∀ r ∈ rows, ∀ T, r.table_name = some T → T ∈ bs'.map Prod.fst ∨ T = t') := by
  intro rows
  induction rows with
  | nil =>
    intro _ bs t cores h1 h2 h3 h4
    exact ⟨bs, t, cores, rfl, h1, h2, h3, h4, fun T h => h, by simp⟩
  | cons r rows ih =>
    intro hben bs t cores h1 h2 h3 h4
    have hben' : ∀ r' ∈ rows, ∀ T, r'.table_name = some T → WordName T :=
      fun r' hr' => hben r' (by simp [hr'])
    rw [List.foldl_cons]
    cases hname : r.table_name with
    | none =>
      have hstep : synthStep
          (String.mk (closedChars bs ++ headerChars t ++ bodyChars cores ++ [',', '\n']),
            some t) r =
          (String.mk (closedChars bs ++ headerChars t ++ bodyChars cores ++ [',', '\n']),
            some t) := by
        simp only [synthStep, hname]
      rw [hstep]
      obtain ⟨bs', t', cores', e1, e2, e3, e4, e5, e6, e7⟩ := ih hben' bs t cores h1 h2 h3 h4
      refine ⟨bs', t', cores', e1, e2, e3, e4, e5, e6, ?_⟩
      intro r' hr' T hT
      rcases List.mem_cons.mp hr' with rfl | hr'
      · rw [hname] at hT; exact Option.noConfusion hT
      · exact e7 r' hr' T hT
    | some tn =>
      have htn : WordName tn := hben r (by simp) tn hname
      by_cases htt : tn = t
      · subst htt
        have hstep : synthStep
            (String.mk (closedChars bs ++ headerChars tn ++ bodyChars cores ++ [',', '\n']),
              some tn) r =
            (String.mk (closedChars bs ++ headerChars tn ++
              bodyChars (cores ++ [(coreStr r).data]) ++ [',', '\n']), some tn) := by
          simp only [synthStep, hname]
          rw [if_neg (by simp)]
          refine Prod.ext ?_ rfl
          show String.mk _ ++ columnFragment r = _
          refine String.ext ?_
          rw [String.data_append]
          show (closedChars bs ++ headerChars tn ++ bodyChars cores ++ [',', '\n'])
              ++ (columnFragment r).data = _
          rw [columnFragment_data, bodyChars_snoc cores _ h3]
          simp [List.append_assoc]
        rw [hstep]
        obtain ⟨bs', t', cores', e1, e2, e3, e4, e5, e6, e7⟩ :=
          ih hben' bs tn (cores ++ [(coreStr r).data]) h1 h2 (by simp)
            (by
              intro c hc
              rcases List.mem_append.mp hc with hc | hc
              · exact h4 c hc
              · rw [List.mem_singleton.mp hc]
                exact coreStr_tailOK r)
        refine ⟨bs', t', cores', e1, e2, e3, e4, e5, e6, ?_⟩
        intro r' hr' T hT
        rcases List.mem_cons.mp hr' with rfl | hr'
        · rw [hname] at hT
          exact e6 T (Or.inr (Option.some.inj hT).symm)
        · exact e7 r' hr' T hT
      · -- a new table starts: close the previous block
        obtain ⟨e, he, he1, he2⟩ := tailOK_getLast (bodyChars_tailOK cores h3 h4)
        have heX : (closedChars bs ++ headerChars t ++ bodyChars cores).getLast? = some e := by
          rw [List.append_assoc]
          exact getLast?_append_right (getLast?_append_right he)
        have hrs : rstripCommaNl
            (String.mk (closedChars bs ++ headerChars t ++ bodyChars cores ++ [',', '\n'])) =
            String.mk (closedChars bs ++ headerChars t ++ bodyChars cores) :=
          rstrip_exact heX he1 he2 _ (by simp [List.append_assoc])
        have hstep : synthStep
            (String.mk (closedChars bs ++ headerChars t ++ bodyChars cores ++ [',', '\n']),
              some t) r =
            (String.mk (closedChars (bs ++ [(t, bodyChars cores)]) ++ headerChars tn ++
              bodyChars [(coreStr r).data] ++ [',', '\n']), some tn) := by
          simp only [synthStep, hname]
          rw [if_pos (by simp [htt])]
          simp only [Option.isSome_some, if_true]
          rw [hrs]
          refine Prod.ext ?_ rfl
          refine String.ext ?_
          show (String.mk (closedChars bs ++ headerChars t ++ bodyChars cores) ++ "\n);\n\n"
              ++ "CREATE TABLE [" ++ tn ++ "] (\n" ++ columnFragment r).data = _
          rw [closedChars_snoc]
          simp only [String.data_append, columnFragment_data, bodyChars_single,
            blockChars, headerChars]
          show _ = _
          simp [List.append_assoc]
        rw [hstep]
        have h1' : GoodChain (bs ++ [(t, bodyChars cores)]) := by
          intro p hp
          rcases List.mem_append.mp hp with hp | hp
          · exact h1 p hp
          · rw [List.mem_singleton.mp hp]
            exact ⟨h2, bodyChars_tailOK cores h3 h4⟩
        obtain ⟨bs', t', cores', e1, e2, e3, e4, e5, e6, e7⟩ :=
          ih hben' (bs ++ [(t, bodyChars cores)]) tn [(coreStr r).data] h1' htn (by simp)
            (by
              intro c hc
              rw [List.mem_singleton.mp hc]
              exact coreStr_tailOK r)
        refine ⟨bs', t', cores', e1, e2, e3, e4, e5, ?_, ?_⟩
        · intro T hT
          refine e6 T (Or.inl ?_)
          rcases hT with hT | hT
          · simp only [List.map_append, List.mem_append]
            exact Or.inl hT
          · simp [hT]
        · intro r' hr' T hT
          rcases List.mem_cons.mp hr' with rfl | hr'
          · rw [hname] at hT
            exact e6 T (Or.inr (Option.some.inj hT).symm)
          · exact e7 r' hr' T hT

theorem synth_shape :
    ∀ (rows : List CatalogRow),
      (∀ r ∈ rows, ∀ T, r.table_name = some T → WordName T) →
      (rows.foldl synthStep ("", none) = ("", none) ∧
        ∀ r ∈ rows, r.table_name = none) ∨
      (∃ bs t cores,
        rows.foldl synthStep ("", none) =
          (String.mk (closedChars bs ++ headerChars t ++ bodyChars cores ++ [',', '\n']),
            some t) ∧
        GoodChain bs ∧ WordName t ∧ cores ≠ [] ∧ (∀ c ∈ cores, TailOK c) ∧
        ∀ r ∈ rows, ∀ T, r.table_name = some T → T ∈ bs.map Prod.fst ∨ T = t) := by
  intro rows
  induction rows with
  | nil => exact fun _ => Or.inl ⟨rfl, by simp⟩
  | cons r rows ih =>
    intro hben
    have hben' : ∀ r' ∈ rows, ∀ T, r'.table_name = some T → WordName T :=
      fun r' hr' => hben r' (by simp [hr'])
    rw [List.foldl_cons]
    cases hname : r.table_name with
    | none =>
      have hstep : synthStep (("", none) : String × Option String) r = ("", none) := by
        simp only [synthStep, hname]
      rw [hstep]
      rcases ih hben' with ⟨h1, h2⟩ | ⟨bs, t, cores, h1, h2, h3, h4, h5, h6⟩
      · refine Or.inl ⟨h1, ?_⟩
        intro r' hr'
        rcases List.mem_cons.mp hr' with rfl | hr'
        · exact hname
        · exact h2 r' hr'
      · refine Or.inr ⟨bs, t, cores, h1, h2, h3, h4, h5, ?_⟩
        intro r' hr' T hT
        rcases List.mem_cons.mp hr' with rfl | hr'
        · rw [hname] at hT; exact Option.noConfusion hT
        · exact h6 r' hr' T hT
    | some tn =>
      have htn : WordName tn := hben r (by simp) tn hname
      have hstep : synthStep (("", none) : String × Option String) r =
          (String.mk (closedChars [] ++ headerChars tn ++
            bodyChars [(coreStr r).data] ++ [',', '\n']), some tn) := by
        simp only [synthStep, hname]
        rw [if_pos (by simp)]
        simp only [Option.isSome_none, Bool.false_eq_true, if_false]
        refine Prod.ext ?_ rfl
        refine String.ext ?_
        show (("" : String) ++ "CREATE TABLE [" ++ tn ++ "] (\n" ++ columnFragment r).data = _
        simp only [String.data_append, columnFragment_data, bodyChars_single,
          closedChars, headerChars]
        simp [List.append_assoc]
      rw [hstep]
      obtain ⟨bs', t', cores', e1, e2, e3, e4, e5, e6, e7⟩ :=
        synth_go rows hben' [] tn [(coreStr r).data] (by intro p hp; simp at hp) htn
          (by simp)
          (by
            intro c hc
            rw [List.mem_singleton.mp hc]
            exact coreStr_tailOK r)
      refine Or.inr ⟨bs', t', cores', e1, e2, e3, e4, e5, ?_⟩
      intro r' hr' T hT
      rcases List.mem_cons.mp hr' with rfl | hr'
      · rw [hname] at hT
        exact e6 T (Or.inr (Option.some.inj hT).symm)
      · exact e7 r' hr' T hT

theorem buildSchemaText_shape (rows : List CatalogRow)
    (hben : ∀ r ∈ rows, ∀ T, r.table_name = some T → WordName T) :
    ∃ BS : List (String × List Char),
      (buildSchemaText rows).data = chainChars BS ∧ GoodChain BS ∧
      ∀ T, (∃ r ∈ rows, r.table_name = some T) → T ∈ BS.map Prod.fst := by
  rcases synth_shape rows hben with ⟨h1, h2⟩ | ⟨bs, t, cores, h1, h2, h3, h4, h5, h6⟩
  · refine ⟨[], ?_, by intro p hp; simp at hp, ?_⟩
    · unfold buildSchemaText
      rw [h1]
      rfl
    · intro T ⟨r, hr, hT⟩
      rw [h2 r hr] at hT
      exact Option.noConfusion hT
  · obtain ⟨e, he, he1, he2⟩ := tailOK_getLast (bodyChars_tailOK cores h4 h5)
    have heX : (closedChars bs ++ headerChars t ++ bodyChars cores).getLast? = some e := by
      rw [List.append_assoc]
      exact getLast?_append_right (getLast?_append_right he)
    have hrs : rstripCommaNl
        (String.mk (closedChars bs ++ headerChars t ++ bodyChars cores ++ [',', '\n'])) =
        String.mk (closedChars bs ++ headerChars t ++ bodyChars cores) :=
      rstrip_exact heX he1 he2 _ (by simp [List.append_assoc])
    refine ⟨bs ++ [(t, bodyChars cores)], ?_, ?_, ?_⟩
    · unfold buildSchemaText
      rw [h1]
      simp only [Option.isSome_some, if_true]
      rw [hrs]
      rw [← chainChars_of_closed]
      simp [blockChars, headerChars, List.append_assoc]
    · intro p hp
      rcases List.mem_append.mp hp with hp | hp
      · exact h2 p hp
      · rw [List.mem_singleton.mp hp]
        exact ⟨h3, bodyChars_tailOK cores h4 h5⟩
    · intro T ⟨r, hr, hT⟩
      rcases h6 r hr T hT with h | h
      · simp only [List.map_append, List.mem_append]
        exact Or.inl h
      · simp [h]

/- ------------------------------------------------------------------ -/
/- Single-step skip lemmas for the two substitution scanners.          -/
/- ------------------------------------------------------------------ -/

theorem fixEmptyLenGo_nil (word : List Char) (fuel : Nat) :
    fixEmptyLenGo word fuel [] = [] := by
  cases fuel <;> rfl

theorem fixEmptyLenGo_zero (word : List Char) (cs : List Char) :
    fixEmptyLenGo word 0 cs = cs := by
  cases cs <;> rfl

theorem fixCommaCloseGo_nil (close : Char) (fuel : Nat) :
    fixCommaCloseGo close fuel [] = [] := by
  cases fuel <;> rfl

theorem fixCommaCloseGo_zero (close : Char) (cs : List Char) :
    fixCommaCloseGo close 0 cs = cs := by
  cases cs <;> rfl

theorem fixEmptyLenGo_skip (word : List Char) (fuel : Nat) (c : Char) (rest : List Char)
    (h : startsWithCI word (c :: rest) = true →
      ∀ r2, (c :: rest).drop word.length = '(' :: r2 →
      ∀ r3, r2.drop (r2.takeWhile isPyWS).length ≠ ')' :: r3) :
    fixEmptyLenGo word (fuel + 1) (c :: rest) = c :: fixEmptyLenGo word fuel rest := by
  by_cases hsw : startsWithCI word (c :: rest)
  · show (if startsWithCI word (c :: rest) then _ else _) = _
    rw [if_pos hsw]
    split
    · rename_i r2 heq
      split
      · rename_i r3 heq2
        exact absurd heq2 (h hsw r2 heq r3)
      · rfl
    · rfl
  · show (if startsWithCI word (c :: rest) then _ else _) = _
    rw [if_neg hsw]

theorem fixCommaCloseGo_skip (close : Char) (fuel : Nat) (c : Char) (rest : List Char)
    (h : c = ',' → ∀ d r3, rest.drop (rest.takeWhile isPyWS).length = d :: r3 → d ≠ close) :
    fixCommaCloseGo close (fuel + 1) (c :: rest) = c :: fixCommaCloseGo close fuel rest := by
  by_cases hcm : c = ','
  · show (if c = ',' then _ else _) = _
    rw [if_pos hcm]
    split
    · rename_i d r3 heq
      rw [if_neg (h hcm d r3 heq)]
    · rfl
  · show (if c = ',' then _ else _) = _
    rw [if_neg hcm]

/- ------------------------------------------------------------------ -/
/- Regions the empty-length scanner passes through verbatim.           -/
/- ------------------------------------------------------------------ -/


theorem drop_append_cons {v : List Char} {n : Nat} {d : Char} {r2 : List Char} (R : List Char)
    (h : v.drop n = d :: r2) : (v ++ R).drop n = d :: (r2 ++ R) := by
  have hn : n < v.length := by
    by_contra hh
    push_neg at hh
    rw [List.drop_of_length_le hh] at h
    simp at h
  rw [List.drop_append_eq_append_drop, h, Nat.sub_eq_zero_of_le (Nat.le_of_lt hn)]
  simp

theorem stepSafeE_append {w v : List Char} (B : List Char) (h : StepSafeE w v) :
    StepSafeE w (v ++ B) := by
  rcases h with hci | ⟨d, r2, hd, hne⟩
  · left
    intro R
    rw [List.append_assoc]
    exact hci (B ++ R)
  · right
    exact ⟨d, r2 ++ B, drop_append_cons B hd, hne⟩

theorem runSafeE_append {w A B : List Char} (hA : RunSafeE w A) (hB : RunSafeE w B) :
    RunSafeE w (A ++ B) := by
  intro u v heq hne
  rcases List.append_eq_append_iff.mp heq with ⟨x, hu, hx⟩ | ⟨x, hnx, hvx⟩
  · exact hB x v hx hne
  · cases hxe : x with
    | nil =>
      rw [hxe] at hvx
      rw [List.nil_append] at hvx
      subst hvx
      exact hB [] v rfl hne
    | cons a x' =>
      subst hvx
      refine stepSafeE_append B ?_
      refine hA u x hnx ?_
      rw [hxe]
      simp

theorem runSafeE_of_heads {wh : Char} {wt Z : List Char}
    (hZ : ∀ c ∈ Z, Char.toLower c ≠ Char.toLower wh) : RunSafeE (wh :: wt) Z := by
  intro u v heq hne
  obtain ⟨c, v', rfl⟩ : ∃ c v', v = c :: v' := by
    cases v with
    | nil => exact absurd rfl hne
    | cons c v' => exact ⟨c, v', rfl⟩
  left
  intro R
  rw [List.cons_append]
  exact ci_false_of_head wt (v' ++ R) (hZ c (by rw [heq]; simp))

theorem fixEmptyLenGo_run (w : List Char) :
    ∀ (Z : List Char), RunSafeE w Z → ∀ (fuel : Nat) (R : List Char),
      fixEmptyLenGo w fuel (Z ++ R) = Z ++ fixEmptyLenGo w (fuel - Z.length) R := by
  intro Z
  induction Z with
  | nil =>
    intro _ fuel R
    simp
  | cons c Z' ih =>
    intro hZ fuel R
    cases fuel with
    | zero =>
      rw [Nat.zero_sub, fixEmptyLenGo_zero, fixEmptyLenGo_zero]
    | succ fuel =>
      have hstep := hZ [] (c :: Z') rfl (by simp)
      rw [List.cons_append, fixEmptyLenGo_skip w fuel c (Z' ++ R) ?_]
      · have hZ' : RunSafeE w Z' := by
          intro u v h hne
          exact hZ (c :: u) v (by rw [h]; rfl) hne
        have harith : fuel + 1 - (c :: Z').length = fuel - Z'.length := by
          simp only [List.length_cons]
          omega
        rw [harith, ih hZ' fuel R]
        rfl
      · intro hsw r2 hr2
        rcases hstep with hci | ⟨d, r2', hd, hdne⟩
        · rw [show (c :: (Z' ++ R) : List Char) = (c :: Z') ++ R from rfl] at hsw
          rw [hci R] at hsw
          exact absurd hsw (by simp)
        · rw [show (c :: (Z' ++ R) : List Char) = (c :: Z') ++ R from rfl,
            drop_append_cons R hd] at hr2
          rw [(List.cons.injEq _ _ _ _).mp hr2 |>.1] at hdne
          exact absurd rfl hdne

theorem fixCommaCloseGo_run (close : Char) :
    ∀ (Z : List Char), (',' : Char) ∉ Z → ∀ (fuel : Nat) (R : List Char),
      fixCommaCloseGo close fuel (Z ++ R) = Z ++ fixCommaCloseGo close (fuel - Z.length) R := by
  intro Z
  induction Z with
  | nil =>
    intro _ fuel R
    simp
  | cons c Z' ih =>
    intro hZ fuel R
    cases fuel with
    | zero =>
      rw [Nat.zero_sub, fixCommaCloseGo_zero, fixCommaCloseGo_zero]
    | succ fuel =>
      rw [List.cons_append, fixCommaCloseGo_skip close fuel c (Z' ++ R) ?_]
      · have harith : fuel + 1 - (c :: Z').length = fuel - Z'.length := by
          simp only [List.length_cons]
          omega
        rw [harith, ih (fun hm => hZ (by simp [hm])) fuel R]
        rfl
      · intro hcm
        exact absurd (by simp [hcm] : (',' : Char) ∈ c :: Z') hZ

/- ------------------------------------------------------------------ -/
/- No empty-length trigger fires inside a header.                      -/
/- ------------------------------------------------------------------ -/

theorem runSafeE_nametail (w : List Char)
    (hw : w = "NVARCHAR".data ∨ w = "VARCHAR".data)
    (n : String) (hn : WordName n) :
    RunSafeE w (n.data ++ [']', ' ', '(', '\n']) := by
  have hball : ∀ c ∈ w, Char.toLower c ≠ '\n' := by
    rcases hw with rfl | rfl <;> decide
  intro u v heq hne
  rcases List.append_eq_append_iff.mp heq with ⟨x, hu, hx⟩ | ⟨x, hnx, hvx⟩
  · -- v is a nonempty suffix of the four-character literal tail
    obtain ⟨c, v', rfl⟩ : ∃ c v', v = c :: v' := by
      cases v with
      | nil => exact absurd rfl hne
      | cons c v' => exact ⟨c, v', rfl⟩
    have hc : c ∈ ([']', ' ', '(', '\n'] : List Char) := by
      rw [hx]
      simp
    left
    intro R
    simp only [List.mem_cons, List.mem_singleton] at hc
    rcases hw with rfl | rfl
    · rw [show ("NVARCHAR".data : List Char) = 'N' :: ['V','A','R','C','H','A','R'] from rfl,
        List.cons_append]
      refine ci_false_of_head _ _ ?_
      rcases hc with rfl | rfl | rfl | rfl | h <;> first | decide | simp at h
    · rw [show ("VARCHAR".data : List Char) = 'V' :: ['A','R','C','H','A','R'] from rfl,
        List.cons_append]
      refine ci_false_of_head _ _ ?_
      rcases hc with rfl | rfl | rfl | rfl | h <;> first | decide | simp at h
  · -- v = x ++ tail with x a suffix of the table name
    subst hvx
    have hxw : ∀ c ∈ x, isWordChar c = true := by
      intro c hc
      exact hn.2 c (by rw [hnx]; simp [hc])
    rcases Nat.lt_or_ge w.length x.length with hlt | hge
    · -- the character at offset `w.length` is still inside the name
      right
      obtain ⟨d, r2, hdr⟩ : ∃ d r2, x.drop w.length = d :: r2 := by
        cases hh : x.drop w.length with
        | nil =>
          have := congrArg List.length hh
          simp at this
          omega
        | cons d r2 => exact ⟨d, r2, rfl⟩
      refine ⟨d, r2 ++ [']',' ','(','\n'], ?_, ?_⟩
      · rw [List.drop_append_eq_append_drop, hdr, Nat.sub_eq_zero_of_le (le_of_lt hlt)]
        simp
      · have hd : d ∈ x := by
          have : d ∈ x.drop w.length := by rw [hdr]; simp
          exact List.mem_of_mem_drop this
        exact (wordChar_ne d (hxw d hd)).2.2.1
    · rcases Nat.lt_or_ge w.length (x.length + 4) with hlt4 | hge4
      · -- the offset lands in the literal tail
        have hdropx : (x ++ ([']',' ','(','\n'] : List Char)).drop w.length
            = ([']',' ','(','\n'] : List Char).drop (w.length - x.length) := by
          rw [List.drop_append_eq_append_drop, List.drop_of_length_le hge]
          simp
        have hk : w.length = x.length ∨ w.length = x.length + 1 ∨
            w.length = x.length + 2 ∨ w.length = x.length + 3 := by omega
        rcases hk with hk | hk | hk | hk
        · right
          refine ⟨']', [' ','(','\n'], ?_, by decide⟩
          rw [hdropx, hk]
          simp
        · right
          refine ⟨' ', ['(','\n'], ?_, by decide⟩
          rw [hdropx, hk]
          simp
        · -- the offset is exactly the `(`: the window then covers `] `,
          -- which cannot match the final två letters of the word
          left
          intro R
          cases hci : startsWithCI w ((x ++ [']',' ','(','\n']) ++ R)
          · rfl
          exfalso
          have heq2 : (((x ++ ([']',' ','(','\n'] : List Char)) ++ R).take w.length).map
              Char.toLower = w.map Char.toLower := by
            simpa [startsWithCI] using hci
          have htake : ((x ++ ([']',' ','(','\n'] : List Char)) ++ R).take w.length
              = x ++ [']', ' '] := by
            rw [List.append_assoc, List.take_append_eq_append_take,
              List.take_of_length_le (by omega)]
            congr 1
            rw [hk]
            have h2 : x.length + 2 - x.length = 2 := by omega
            rw [h2]
            rfl
          rw [htake, List.map_append] at heq2
          have h3 := congrArg (List.drop x.length) heq2
          rw [List.drop_append_of_le_length (by simp)] at h3
          rw [List.drop_of_length_le (by simp)] at h3
          rw [List.nil_append, ← List.map_drop] at h3
          have hx2 : x.length = w.length - 2 := by omega
          rcases hw with rfl | rfl
          · rw [hx2] at h3
            exact absurd h3 (by decide)
          · rw [hx2] at h3
            exact absurd h3 (by decide)
        · right
          refine ⟨'\n', [], ?_, by decide⟩
          rw [hdropx, hk]
          have h3 : x.length + 3 - x.length = 3 := by omega
          rw [h3]
          rfl
      · -- the whole window would have to cover the closing newline
        left
        intro R
        cases hci : startsWithCI w ((x ++ [']',' ','(','\n']) ++ R)
        · rfl
        exfalso
        refine ci_newline_false (x ++ [']',' ','(']) R hball (by simp; omega) ?_
        rw [show ((x ++ ([']',' ','('] : List Char)) ++ '\n' :: R : List Char)
          = (x ++ [']',' ','(','\n']) ++ R by simp]
        exact hci

theorem runSafeE_header (w : List Char)
    (hw : w = "NVARCHAR".data ∨ w = "VARCHAR".data)
    (n : String) (hn : WordName n) : RunSafeE w (headerChars n) := by
  have hlit : RunSafeE w "CREATE TABLE [".data := by
    rcases hw with rfl | rfl
    · rw [show ("NVARCHAR".data : List Char) = 'N' :: ['V','A','R','C','H','A','R'] from rfl]
      exact runSafeE_of_heads (by decide)
    · rw [show ("VARCHAR".data : List Char) = 'V' :: ['A','R','C','H','A','R'] from rfl]
      exact runSafeE_of_heads (by decide)
  have hsplit : headerChars n = "CREATE TABLE [".data ++ (n.data ++ [']',' ','(','\n']) := by
    rw [headerChars, List.append_assoc]
  rw [hsplit]
  exact runSafeE_append hlit (runSafeE_nametail w hw n hn)

/- ------------------------------------------------------------------ -/
/- The empty-length scanner stays inside a block body.                 -/
/- ------------------------------------------------------------------ -/

theorem getLast?_of_drop {l l' : List Char} {n : Nat} (h : l.drop n = l')
    (hne : l' ≠ []) : l.getLast? = l'.getLast? := by
  have h5 : l = l.take n ++ l' := by rw [← h, List.take_append_drop]
  obtain ⟨e, he⟩ : ∃ e, l'.getLast? = some e := by
    cases hg : l'.getLast? with
    | none =>
      rw [List.getLast?_eq_none_iff] at hg
      exact absurd hg hne
    | some e => exact ⟨e, rfl⟩
  conv_lhs => rw [h5]
  rw [getLast?_append_right he, he]

theorem fixEmptyLenGo_body (w : List Char)
    (hw : w = "NVARCHAR".data ∨ w = "VARCHAR".data) :
    ∀ (N : Nat) (b : List Char), b.length ≤ N → TailOK b →
      ∀ (fuel : Nat) (X : List Char),
        ∃ b' f', fixEmptyLenGo w fuel (b ++ '\n' :: X) =
            b' ++ fixEmptyLenGo w f' ('\n' :: X) ∧
          fuel ≤ f' + b.length ∧ TailOK b' := by
  have hball : ∀ ch ∈ w, Char.toLower ch ≠ '\n' := by
    rcases hw with rfl | rfl <;> decide
  intro N
  induction N with
  | zero =>
    intro b hlen htail
    exact absurd (List.length_eq_zero.mp (Nat.le_zero.mp hlen)) (TailOK_ne_nil htail)
  | succ N ih =>
    intro b hlen htail fuel X
    obtain ⟨c, b₂, rfl⟩ : ∃ c b₂, b = c :: b₂ := by
      cases b with
      | nil => exact absurd rfl (TailOK_ne_nil htail)
      | cons c b₂ => exact ⟨c, b₂, rfl⟩
    cases fuel with
    | zero =>
      refine ⟨c :: b₂, 0, ?_, by simp, htail⟩
      rw [fixEmptyLenGo_zero, fixEmptyLenGo_zero]
    | succ F =>
      have hdich :
          (fixEmptyLenGo w (F + 1) ((c :: b₂) ++ '\n' :: X)
            = c :: fixEmptyLenGo w F (b₂ ++ '\n' :: X)) ∨
          (∃ bb bb₂, (c :: b₂).drop w.length = '(' :: bb ∧
            bb.drop (bb.takeWhile isPyWS).length = ')' :: bb₂ ∧
            TailOK (')' :: bb₂) ∧
            fixEmptyLenGo w (F + 1) ((c :: b₂) ++ '\n' :: X)
              = (w ++ "(255)".data) ++ fixEmptyLenGo w F (bb₂ ++ '\n' :: X)) := by
        by_cases hsw : startsWithCI w (c :: (b₂ ++ '\n' :: X)) = true
        · cases hd : (c :: b₂).drop w.length with
          | nil =>
            have hlen1 := congrArg List.length hd
            simp only [List.length_drop, List.length_cons, List.length_nil] at hlen1
            rcases Nat.lt_or_ge (c :: b₂).length w.length with hlt | hge2
            · exact absurd hsw (fun hs => ci_newline_false (c :: b₂) X hball hlt hs)
            · left
              rw [List.cons_append]
              refine fixEmptyLenGo_skip w F c _ ?_
              intro hs r2 hr2 r3
              rw [← List.cons_append, List.drop_append_eq_append_drop, hd] at hr2
              have hz : w.length - (c :: b₂).length = 0 := by
                simp only [List.length_cons]
                simp only [List.length_cons] at hge2
                omega
              rw [hz, List.nil_append, List.drop_zero] at hr2
              simp at hr2
          | cons d bb =>
            by_cases hdp : d = '('
            · subst hdp
              have hbbne : bb ≠ [] := by
                rintro rfl
                have hgl := getLast?_of_drop hd (by simp)
                obtain ⟨e, he, -, -, h3⟩ := htail
                rw [he] at hgl
                simp at hgl
                exact h3 hgl
              have htail_bb : TailOK bb := by
                have hpar : TailOK ('(' :: bb) := by
                  obtain ⟨e, he, h1, h2, h3⟩ := htail
                  refine ⟨e, ?_, h1, h2, h3⟩
                  rw [← getLast?_of_drop hd (by simp)]
                  exact he
                exact TailOK_tail hbbne hpar
              have hrun : (bb.takeWhile isPyWS).length < bb.length := by
                obtain ⟨e, he, h1, -, -⟩ := htail_bb
                exact takeWhile_last_stop isPyWS bb e he h1
              obtain ⟨hrw1, hrw2⟩ := takeWhile_stop_append isPyWS bb ('\n' :: X) hrun
              obtain ⟨d₀, bb₂, hd0⟩ :
                  ∃ d₀ bb₂, bb.drop (bb.takeWhile isPyWS).length = d₀ :: bb₂ := by
                cases hh : bb.drop (bb.takeWhile isPyWS).length with
                | nil =>
                  have := congrArg List.length hh
                  simp only [List.length_drop, List.length_nil] at this
                  omega
                | cons d₀ bb₂ => exact ⟨d₀, bb₂, rfl⟩
              have hdL : (c :: (b₂ ++ '\n' :: X)).drop w.length
                  = '(' :: (bb ++ '\n' :: X) := by
                rw [← List.cons_append]
                exact drop_append_cons _ hd
              by_cases hd0p : d₀ = ')'
              · subst hd0p
                right
                have htp : TailOK (')' :: bb₂) := by
                  obtain ⟨e, he, h1, h2, h3⟩ := htail_bb
                  refine ⟨e, ?_, h1, h2, h3⟩
                  rw [← getLast?_of_drop hd0 (by simp)]
                  exact he
                have hst : fixEmptyLenGo w (F + 1) ((c :: b₂) ++ '\n' :: X)
                    = (w ++ "(255)".data) ++ fixEmptyLenGo w F (bb₂ ++ '\n' :: X) := by
                  rw [List.cons_append]
                  show (if startsWithCI w (c :: (b₂ ++ '\n' :: X)) then _ else _) = _
                  rw [if_pos hsw, hdL]
                  simp only []
                  rw [hrw2, hd0, List.cons_append]
                  simp only []
                exact ⟨bb, bb₂, rfl, hd0, htp, hst⟩
              · left
                rw [List.cons_append]
                refine fixEmptyLenGo_skip w F c _ ?_
                intro hs r2 hr2 r3
                rw [hdL] at hr2
                have hr2' : r2 = bb ++ '\n' :: X :=
                  ((List.cons.injEq _ _ _ _).mp hr2).2.symm
                subst hr2'
                rw [hrw2, hd0, List.cons_append]
                simp [hd0p]
            · left
              rw [List.cons_append]
              refine fixEmptyLenGo_skip w F c _ ?_
              intro hs r2 hr2 r3
              have hdL : (c :: (b₂ ++ '\n' :: X)).drop w.length
                  = d :: (bb ++ '\n' :: X) := by
                rw [← List.cons_append]
                exact drop_append_cons _ hd
              rw [hdL] at hr2
              exact absurd ((List.cons.injEq _ _ _ _).mp hr2).1 hdp
        · left
          rw [List.cons_append]
          exact fixEmptyLenGo_skip w F c _ (fun hs => absurd hs hsw)
      rcases hdich with hskip | ⟨bb, bb₂, hd, hd0, htailp, hstep⟩
      · by_cases hb2 : b₂ = []
        · subst hb2
          refine ⟨[c], F, ?_, by simp, htail⟩
          rw [hskip]
          simp
        · have hlen2 : b₂.length ≤ N := by
            simp only [List.length_cons] at hlen
            omega
          obtain ⟨b₃, f', heq3, hf3, ht3⟩ := ih b₂ hlen2 (TailOK_tail hb2 htail) F X
          refine ⟨c :: b₃, f', ?_, ?_, TailOK_cons ht3⟩
          · rw [hskip, heq3]
            simp
          · simp only [List.length_cons]
            omega
      · have hlen1 := congrArg List.length hd
        have hlen2 := congrArg List.length hd0
        simp only [List.length_drop, List.length_cons] at hlen1 hlen2
        simp only [List.length_cons] at hlen
        by_cases hbb2 : bb₂ = []
        · subst hbb2
          refine ⟨w ++ "(255)".data, F, ?_, ?_, ?_⟩
          · rw [hstep]
            simp
          · simp only [List.length_cons]
            omega
          · exact TailOK_append ⟨')', by decide, by decide, by decide, by decide⟩
        · have htail2 : TailOK bb₂ := TailOK_tail hbb2 htailp
          obtain ⟨b₃, f', heq3, hf3, ht3⟩ := ih bb₂ (by omega) htail2 F X
          refine ⟨w ++ "(255)".data ++ b₃, f', ?_, ?_, TailOK_append ht3⟩
          · rw [hstep, heq3]
            simp
          · simp only [List.length_cons]
            omega

theorem fixCommaCloseGo_body (close : Char) (hcl : close = ')' ∨ close = ';') :
    ∀ (N : Nat) (b : List Char), b.length ≤ N → TailOK b →
      ∀ (fuel : Nat) (X : List Char),
        ∃ b' f', fixCommaCloseGo close fuel (b ++ '\n' :: X) =
            b' ++ fixCommaCloseGo close f' ('\n' :: X) ∧
          fuel ≤ f' + b.length ∧ TailOK b' := by
  intro N
  induction N with
  | zero =>
    intro b hlen htail
    exact absurd (List.length_eq_zero.mp (Nat.le_zero.mp hlen)) (TailOK_ne_nil htail)
  | succ N ih =>
    intro b hlen htail fuel X
    obtain ⟨c, b₂, rfl⟩ : ∃ c b₂, b = c :: b₂ := by
      cases b with
      | nil => exact absurd rfl (TailOK_ne_nil htail)
      | cons c b₂ => exact ⟨c, b₂, rfl⟩
    cases fuel with
    | zero =>
      refine ⟨c :: b₂, 0, ?_, by simp, htail⟩
      rw [fixCommaCloseGo_zero, fixCommaCloseGo_zero]
    | succ F =>
      have hdich :
          (fixCommaCloseGo close (F + 1) ((c :: b₂) ++ '\n' :: X)
            = c :: fixCommaCloseGo close F (b₂ ++ '\n' :: X)) ∨
          (∃ b₃, b₂.drop (b₂.takeWhile isPyWS).length = close :: b₃ ∧
            TailOK (close :: b₃) ∧
            fixCommaCloseGo close (F + 1) ((c :: b₂) ++ '\n' :: X)
              = close :: fixCommaCloseGo close F (b₃ ++ '\n' :: X)) := by
        by_cases hcm : c = ','
        · have hb2ne : b₂ ≠ [] := by
            rintro rfl
            obtain ⟨e, he, -, h2, -⟩ := htail
            rw [List.getLast?_singleton] at he
            exact h2 (by rw [← Option.some.inj he, hcm])
          have htb₂ : TailOK b₂ := TailOK_tail hb2ne htail
          have hrun : (b₂.takeWhile isPyWS).length < b₂.length := by
            obtain ⟨e, he, h1, -, -⟩ := htb₂
            exact takeWhile_last_stop isPyWS b₂ e he h1
          obtain ⟨hrw1, hrw2⟩ := takeWhile_stop_append isPyWS b₂ ('\n' :: X) hrun
          obtain ⟨d₀, b₃, hd0⟩ :
              ∃ d₀ b₃, b₂.drop (b₂.takeWhile isPyWS).length = d₀ :: b₃ := by
            cases hh : b₂.drop (b₂.takeWhile isPyWS).length with
            | nil =>
              have := congrArg List.length hh
              simp only [List.length_drop, List.length_nil] at this
              omega
            | cons d₀ b₃ => exact ⟨d₀, b₃, rfl⟩
          by_cases hd0p : d₀ = close
          · subst hd0p
            right
            have htp : TailOK (d₀ :: b₃) := by
              obtain ⟨e, he, h1, h2, h3⟩ := htb₂
              refine ⟨e, ?_, h1, h2, h3⟩
              rw [← getLast?_of_drop hd0 (by simp)]
              exact he
            have hst : fixCommaCloseGo d₀ (F + 1) ((c :: b₂) ++ '\n' :: X)
                = d₀ :: fixCommaCloseGo d₀ F (b₃ ++ '\n' :: X) := by
              rw [List.cons_append]
              show (if c = ',' then _ else _) = _
              rw [if_pos hcm, hrw2, hd0, List.cons_append]
              simp only []
              simp
            exact ⟨b₃, hd0, htp, hst⟩
          · left
            rw [List.cons_append]
            refine fixCommaCloseGo_skip close F c _ ?_
            intro _ d r3 hdr
            rw [hrw2, hd0, List.cons_append] at hdr
            rw [← ((List.cons.injEq _ _ _ _).mp hdr).1]
            exact hd0p
        · left
          rw [List.cons_append]
          exact fixCommaCloseGo_skip close F c _ (fun hk => absurd hk hcm)
      rcases hdich with hskip | ⟨b₃, hd0, htp, hst⟩
      · by_cases hb2 : b₂ = []
        · subst hb2
          refine ⟨[c], F, ?_, by simp, htail⟩
          rw [hskip]
          simp
        · have hlen2 : b₂.length ≤ N := by
            simp only [List.length_cons] at hlen
            omega
          obtain ⟨b₄, f', heq4, hf4, ht4⟩ := ih b₂ hlen2 (TailOK_tail hb2 htail) F X
          refine ⟨c :: b₄, f', ?_, ?_, TailOK_cons ht4⟩
          · rw [hskip, heq4]
            simp
          · simp only [List.length_cons]
            omega
      · have hlen2 := congrArg List.length hd0
        simp only [List.length_drop, List.length_cons] at hlen2
        simp only [List.length_cons] at hlen
        by_cases hb3 : b₃ = []
        · subst hb3
          refine ⟨[close], F, ?_, ?_, ?_⟩
          · rw [hst]
            simp
          · simp only [List.length_cons]
            omega
          · rcases hcl with rfl | rfl
            · exact ⟨')', by decide, by decide, by decide, by decide⟩
            · exact ⟨';', by decide, by decide, by decide, by decide⟩
        · have htail3 : TailOK b₃ := TailOK_tail hb3 htp
          obtain ⟨b₄, f', heq4, hf4, ht4⟩ := ih b₃ (by omega) htail3 F X
          refine ⟨close :: b₄, f', ?_, ?_, TailOK_cons ht4⟩
          · rw [hst, heq4]
            simp
          · simp only [List.length_cons]
            omega

/- ------------------------------------------------------------------ -/
/- Each fix-up pass maps a block chain to a block chain with the same  -/
/- table names.                                                        -/
/- ------------------------------------------------------------------ -/

theorem not_mem_of_all_word {x : Char} (hx : isWordChar x = false)
    {l : List Char} (hl : ∀ c ∈ l, isWordChar c = true) : x ∉ l := by
  intro hmem
  rw [hl x hmem] at hx
  exact Bool.noConfusion hx

theorem runSafeE_nonletters (w : List Char)
    (hw : w = "NVARCHAR".data ∨ w = "VARCHAR".data)
    (Z : List Char) (hZ : ∀ c ∈ Z, Char.toLower c ≠ 'n' ∧ Char.toLower c ≠ 'v') :
    RunSafeE w Z := by
  rcases hw with rfl | rfl
  · rw [show ("NVARCHAR".data : List Char) = 'N' :: ['V','A','R','C','H','A','R'] from rfl]
    refine runSafeE_of_heads ?_
    intro c hc
    rw [show Char.toLower 'N' = 'n' from by decide]
    exact (hZ c hc).1
  · rw [show ("VARCHAR".data : List Char) = 'V' :: ['A','R','C','H','A','R'] from rfl]
    refine runSafeE_of_heads ?_
    intro c hc
    rw [show Char.toLower 'V' = 'v' from by decide]
    exact (hZ c hc).2

theorem comma_not_header {t : String} (ht : WordName t) :
    (',' : Char) ∉ headerChars t := by
  rw [headerChars]
  simp only [List.mem_append, not_or]
  exact ⟨⟨by decide, not_mem_of_all_word (by decide) ht.2⟩, by decide⟩

theorem chainChars_cons_sep (p : String × List Char) (rest : List (String × List Char)) :
    chainChars (p :: rest) = blockChars p.1 p.2 ++ chainSep rest := rfl

theorem chainChars_regroup (t : String) (b : List Char)
    (rest : List (String × List Char)) :
    chainChars ((t, b) :: rest)
      = headerChars t ++ (b ++ '\n' :: ')' :: ';' :: chainSep rest) := by
  rw [chainChars_cons_sep, blockChars]
  simp [List.append_assoc]

theorem chainSep_length (rest : List (String × List Char)) (hre : rest ≠ []) :
    (chainSep rest).length = 2 + (chainChars rest).length := by
  rw [chainSep, if_neg hre]
  simp
  omega

theorem fixEmptyLenGo_chain (w : List Char)
    (hw : w = "NVARCHAR".data ∨ w = "VARCHAR".data) :
    ∀ (bs : List (String × List Char)), GoodChain bs →
      ∀ fuel, (chainChars bs).length ≤ fuel →
      ∃ bs', fixEmptyLenGo w fuel (chainChars bs) = chainChars bs' ∧
        bs'.map Prod.fst = bs.map Prod.fst ∧ GoodChain bs' := by
  intro bs
  induction bs with
  | nil =>
    intro _ fuel _
    refine ⟨[], ?_, by simp, by intro p hp; simp at hp⟩
    rw [show chainChars [] = [] from rfl, fixEmptyLenGo_nil]
  | cons p rest ih =>
    intro hg fuel hfuel
    obtain ⟨t, b⟩ := p
    have hgp := hg (t, b) (by simp)
    rw [chainChars_regroup] at hfuel ⊢
    rw [fixEmptyLenGo_run w (headerChars t) (runSafeE_header w hw t hgp.1) fuel _]
    obtain ⟨b', f', heq, hf, ht⟩ := fixEmptyLenGo_body w hw b.length b (le_refl _) hgp.2
      (fuel - (headerChars t).length) (')' :: ';' :: chainSep rest)
    rw [heq]
    by_cases hre : rest = []
    · subst hre
      have hz : ('\n' :: ')' :: ';' :: chainSep ([] : List (String × List Char)))
          = ['\n', ')', ';'] ++ [] := by
        rw [chainSep, if_pos rfl]
        simp
      rw [hz, fixEmptyLenGo_run w ['\n', ')', ';']
        (runSafeE_nonletters w hw _ (by decide)) f' [], fixEmptyLenGo_nil]
      refine ⟨[(t, b')], ?_, by simp, ?_⟩
      · rw [chainChars_regroup, chainSep, if_pos rfl]
        simp
      · intro q hq
        simp only [List.mem_singleton] at hq
        rw [hq]
        exact ⟨hgp.1, ht⟩
    · have hz : ('\n' :: ')' :: ';' :: chainSep rest)
          = ['\n', ')', ';', '\n', '\n'] ++ chainChars rest := by
        rw [chainSep, if_neg hre]
        rfl
      rw [hz, fixEmptyLenGo_run w ['\n', ')', ';', '\n', '\n']
        (runSafeE_nonletters w hw _ (by decide)) f' (chainChars rest)]
      have hcs := chainSep_length rest hre
      simp only [List.length_append, List.length_cons] at hfuel
      have hfuel' : (chainChars rest).length ≤ f' - 5 := by omega
      obtain ⟨rest', heqr, hmapr, hgr⟩ :=
        ih (fun q hq => hg q (by simp [hq])) (f' - 5) hfuel'
      rw [show ((['\n', ')', ';', '\n', '\n'] : List Char).length) = 5 from rfl, heqr]
      have hne' : rest' ≠ [] := by
        intro h0
        rw [h0] at hmapr
        exact hre (List.map_eq_nil_iff.mp hmapr.symm)
      refine ⟨(t, b') :: rest', ?_, by simp [hmapr], ?_⟩
      · rw [chainChars_regroup, chainSep, if_neg hne']
        simp
      · intro q hq
        rcases List.mem_cons.mp hq with rfl | hq
        · exact ⟨hgp.1, ht⟩
        · exact hgr q hq

theorem fixCommaCloseGo_chain (close : Char) (hcl : close = ')' ∨ close = ';') :
    ∀ (bs : List (String × List Char)), GoodChain bs →
      ∀ fuel, (chainChars bs).length ≤ fuel →
      ∃ bs', fixCommaCloseGo close fuel (chainChars bs) = chainChars bs' ∧
        bs'.map Prod.fst = bs.map Prod.fst ∧ GoodChain bs' := by
  intro bs
  induction bs with
  | nil =>
    intro _ fuel _
    refine ⟨[], ?_, by simp, by intro p hp; simp at hp⟩
    rw [show chainChars [] = [] from rfl, fixCommaCloseGo_nil]
  | cons p rest ih =>
    intro hg fuel hfuel
    obtain ⟨t, b⟩ := p
    have hgp := hg (t, b) (by simp)
    rw [chainChars_regroup] at hfuel ⊢
    rw [fixCommaCloseGo_run close (headerChars t) (comma_not_header hgp.1) fuel _]
    obtain ⟨b', f', heq, hf, ht⟩ := fixCommaCloseGo_body close hcl b.length b (le_refl _)
      hgp.2 (fuel - (headerChars t).length) (')' :: ';' :: chainSep rest)
    rw [heq]
    by_cases hre : rest = []
    · subst hre
      have hz : ('\n' :: ')' :: ';' :: chainSep ([] : List (String × List Char)))
          = ['\n', ')', ';'] ++ [] := by
        rw [chainSep, if_pos rfl]
        simp
      rw [hz, fixCommaCloseGo_run close ['\n', ')', ';'] (by decide) f' [],
        fixCommaCloseGo_nil]
      refine ⟨[(t, b')], ?_, by simp, ?_⟩
      · rw [chainChars_regroup, chainSep, if_pos rfl]
        simp
      · intro q hq
        simp only [List.mem_singleton] at hq
        rw [hq]
        exact ⟨hgp.1, ht⟩
    · have hz : ('\n' :: ')' :: ';' :: chainSep rest)
          = ['\n', ')', ';', '\n', '\n'] ++ chainChars rest := by
        rw [chainSep, if_neg hre]
        rfl
      rw [hz, fixCommaCloseGo_run close ['\n', ')', ';', '\n', '\n'] (by decide) f'
        (chainChars rest)]
      have hcs := chainSep_length rest hre
      simp only [List.length_append, List.length_cons] at hfuel
      have hfuel' : (chainChars rest).length ≤ f' - 5 := by omega
      obtain ⟨rest', heqr, hmapr, hgr⟩ :=
        ih (fun q hq => hg q (by simp [hq])) (f' - 5) hfuel'
      rw [show ((['\n', ')', ';', '\n', '\n'] : List Char).length) = 5 from rfl, heqr]
      have hne' : rest' ≠ [] := by
        intro h0
        rw [h0] at hmapr
        exact hre (List.map_eq_nil_iff.mp hmapr.symm)
      refine ⟨(t, b') :: rest', ?_, by simp [hmapr], ?_⟩
      · rw [chainChars_regroup, chainSep, if_neg hne']
        simp
      · intro q hq
        rcases List.mem_cons.mp hq with rfl | hq
        · exact ⟨hgp.1, ht⟩
        · exact hgr q hq

theorem fix_sql_schema_chain (bs : List (String × List Char)) (hg : GoodChain bs) :
    ∃ bs', (fix_sql_schema (String.mk (chainChars bs))).data = chainChars bs' ∧
      bs'.map Prod.fst = bs.map Prod.fst ∧ GoodChain bs' := by
  obtain ⟨bs₁, h1, m1, g1⟩ := fixEmptyLenGo_chain "NVARCHAR".data (Or.inl rfl) bs hg
    (chainChars bs).length (le_refl _)
  obtain ⟨bs₂, h2, m2, g2⟩ := fixEmptyLenGo_chain "VARCHAR".data (Or.inr rfl) bs₁ g1
    (chainChars bs₁).length (le_refl _)
  obtain ⟨bs₃, h3, m3, g3⟩ := fixCommaCloseGo_chain ')' (Or.inl rfl) bs₂ g2
    (chainChars bs₂).length (le_refl _)
  obtain ⟨bs₄, h4, m4, g4⟩ := fixCommaCloseGo_chain ';' (Or.inr rfl) bs₃ g3
    (chainChars bs₃).length (le_refl _)
  refine ⟨bs₄, ?_, by rw [m4, m3, m2, m1], g4⟩
  have e0 : (fix_sql_schema (String.mk (chainChars bs))).data
      = fixCommaClose ';' (fixCommaClose ')' (fixEmptyLen "VARCHAR".data
        (fixEmptyLen "NVARCHAR".data (chainChars bs)))) := rfl
  rw [e0]
  rw [show fixEmptyLen "NVARCHAR".data (chainChars bs)
      = fixEmptyLenGo "NVARCHAR".data (chainChars bs).length (chainChars bs) from rfl, h1]
  rw [show fixEmptyLen "VARCHAR".data (chainChars bs₁)
      = fixEmptyLenGo "VARCHAR".data (chainChars bs₁).length (chainChars bs₁) from rfl, h2]
  rw [show fixCommaClose ')' (chainChars bs₂)
      = fixCommaCloseGo ')' (chainChars bs₂).length (chainChars bs₂) from rfl, h3]
  rw [show fixCommaClose ';' (chainChars bs₃)
      = fixCommaCloseGo ';' (chainChars bs₃).length (chainChars bs₃) from rfl, h4]

/- ------------------------------------------------------------------ -/
/- Every successful match ends at the first `);` at or after its      -/
/- prefix, and that prefix contains no closing parenthesis.           -/
/- ------------------------------------------------------------------ -/

theorem matchCreateAt_anatomy {cs : List Char} {k : Nat}
    (h : matchCreateAt cs = some k) :
    ∃ pre mid k₅, cs = pre ++ mid ∧ (')' : Char) ∉ pre ∧
      findCloseSemi mid = some k₅ ∧ k = pre.length + k₅ := by
  simp only [matchCreateAt] at h
  split at h
  · rename_i hsw
    split at h
    · rename_i c r1tail h1
      split at h
      · rename_i hws
        split at h
        · rename_i w0 r3tail h3
          split at h
          · rename_i hww
            split at h
            · rename_i k₅ h5
              -- abbreviate the nested expressions
              obtain ⟨r1, hr1⟩ : ∃ r1, List.drop 12 cs = r1 := ⟨_, rfl⟩
              rw [hr1] at h1 h3 h5 h
              obtain ⟨wsLen, hws1⟩ : ∃ n, (r1.takeWhile isPyWS).length = n := ⟨_, rfl⟩
              rw [hws1] at h3 h5 h
              obtain ⟨r2, hr2⟩ : ∃ r2, r1.drop wsLen = r2 := ⟨_, rfl⟩
              rw [hr2] at h3 h5 h
              obtain ⟨brLen, hbr⟩ : ∃ n, (if r2.take 1 = ['['] then 1 else 0) = n := ⟨_, rfl⟩
              rw [hbr] at h3 h5 h
              obtain ⟨r3, hr3⟩ : ∃ r3, r2.drop brLen = r3 := ⟨_, rfl⟩
              rw [hr3] at h3 h5 h
              obtain ⟨wLen, hwl⟩ : ∃ n, (r3.takeWhile isWordChar).length = n := ⟨_, rfl⟩
              rw [hwl] at h5 h
              obtain ⟨r4, hr4⟩ : ∃ r4, r3.drop wLen = r4 := ⟨_, rfl⟩
              rw [hr4] at h5 h
              obtain ⟨crLen, hcr⟩ : ∃ n, (if r4.take 1 = [']'] then 1 else 0) = n := ⟨_, rfl⟩
              rw [hcr] at h5 h
              obtain ⟨r5, hr5⟩ : ∃ r5, r4.drop crLen = r5 := ⟨_, rfl⟩
              rw [hr5] at h5
              have hk : k = 12 + wsLen + brLen + wLen + crLen + k₅ :=
                (Option.some.inj h).symm
              simp only [startsWithCI, decide_eq_true_eq] at hsw
              have h12 : (("CREATE TABLE".data : List Char)).length = 12 := rfl
              rw [h12] at hsw
              refine ⟨cs.take 12 ++ (r1.take wsLen ++ (r2.take brLen ++
                (r3.take wLen ++ r4.take crLen))), r5, k₅, ?_, ?_, h5, ?_⟩
              · rw [← hr5, ← hr4, ← hr3, ← hr2, ← hr1]
                simp only [List.append_assoc, List.take_append_drop]
              · simp only [List.mem_append, not_or]
                refine ⟨?_, ?_, ?_, ?_, ?_⟩
                · intro hmem
                  have h' : Char.toLower ')' ∈ (cs.take 12).map Char.toLower :=
                    List.mem_map_of_mem _ hmem
                  rw [hsw] at h'
                  exact absurd h' (by decide)
                · intro hmem
                  rw [← hws1, take_length_takeWhile] at hmem
                  exact absurd (List.mem_takeWhile_imp hmem) (by decide)
                · intro hmem
                  by_cases hb : r2.take 1 = ['[']
                  · rw [if_pos hb] at hbr
                    rw [← hbr, hb] at hmem
                    exact absurd hmem (by decide)
                  · rw [if_neg hb] at hbr
                    rw [← hbr] at hmem
                    simp at hmem
                · intro hmem
                  rw [← hwl, take_length_takeWhile] at hmem
                  exact absurd (List.mem_takeWhile_imp hmem) (by decide)
                · intro hmem
                  by_cases hb : r4.take 1 = [']']
                  · rw [if_pos hb] at hcr
                    rw [← hcr, hb] at hmem
                    exact absurd hmem (by decide)
                  · rw [if_neg hb] at hcr
                    rw [← hcr] at hmem
                    simp at hmem
              · have l1 : (cs.take 12).length = 12 := by
                  have := congrArg List.length hsw
                  simpa using this
                have l2 : (r1.take wsLen).length = wsLen := by
                  rw [← hws1, take_length_takeWhile]
                have l3 : (r2.take brLen).length = brLen := by
                  by_cases hb : r2.take 1 = ['[']
                  · rw [if_pos hb] at hbr
                    rw [← hbr, hb]
                    rfl
                  · rw [if_neg hb] at hbr
                    rw [← hbr]
                    rfl
                have l4 : (r3.take wLen).length = wLen := by
                  rw [← hwl, take_length_takeWhile]
                have l5 : (r4.take crLen).length = crLen := by
                  by_cases hb : r4.take 1 = [']']
                  · rw [if_pos hb] at hcr
                    rw [← hcr, hb]
                    rfl
                  · rw [if_neg hb] at hcr
                    rw [← hcr]
                    rfl
                simp only [List.length_append, l1, l2, l3, l4, l5]
                omega
            · exact absurd h (by simp)
          · exact absurd h (by simp)
        · exact absurd h (by simp)
      · exact absurd h (by simp)
    · exact absurd h (by simp)
  · exact absurd h (by simp)

theorem findCloseSemi_some_split :
    ∀ (L : List Char) (k : Nat), findCloseSemi L = some k →
      ∃ u v, L = u ++ ')' :: ';' :: v ∧ k = u.length + 2 := by
  intro L
  induction L with
  | nil => intro k h; simp [findCloseSemi] at h
  | cons c rest ih =>
    intro k h
    cases hr : rest with
    | nil =>
      subst hr
      simp [findCloseSemi] at h
    | cons d rest' =>
      subst hr
      rw [findCloseSemi] at h
      by_cases hp : c = ')' ∧ d = ';'
      · rw [if_pos hp] at h
        refine ⟨[], rest', ?_, ?_⟩
        · rw [hp.1, hp.2]
          rfl
        · simp [← Option.some.inj h]
      · rw [if_neg hp] at h
        cases hf : findCloseSemi (d :: rest') with
        | none => rw [hf] at h; simp at h
        | some k' =>
          rw [hf] at h
          simp at h
          obtain ⟨u, v, hu, hk⟩ := ih k' hf
          refine ⟨c :: u, v, by rw [hu]; rfl, ?_⟩
          simp only [List.length_cons]
          omega

theorem findCloseSemi_min :
    ∀ (L : List Char) (k : Nat), findCloseSemi L = some k →
      ∀ x y, L = x ++ ')' :: ';' :: y → k ≤ x.length + 2 := by
  intro L
  induction L with
  | nil => intro k h; simp [findCloseSemi] at h
  | cons c rest ih =>
    intro k h x y hxy
    cases hr : rest with
    | nil =>
      subst hr
      simp [findCloseSemi] at h
    | cons d rest' =>
      subst hr
      rw [findCloseSemi] at h
      by_cases hp : c = ')' ∧ d = ';'
      · rw [if_pos hp] at h
        have := Option.some.inj h
        omega
      · rw [if_neg hp] at h
        cases hx : x with
        | nil =>
          subst hx
          rw [List.nil_append] at hxy
          have h1 := (List.cons.injEq _ _ _ _).mp hxy
          have h2 := (List.cons.injEq _ _ _ _).mp h1.2
          exact absurd ⟨h1.1, h2.1⟩ hp
        | cons e x' =>
          subst hx
          have h1 := (List.cons.injEq _ _ _ _).mp hxy
          cases hf : findCloseSemi (d :: rest') with
          | none => rw [hf] at h; simp at h
          | some k' =>
            rw [hf] at h
            simp at h
            have := ih k' hf x' y h1.2
            simp only [List.length_cons]
            omega

theorem findCloseSemi_isSome :
    ∀ (u v : List Char), ∃ k, findCloseSemi (u ++ ')' :: ';' :: v) = some k := by
  intro u
  induction u with
  | nil =>
    intro v
    refine ⟨2, ?_⟩
    rw [List.nil_append, findCloseSemi, if_pos ⟨rfl, rfl⟩]
  | cons c u' ih =>
    intro v
    obtain ⟨d, rest'', hdr⟩ : ∃ d rest'', u' ++ ')' :: ';' :: v = d :: rest'' := by
      cases hh : u' ++ ')' :: ';' :: v with
      | nil => exact absurd (congrArg List.length hh) (by simp)
      | cons d rest'' => exact ⟨d, rest'', rfl⟩
    obtain ⟨k, hk⟩ := ih v
    rw [List.cons_append, hdr]
    by_cases hp : c = ')' ∧ d = ';'
    · exact ⟨2, by rw [findCloseSemi, if_pos hp]⟩
    · refine ⟨k + 1, ?_⟩
      rw [findCloseSemi, if_neg hp, ← hdr, hk]
      rfl

theorem matchCreateAt_split {cs : List Char} {k : Nat}
    (h : matchCreateAt cs = some k) :
    ∃ u v, cs = u ++ ')' :: ';' :: v ∧ k = u.length + 2 := by
  obtain ⟨pre, mid, k₅, hcs, hpre, h5, hk⟩ := matchCreateAt_anatomy h
  obtain ⟨u₅, v, hu, hk5⟩ := findCloseSemi_some_split mid k₅ h5
  refine ⟨pre ++ u₅, v, ?_, ?_⟩
  · rw [hcs, hu]
    simp [List.append_assoc]
  · simp only [List.length_append]
    omega

theorem matchCreateAt_min {cs : List Char} {k : Nat}
    (h : matchCreateAt cs = some k) :
    ∀ x y, cs = x ++ ')' :: ';' :: y → k ≤ x.length + 2 := by
  obtain ⟨pre, mid, k₅, hcs, hpre, h5, hk⟩ := matchCreateAt_anatomy h
  intro x y hxy
  rw [hcs] at hxy
  rcases List.append_eq_append_iff.mp hxy with ⟨a', hx, ha⟩ | ⟨c', hpre2, hc⟩
  · have := findCloseSemi_min mid k₅ h5 a' y ha
    rw [hx]
    simp only [List.length_append]
    omega
  · cases hce : c' with
    | nil =>
      subst hce
      rw [List.nil_append] at hc
      have hplen : pre.length = x.length := by
        rw [hpre2]
        simp
      have := findCloseSemi_min mid k₅ h5 [] y (by rw [← hc]; rfl)
      simp only [List.length_nil] at this
      omega
    | cons e c'' =>
      subst hce
      have h1 := (List.cons.injEq _ _ _ _).mp hc.symm
      exfalso
      apply hpre
      rw [hpre2, h1.1]
      simp

theorem matchCreateAt_tail_le {s₀ T : List Char} {k : Nat}
    (h : matchCreateAt ((s₀ ++ [')', ';']) ++ T) = some k) : k ≤ s₀.length + 2 :=
  matchCreateAt_min h s₀ T (by simp)

theorem matchCreateAt_ge_two {cs : List Char} {k : Nat}
    (h : matchCreateAt cs = some k) : 2 ≤ k := by
  obtain ⟨u, v, -, hk⟩ := matchCreateAt_split h
  omega

theorem matchCreateAt_head_fail {c : Char} (hc : Char.toLower c ≠ 'c') (cs : List Char) :
    matchCreateAt (c :: cs) = none := by
  have hsw : startsWithCI "CREATE TABLE".data (c :: cs) = false := by
    rw [show ("CREATE TABLE".data : List Char) = 'C' :: "REATE TABLE".data from rfl]
    exact ci_false_of_head _ _ (by rw [show Char.toLower 'C' = 'c' from rfl]; exact hc)
  simp [matchCreateAt, hsw]

theorem findAllCreateGo_nil (fuel : Nat) : findAllCreateGo fuel [] = [] := by
  cases fuel <;> rfl

theorem findAllCreateGo_match (fuel n : Nat) (c : Char) (rest : List Char)
    (h : matchCreateAt (c :: rest) = some n) :
    findAllCreateGo (fuel + 1) (c :: rest) =
      (c :: rest).take n :: findAllCreateGo fuel ((c :: rest).drop n) := by
  simp only [findAllCreateGo, h]

theorem findAllCreateGo_skip (fuel : Nat) (c : Char) (rest : List Char)
    (h : matchCreateAt (c :: rest) = none) :
    findAllCreateGo (fuel + 1) (c :: rest) = findAllCreateGo fuel rest := by
  simp only [findAllCreateGo, h]

/- ------------------------------------------------------------------ -/
/- The pattern always matches at a real header.                        -/
/- ------------------------------------------------------------------ -/

theorem headerChars_no_paren {t : String} (ht : WordName t) :
    (')' : Char) ∉ headerChars t := by
  rw [headerChars]
  simp only [List.mem_append, not_or]
  exact ⟨⟨by decide, not_mem_of_all_word (by decide) ht.2⟩, by decide⟩

theorem matchCreateAt_header (t : String) (W : List Char) (ht : WordName t)
    (hW : ∃ u v, W = u ++ ')' :: ';' :: v) :
    ∃ k, matchCreateAt (headerChars t ++ W) = some k := by
  obtain ⟨htne, htw⟩ := ht
  obtain ⟨w, T', hT⟩ : ∃ w T', t.data = w :: T' := by
    cases hx : t.data with
    | nil => exact absurd hx htne
    | cons w T' => exact ⟨w, T', rfl⟩
  have hw : isWordChar w = true := htw w (by rw [hT]; simp)
  have hL : headerChars t ++ W = "CREATE TABLE".data ++
      (' ' :: '[' :: (t.data ++ ']' :: ' ' :: '(' :: '\n' :: W)) := by
    simp [headerChars]
  have e1 : ((' ' :: '[' :: (t.data ++ ']' :: ' ' :: '(' :: '\n' :: W) :
      List Char).takeWhile isPyWS) = [' '] := by
    rw [List.takeWhile_cons_of_pos (by decide), List.takeWhile_cons_of_neg (by decide)]
  have e2 : ((w :: (T' ++ ']' :: ' ' :: '(' :: '\n' :: W) :
      List Char).takeWhile isWordChar) = w :: T' := by
    rw [← List.cons_append, ← hT]
    exact takeWhile_word_stop htw (by decide) _
  have e3 : ((w :: (T' ++ ']' :: ' ' :: '(' :: '\n' :: W) :
      List Char).drop (w :: T').length) = ']' :: ' ' :: '(' :: '\n' :: W := by
    rw [← List.cons_append]
    exact List.drop_left _ _
  obtain ⟨u, v, hWe⟩ := hW
  obtain ⟨k₅, e4⟩ := findCloseSemi_isSome (' ' :: '(' :: '\n' :: u) v
  have e4' : findCloseSemi (' ' :: '(' :: '\n' :: W) = some k₅ := by
    rw [hWe, show (' ' :: '(' :: '\n' :: (u ++ ')' :: ';' :: v) : List Char)
      = (' ' :: '(' :: '\n' :: u) ++ ')' :: ';' :: v from by simp]
    exact e4
  refine ⟨12 + 1 + 1 + (w :: T').length + 1 + k₅, ?_⟩
  rw [hL]
  simp only [matchCreateAt]
  rw [if_pos (startsWithCI_self_append _ _)]
  rw [List.drop_left' (by decide : ("CREATE TABLE".data : List Char).length = 12)]
  simp only []
  rw [if_pos (by decide : isPyWS ' ' = true)]
  rw [e1]
  simp only [List.length_singleton, List.drop_succ_cons, List.drop_zero,
    List.take_succ_cons, List.take_zero]
  rw [hT]
  simp only [List.cons_append, hw, if_true, if_pos, List.take_succ_cons, List.take_zero,
    List.drop_succ_cons, List.drop_zero, e2, e3, e4']

theorem matchCreateAt_header_ge {t : String} {W : List Char} {k : Nat} (ht : WordName t)
    (h : matchCreateAt (headerChars t ++ W) = some k) :
    (headerChars t).length + 2 ≤ k := by
  obtain ⟨u, v, hcs, hk⟩ := matchCreateAt_split h
  rcases Nat.lt_or_ge u.length (headerChars t).length with hlt | hge
  · exfalso
    rcases List.append_eq_append_iff.mp hcs with ⟨a', hh, ha⟩ | ⟨c', hu, hc⟩
    · rw [hh] at hlt
      simp at hlt
    · cases hce : c' with
      | nil =>
        subst hce
        rw [List.append_nil] at hu
        rw [hu] at hlt
        omega
      | cons e c'' =>
        subst hce
        rw [List.cons_append] at hc
        have h1 := (List.cons.injEq _ _ _ _).mp hc.symm
        apply headerChars_no_paren ht
        rw [hu, ← h1.1]
        simp
  · omega

/- ------------------------------------------------------------------ -/
/- Extracting the name from any text that begins with a header.        -/
/- ------------------------------------------------------------------ -/

theorem extract_header (t : String) (Y : List Char) (ht : WordName t) :
    extract_table_name (String.mk (headerChars t ++ Y)) = t := by
  obtain ⟨htne, htw⟩ := ht
  obtain ⟨w, T', hT⟩ : ∃ w T', t.data = w :: T' := by
    cases hx : t.data with
    | nil => exact absurd hx htne
    | cons w T' => exact ⟨w, T', rfl⟩
  have hL : headerChars t ++ Y = "CREATE TABLE".data ++
      (' ' :: '[' :: (t.data ++ ']' :: ' ' :: '(' :: '\n' :: Y)) := by
    simp [headerChars]
  simp only [extract_table_name]
  rw [hL]
  rw [if_pos (startsWithCI_self_append _ _)]
  rw [List.drop_left' (by decide : ("CREATE TABLE".data : List Char).length = 12)]
  simp only []
  rw [if_pos (by decide : isPyWS ' ' = true)]
  rw [List.dropWhile_cons_of_pos (by decide), List.dropWhile_cons_of_neg (by decide)]
  rw [show (if (('[' :: (t.data ++ ']' :: ' ' :: '(' :: '\n' :: Y) : List Char).take 1) = ['['] then
      ('[' :: (t.data ++ ']' :: ' ' :: '(' :: '\n' :: Y) : List Char).drop 1
    else ('[' :: (t.data ++ ']' :: ' ' :: '(' :: '\n' :: Y) : List Char))
    = t.data ++ ']' :: ' ' :: '(' :: '\n' :: Y from by simp]
  rw [hT]
  simp only [List.cons_append]
  rw [if_pos (htw w (by rw [hT]; simp))]
  rw [← List.cons_append, ← hT,
    takeWhile_word_stop htw (by decide : isWordChar ']' = false) _]

theorem extract_take_header (t : String) (W : List Char) (k : Nat) (ht : WordName t)
    (hk : (headerChars t).length ≤ k) :
    extract_table_name (String.mk ((headerChars t ++ W).take k)) = t := by
  rw [List.take_append_eq_append_take, List.take_of_length_le hk]
  exact extract_header t _ ht

/- ------------------------------------------------------------------ -/
/- Remainders of a block keep their benign shape while scanning.       -/
/- ------------------------------------------------------------------ -/

theorem tailShape_tail {c : Char} {s' : List Char} (h : TailShape (c :: s')) :
    TailShape s' := by
  rcases h with h | h | ⟨s₀, h⟩
  · exact absurd h (by simp)
  · left
    exact ((List.cons.injEq _ _ _ _).mp h).2
  · cases hs0 : s₀ with
    | nil =>
      subst hs0
      rw [List.nil_append] at h
      right
      left
      exact ((List.cons.injEq _ _ _ _).mp h).2
    | cons a s₀' =>
      subst hs0
      rw [List.cons_append] at h
      right
      right
      exact ⟨s₀', ((List.cons.injEq _ _ _ _).mp h).2⟩

theorem tailShape_drop (s₀ : List Char) (k : Nat) (hk : k ≤ s₀.length + 2) :
    TailShape ((s₀ ++ [')', ';']).drop k) := by
  rcases Nat.lt_or_ge k (s₀.length + 1) with hlt | hge
  · right
    right
    refine ⟨s₀.drop k, ?_⟩
    rw [List.drop_append_of_le_length (by omega)]
  · rcases Nat.lt_or_ge k (s₀.length + 2) with hlt2 | hge2
    · right
      left
      have hk1 : k = s₀.length + 1 := by omega
      rw [hk1, List.drop_append_eq_append_drop, List.drop_of_length_le (by omega)]
      have h2 : s₀.length + 1 - s₀.length = 1 := by omega
      rw [h2]
      rfl
    · left
      have hk2 : k = s₀.length + 2 := by omega
      rw [List.drop_eq_nil_iff]
      simp
      omega

/- ------------------------------------------------------------------ -/
/- The scan reaches every real header: every table name of the chain   -/
/- is extracted.                                                       -/
/- ------------------------------------------------------------------ -/

theorem scan_aux :
    ∀ fuel : Nat,
      (∀ (s : List Char) (bs : List (String × List Char)), TailShape s →
        (∀ p ∈ bs, WordName p.1) → (s ++ chainSep bs).length ≤ fuel →
        ∀ nm ∈ bs.map Prod.fst,
          nm ∈ (findAllCreateGo fuel (s ++ chainSep bs)).map
            (fun m => extract_table_name (String.mk m))) ∧
      (∀ (bs : List (String × List Char)),
        (∀ p ∈ bs, WordName p.1) → (chainChars bs).length ≤ fuel →
        ∀ nm ∈ bs.map Prod.fst,
          nm ∈ (findAllCreateGo fuel (chainChars bs)).map
            (fun m => extract_table_name (String.mk m))) := by
  intro fuel
  induction fuel using Nat.strong_induction_on with
  | _ fuel ih =>
  constructor
  · -- part 1: a block remainder, then the rest of the chain
    intro s bs hts hw hlen nm hnm
    cases bs with
    | nil => simp at hnm
    | cons p rest =>
      have hsep : chainSep (p :: rest) = '\n' :: '\n' :: chainChars (p :: rest) := by
        rw [chainSep, if_neg (by simp)]
      obtain ⟨c, s', rfl⟩ | rfl : (∃ c s', s = c :: s') ∨ s = [] := by
        cases s with
        | nil => exact Or.inr rfl
        | cons c s' => exact Or.inl ⟨c, s', rfl⟩
      · -- s nonempty: one scan step
        rw [hsep] at hlen ⊢
        obtain ⟨f, rfl⟩ : ∃ f, fuel = f + 1 := ⟨fuel - 1, by simp at hlen; omega⟩
        rw [List.cons_append]
        cases hm : matchCreateAt (c :: (s' ++ '\n' :: '\n' :: chainChars (p :: rest))) with
        | none =>
          rw [findAllCreateGo_skip _ _ _ hm]
          have hrec := (ih f (by omega)).1 s' (p :: rest) (tailShape_tail hts) hw
            (by rw [hsep]; simp at hlen ⊢; omega) nm hnm
          rw [hsep] at hrec
          exact hrec
        | some k =>
          -- the match stays inside s
          rcases hts with h0 | h0 | ⟨s₀, h0⟩
          · exact absurd h0 (by simp)
          · -- s = [';']: impossible, `;` cannot start the pattern
            have : c = ';' := ((List.cons.injEq _ _ _ _).mp h0).1
            rw [this, matchCreateAt_head_fail (by decide) _] at hm
            exact Option.noConfusion hm
          · have hk2 : 2 ≤ k := matchCreateAt_ge_two hm
            have hkle : k ≤ s₀.length + 2 := by
              have hm2 : matchCreateAt ((s₀ ++ [')', ';']) ++
                  ('\n' :: '\n' :: chainChars (p :: rest))) = some k := by
                rw [← h0]
                exact hm
              exact matchCreateAt_tail_le hm2
            have hslen : (c :: s').length = s₀.length + 2 := by
              rw [h0]
              simp
            rw [findAllCreateGo_match _ _ _ _ hm]
            rw [List.map_cons]
            refine List.mem_cons.mpr (Or.inr ?_)
            have hdrop : (c :: (s' ++ '\n' :: '\n' :: chainChars (p :: rest))).drop k
                = (c :: s').drop k ++ '\n' :: '\n' :: chainChars (p :: rest) := by
              rw [← List.cons_append]
              rw [List.drop_append_of_le_length (by omega)]
            rw [hdrop]
            have hshape : TailShape ((c :: s').drop k) := by
              rw [h0]
              exact tailShape_drop s₀ k hkle
            have hrec := (ih f (by omega)).1 ((c :: s').drop k) (p :: rest) hshape hw
              (by rw [hsep]; simp at hlen ⊢; omega) nm hnm
            rw [hsep] at hrec
            exact hrec
      · -- s = []: two newline skips, then the chain itself
        rw [List.nil_append, hsep] at hlen ⊢
        obtain ⟨f, rfl⟩ : ∃ f, fuel = f + 1 := ⟨fuel - 1, by simp at hlen; omega⟩
        rw [findAllCreateGo_skip _ _ _ (matchCreateAt_head_fail (by decide) _)]
        obtain ⟨f2, rfl⟩ : ∃ f2, f = f2 + 1 := ⟨f - 1, by simp at hlen; omega⟩
        rw [findAllCreateGo_skip _ _ _ (matchCreateAt_head_fail (by decide) _)]
        refine (ih f2 (by omega)).2 (p :: rest) hw ?_ nm hnm
        simp at hlen ⊢
        omega
  · -- part 2: the chain starts with a header, which always matches
    intro bs hw hlen nm hnm
    cases bs with
    | nil => simp at hnm
    | cons p rest =>
      obtain ⟨t, b⟩ := p
      have hwp : WordName t := (hw (t, b) (by simp))
      rw [chainChars_regroup] at hlen ⊢
      obtain ⟨k, hm⟩ := matchCreateAt_header t (b ++ '\n' :: ')' :: ';' :: chainSep rest)
        hwp ⟨b ++ ['\n'], chainSep rest, by simp⟩
      have hge := matchCreateAt_header_ge hwp hm
      have hle : k ≤ (headerChars t).length + b.length + 3 := by
        have := matchCreateAt_min hm (headerChars t ++ b ++ ['\n']) (chainSep rest)
          (by simp)
        simp only [List.length_append, List.length_cons, List.length_nil] at this
        omega
      have hcons : headerChars t ++ (b ++ '\n' :: ')' :: ';' :: chainSep rest)
          = 'C' :: ("REATE TABLE [".data ++ t.data ++ "] (\n".data ++
            (b ++ '\n' :: ')' :: ';' :: chainSep rest)) := by
        simp [headerChars]
      have hm' := hm
      rw [hcons] at hm'
      obtain ⟨f, rfl⟩ : ∃ f, fuel = f + 1 := ⟨fuel - 1, by simp at hlen; omega⟩
      rw [hcons, findAllCreateGo_match _ _ _ _ hm', ← hcons, List.map_cons]
      simp only [List.map_cons, List.mem_cons] at hnm
      rcases hnm with rfl | hnm
      · exact List.mem_cons.mpr (Or.inl (extract_take_header _ _ k hwp (by omega)).symm)
      · refine List.mem_cons.mpr (Or.inr ?_)
        have htext : headerChars t ++ (b ++ '\n' :: ')' :: ';' :: chainSep rest)
            = ((headerChars t ++ b ++ ['\n']) ++ [')', ';']) ++ chainSep rest := by
          simp
        have hdrop : (headerChars t ++ (b ++ '\n' :: ')' :: ';' :: chainSep rest)).drop k
            = ((headerChars t ++ b ++ ['\n']) ++ [')', ';']).drop k ++ chainSep rest := by
          rw [htext, List.drop_append_of_le_length (by simp; omega)]
        rw [hdrop]
        have hshape : TailShape (((headerChars t ++ b ++ ['\n']) ++ [')', ';']).drop k) :=
          tailShape_drop _ k (by simp; omega)
        refine (ih f (by omega)).1 _ rest hshape (fun q hq => hw q (by simp [hq])) ?_ nm ?_
        · simp only [List.length_append, List.length_drop, List.length_cons,
            List.length_singleton] at hlen ⊢
          simp at hlen ⊢
          omega
        · exact List.mem_map.mpr (by
            obtain ⟨q, hq, hqe⟩ := List.mem_map.mp hnm
            exact ⟨q, hq, hqe⟩)

/- ------------------------------------------------------------------ -/
/- C1 theorems.                                                        -/
/- ------------------------------------------------------------------ -/

/-- C1 (amended): for every catalog row set in which every table name
present is a nonempty `\w` word, re-parsing the synthesized DDL text
(after `fix_sql_schema`) with `split_schema_to_tables` followed by
`extract_table_name` recovers every table name present in the input
rows — whatever the other textual fields of the rows contain. -/
theorem c1_round_trip (rows : List CatalogRow)
    (hben : ∀ r ∈ rows, ∀ T, r.table_name = some T → WordName T) (T : String)
    (hT : ∃ r ∈ rows, r.table_name = some T) :
    T ∈ (split_schema_to_tables (fix_sql_schema (buildSchemaText rows))).map
      extract_table_name := by
  obtain ⟨BS, hdata, hgood, hnames⟩ := buildSchemaText_shape rows hben
  have hTin : T ∈ BS.map Prod.fst := hnames T hT
  have hmk : buildSchemaText rows = String.mk (chainChars BS) := String.ext hdata
  obtain ⟨BS', hfix, hmap, hgood'⟩ := fix_sql_schema_chain BS hgood
  rw [hmk]
  unfold split_schema_to_tables
  rw [hfix]
  rw [List.map_map]
  have hTin' : T ∈ BS'.map Prod.fst := by
    rw [hmap]
    exact hTin
  have hscan := (scan_aux (chainChars BS').length).2 BS'
    (fun p hp => (hgood' p hp).1) (le_refl _) T hTin'
  simpa [Function.comp] using hscan

/-- Witness for C1: a concrete one-row catalog whose table name `Users`
survives the round trip even though its data type field is the hostile
text `junk); (`. -/
theorem c1_round_trip_witness :
    "Users" ∈ (split_schema_to_tables (fix_sql_schema (buildSchemaText
      [{ CatalogRow.blank with table_name := some "Users", data_type := some "junk); (" }]))).map
        extract_table_name := by
  refine c1_round_trip _ ?_ "Users"
    ⟨{ CatalogRow.blank with table_name := some "Users", data_type := some "junk); (" },
      by simp, rfl⟩
  intro r hr T hT
  simp only [List.mem_singleton] at hr
  subst hr
  have hTu : T = "Users" := by
    simpa using hT.symm
  subst hTu
  exact ⟨by decide, by decide⟩

/-- Counterexample to C1 as stated: a catalog whose single row carries
the table name `My Table` (every row carries a table name), yet the
round trip recovers only `My` — the `\w+` capture of
`extract_table_name` stops at the space. -/
theorem c1_round_trip_counterexample :
    (∀ r ∈ [{ CatalogRow.blank with table_name := some "My Table" }],
        ∃ T, r.table_name = some T) ∧
    ((split_schema_to_tables (fix_sql_schema (buildSchemaText
       [{ CatalogRow.blank with table_name := some "My Table" }]))).map
         extract_table_name = ["My"]) ∧
    "My Table" ∉ (split_schema_to_tables (fix_sql_schema (buildSchemaText
       [{ CatalogRow.blank with table_name := some "My Table" }]))).map
         extract_table_name := by
  have h2 : (split_schema_to_tables (fix_sql_schema (buildSchemaText
      [{ CatalogRow.blank with table_name := some "My Table" }]))).map
        extract_table_name = ["My"] := by decide
  refine ⟨?_, h2, by rw [h2]; decide⟩
  intro r hr
  simp only [List.mem_singleton] at hr
  subst hr
  exact ⟨"My Table", rfl⟩
